import Mathlib

/-!
# Verification of the packed dynamic bitvector (nicola-gigante/bitvector)

Shallow embedding, in Lean 4, of the core of the repository:

* the low-level bit helpers (`include/internal/bits.h`, reconstructed from
  their uses and from the sibling `include/bits.h`),
* `bitview` (`include/bitview.h`): get/set of bit ranges and the
  overlap-aware forward/backward copy over a container of 64-bit words,
* `packed_view` (`include/packed_view.h`): packed fixed-width fields with
  broadcast assignment and SIMD-in-a-word increment/decrement,
* `bt_impl` (`src/bitvector.cpp`): the packed B+-tree engine with
  `access` and `insert`.

Machine words are modelled as `Nat` kept below `2 ^ 64`; every operation
that can wrap takes an explicit `% 2 ^ 64`.  Containers are `List Nat`.
C++ `assert`s are preconditions (release semantics): they do not alter the
embedded computation, and theorems carry them as hypotheses where needed.
-/

namespace BV

/-- Word width of the machine word (`bitview_base::word_type = uint64_t`). -/
def W : Nat := 64

/-- `2 ^ 64`, the modulus of machine-word arithmetic. -/
def M : Nat := 2 ^ 64

/-- Helper for `popcount`: structural recursion on a fuel argument so that
the kernel can evaluate it (`fuel ≥ n` suffices since `n` halves each step). -/
def popcountAux : Nat → Nat → Nat
  | 0, _ => 0
  | fuel + 1, n => if n = 0 then 0 else n % 2 + popcountAux fuel (n / 2)

/-- Number of set bits of a natural number
(`popcount` of `include/internal/bits.h`, a `__builtin_popcount` wrapper). -/
def popcount (n : Nat) : Nat := popcountAux n n

/-- `is_empty_range` of `bits.h`. -/
def isEmptyRange (b e : Nat) : Bool := e ≤ b

/-- Mask with ones exactly at bit positions `[b, e)`, `b ≤ e ≤ 64`
(`ones` of `bits.h`: `(max >> (W - end + begin)) << begin`, with the
empty-range guard). -/
def ones (b e : Nat) : Nat :=
  if b = e then 0 else ((M - 1) >>> (64 - e + b)) <<< b

/-- `zeroes` of `bits.h`: complement of `ones b e` within the word. -/
def zeroes (b e : Nat) : Nat := ones 0 b ||| ones e 64

/-- `bitfield`/`get_bitfield` of `bits.h`: bits `[b, e)` of `w`, shifted down. -/
def bitfield (w b e : Nat) : Nat := (w &&& ones b e) >>> b

/-- `set_bitfield` of `bits.h`: overwrite bits `[b, e)` of `w` with the low
bits of `v`.  The source masks the shifted value with `~zeroes(b, e)`, which
on a 64-bit word equals `ones(b, e)`; the value cannot spill outside. -/
def setBitfield (w b e v : Nat) : Nat :=
  (w &&& zeroes b e) ||| ((v <<< b) &&& ones b e)

/-- `lowbits` of `internal/bits.h` (used by `bitview` and `packed_view`):
keep the low `n` bits of `v`. -/
def lowbits (v n : Nat) : Nat := v &&& ones 0 n

/-- `highbits` of `internal/bits.h`: keep the high `n` bits of `v`. -/
def highbits (v n : Nat) : Nat := v &&& ones (64 - n) 64

/-- `get_bit`/`bit` of `bits.h`: the `i`-th bit of a word. -/
def bit (w i : Nat) : Bool := w >>> i % 2 = 1

/-- `insert_bit` of `bits.h`:
`bit << index | (bitfield(word, index, W) << (index + 1)) | bitfield(word, 0, index)`. -/
def insertBit (w i : Nat) (b : Bool) : Nat :=
  ((if b then 1 else 0) <<< i) |||
    ((bitfield w i 64 <<< (i + 1)) &&& (M - 1)) ||| bitfield w 0 i

/-- `ceildiv` of `internal/bits.h`. -/
def ceildiv (a b : Nat) : Nat := (a + b - 1) / b

/-!
## bitview (`include/bitview.h`)

The container of 64-bit words is a `List Nat`.  Out-of-range accesses, which
are undefined behavior in C++, read `0` and drop writes here; all theorems
stay within bounds.
-/

/-- Read word `i` of the container (`_container[i]`). -/
def wget (c : List Nat) (i : Nat) : Nat := c.getD i 0

/-- Write word `i` of the container. -/
def wset (c : List Nat) (i v : Nat) : List Nat := c.set i v

/-- Bit `i` of the bit stream presented by the container (bit 0 is the least
significant bit of word 0): the reference semantics for `bitview`, matching
`bitview::get(size_t index)` at `bitview.h:239`. -/
def bitAt (c : List Nat) (i : Nat) : Bool := (wget c (i / 64)).testBit (i % 64)

/-- `bitview::get(begin, end)` (`bitview.h:206`, the Klunder branch-free
range read): value of bits `[b, e)`, for `e - b ≤ 64`. -/
def bvGet (c : List Nat) (b e : Nat) : Nat :=
  let mask := M - 64                                -- `~size_t(0) / bits * bits`
  let loIndex := b / 64
  let hiIndex := (e - (if 0 < e then 1 else 0)) / 64
  let hiShift := (mask - e) % 64
  let hiVal := (((wget c hiIndex) <<< hiShift) % M) >>> hiShift
  let loShift := b % 64
  if hiIndex ≤ loIndex then
    (hiVal >>> loShift) * (if b < e then 1 else 0)
  else
    ((hiVal <<< (64 - loShift)) % M) ||| ((wget c loIndex) >>> loShift)

/-- `bitview::set(begin, end, value)` (`bitview.h:274`): write the low
`e - b` bits of `v` into positions `[b, e)`.  The C++ asserts
`e - b ≤ W`, a valid range, and that `v` fits (`ensure_bitsize`); those are
preconditions, not part of the computation. -/
def bvSet (c : List Nat) (b e v : Nat) : List Nat :=
  if isEmptyRange b e then c else
  -- `locate(begin, end)` (`bitview.h:183`)
  let index := b / 64
  let lbegin := b % 64
  let len := e - b
  let llen := min (64 - lbegin) len
  let hlen := len - llen
  let c1 := wset c index (setBitfield (wget c index) lbegin (lbegin + llen) v)
  if hlen ≠ 0 then
    wset c1 (index + 1)
      (setBitfield (wget c1 (index + 1)) 0 hlen (bitfield v llen (llen + hlen)))
  else c1

/-- Middle loop of `bitview::copy_forward` (`bitview.h:339`): whole
destination words, read through `get` from the *current* container (the
source aliases the destination in the self-copy case). -/
def copyForwardWords : Nat → List Nat → Nat → Nat → List Nat
  | 0, c, _, _ => c
  | k + 1, c, i, srcPos =>
      copyForwardWords k (wset c i (bvGet c srcPos (srcPos + 64))) (i + 1) (srcPos + 64)

/-- `bitview::copy_forward` (`bitview.h:312`), with the source aliased to the
destination container (the self-copy case of `bitview::copy`). -/
def copyForward (c : List Nat) (sb se db de : Nat) : List Nat :=
  let dbi := db / 64
  let dbp := db % 64
  let dei := de / 64
  let dep := de % 64
  let highpart := (if dbi = dei then 1 else 0) * (64 - dep)
  let len := (64 - dbp) - highpart
  let v := ((bvGet c sb (sb + len)) <<< dbp) % M |||
             lowbits (wget c dbi) dbp ||| highbits (wget c dbi) highpart
  let c1 := wset c dbi v
  let srcPos := sb + len
  let c2 := copyForwardWords (dei - (dbi + 1)) c1 (dbi + 1) srcPos
  let srcPos2 := srcPos + 64 * (dei - (dbi + 1))
  let len2 := se - srcPos2
  if 0 < len2 then
    wset c2 dei (bvGet c2 srcPos2 (srcPos2 + len2) ||| highbits (wget c2 dei) (64 - len2))
  else c2

/-- Middle loop of `bitview::copy_backward` (`bitview.h:382`): whole
destination words, descending; returns the final container together with the
final `dest_pos` and `src_pos`.  The iteration count is
`(dest_pos - dest_begin) / 64`, matching the loop guard
`dest_pos - dest_begin ≥ W` with a step of exactly one word. -/
def copyBackwardWords : Nat → List Nat → Nat → Nat → List Nat × Nat × Nat
  | 0, c, destPos, srcPos => (c, destPos, srcPos)
  | k + 1, c, destPos, srcPos =>
      let destPos' := destPos - 64
      let srcPos' := srcPos - 64
      copyBackwardWords k (wset c (destPos' / 64) (bvGet c srcPos' (srcPos' + 64)))
        destPos' srcPos'

/-- `bitview::copy_backward` (`bitview.h:354`), source aliased to the
destination container. -/
def copyBackward (c : List Nat) (sb se db de : Nat) : List Nat :=
  let dbi := db / 64
  let dbp := db % 64
  let dei := de / 64
  let dep := de % 64
  let lowpart := dbp * (if dbi = dei then 1 else 0)
  let lastpart := dep - lowpart
  let srcPos := se - lastpart
  let c1 := wset c dei (highbits (wget c dei) (64 - dep) |||
              ((bvGet c srcPos se) <<< lowpart) % M ||| lowbits (wget c dei) lowpart)
  let destPos := de - lastpart
  let out := copyBackwardWords ((destPos - db) / 64) c1 destPos srcPos
  let c2 := out.1
  let srcPos2 := out.2.2
  let firstpart := srcPos2 - sb
  if 0 < firstpart then
    wset c2 dbi (lowbits (wget c2 dbi) dbp ||| ((bvGet c2 sb srcPos2) <<< dbp) % M)
  else c2

/-- `bitview::copy` for a source that is the same view (`bitview.h:415`):
truncate the source if the destination is shorter, then copy backward exactly
when `this == &src && src_begin < dest_begin` (here the source *is* the
receiver, so the test is `sb < db`), else forward. -/
def bvCopy (c : List Nat) (sb se db de : Nat) : List Nat :=
  let srclen := se - sb
  let destlen := de - db
  let se' := if destlen < srclen then sb + destlen else se
  let srclen' := if destlen < srclen then destlen else srclen
  if sb < db then copyBackward c sb se' db (db + srclen')
  else copyForward c sb se' db (db + srclen')

/-!
## packed_view (`include/packed_view.h`)
-/

/-- The state of a `packed_view<std::vector>`: the underlying `bitview`
words, the field count, the field width, and the precomputed field mask. -/
structure PV where
  bits : List Nat
  size : Nat
  width : Nat
  fieldMask : Nat
deriving Repr, DecidableEq

/-- `packed_view::compute_field_mask` (`packed_view.h:211`):
`fields_per_word` iterations of `mask = mask << width | 1`.  No reduction
mod `2 ^ 64` is needed: the result has its top set bit at position
`(fields_per_word - 1) * width < 64`. -/
def computeFieldMask (width : Nat) : Nat :=
  (List.range (64 / width)).foldl (fun m _ => (m <<< width) ||| 1) 0

/-- The `packed_view(width, size)` constructor: a zeroed bitview of
`width * size` bits. -/
def pvMk (width size : Nat) : PV :=
  { bits := List.replicate (ceildiv (width * size) 64) 0
    size := size
    width := width
    fieldMask := computeFieldMask width }

/-- `packed_view::get(begin, end)` (`packed_view.h:227`): the word holding
fields `[b, e)`. -/
def pvGetRange (pv : PV) (b e : Nat) : Nat :=
  bvGet pv.bits (b * pv.width) (e * pv.width)

/-- `packed_view::get(index)` (`packed_view.h:234`). -/
def pvGetItem (pv : PV) (i : Nat) : Nat := pvGetRange pv i (i + 1)

/-- `packed_view::set(index, value)` (`packed_view.h:263`). -/
def pvSetItem (pv : PV) (i v : Nat) : PV :=
  { pv with bits := bvSet pv.bits (i * pv.width) ((i + 1) * pv.width) v }

/-- The chunk loop of `packed_view::set(begin, end, pattern)`
(`packed_view.h:241`).  The loop variable `len` strictly decreases by
`step ≥ 1` at every iteration that runs, so a fuel of `len` never runs out. -/
def pvSetLoop (bpw rem value endw : Nat) : Nat → List Nat → Nat → Nat → List Nat
  | 0, bits, _, _ => bits
  | fuel + 1, bits, p, len =>
      if p < endw then
        let step := if len < bpw then rem else bpw
        pvSetLoop bpw rem value endw fuel
          (bvSet bits p (p + step) (lowbits value step)) (p + step) (len - step)
      else bits

/-- `packed_view::set(begin, end, pattern)` (`packed_view.h:241`): the C++
asserts `ensure_bitsize(pattern, width)` — the pattern must fit a *single*
field — and then writes `field_mask * pattern`, i.e. the pattern broadcast to
every field of `[b, e)`, chunk by chunk. -/
def pvSetRange (pv : PV) (b e pattern : Nat) : PV :=
  let fpw := 64 / pv.width
  let bpw := fpw * pv.width
  let len := (e - b) * pv.width
  let rem := len % bpw
  let value := (pv.fieldMask * pattern) % M
  { pv with bits := pvSetLoop bpw rem value (e * pv.width) len pv.bits (b * pv.width) len }

/-- The chunk loop of `packed_view::increment` (`packed_view.h:269`):
`result = get(p, p + step) + lowbits(field_mask * n, step)`, written back
truncated to the chunk.  The `cant_overflow` option only toggles a debug
assertion (`ensure_bitsize(result, step)`), so it does not appear in the
computation. -/
def pvIncLoop (bpw rem addend endw : Nat) : Nat → List Nat → Nat → Nat → List Nat
  | 0, bits, _, _ => bits
  | fuel + 1, bits, p, len =>
      if p < endw then
        let step := if len < bpw then rem else bpw
        let result := (bvGet bits p (p + step) + lowbits addend step) % M
        pvIncLoop bpw rem addend endw fuel
          (bvSet bits p (p + step) (lowbits result step)) (p + step) (len - step)
      else bits

/-- `packed_view::increment(begin, end, n)` (`packed_view.h:294`). -/
def pvIncrement (pv : PV) (b e n : Nat) : PV :=
  let fpw := 64 / pv.width
  let bpw := fpw * pv.width
  let len := (e - b) * pv.width
  let rem := len % bpw
  { pv with
    bits := pvIncLoop bpw rem ((pv.fieldMask * n) % M) (e * pv.width) len
      pv.bits (b * pv.width) len }

/-- `packed_view::decrement(begin, end, n)` (`packed_view.h:300`):
`increment(begin, end, -n)` where `-n` is the two's complement of `n` on the
64-bit `size_t`. -/
def pvDecrement (pv : PV) (b e n : Nat) : PV :=
  pvIncrement pv b e ((M - n % M) % M)

/-- `packed_view::copy` (`packed_view.h:306`) between ranges of the *same*
view (the use made by the tree): a bit-level `bitview::copy` with aliased
source and destination. -/
def pvCopySelf (pv : PV) (sb se db de : Nat) : PV :=
  { pv with
    bits := bvCopy pv.bits (sb * pv.width) (se * pv.width)
      (db * pv.width) (de * pv.width) }

/-- `packed_view::elements_per_word` (`packed_view.h:119`). -/
def pvElementsPerWord (pv : PV) : Nat := 64 / pv.width

/-- `const_range_reference::operator word_type` (`view_reference.h:53`): the
requested end is silently capped at `begin + elements_per_word` before
delegating to `get`. -/
def pvRefWord (pv : PV) (b e : Nat) : Nat :=
  pvGetRange pv b (min e (b + pvElementsPerWord pv))

/-- Modelled from the spec: `packed_view::find` is declared at
`packed_view.h:195` but its definition is absent from the sources under
`src/`.  Sections 4.3.1–4.3.2 of the spec describe the use the tree makes of
it on a range of cumulative size fields: the child index for an insertion at
`index` is the field where the advance-at-boundary tweak of `access` is *not*
applied, "insertion targets the current child's high end" — that is, the
least `k` with `field[begin + k] ≥ threshold`, and the number of fields of
the range when there is none. -/
def pvFindRange (pv : PV) (b e t : Nat) : Nat :=
  (((List.range (e - b)).find? fun k => decide (t ≤ pvGetItem pv (b + k))).getD (e - b))

/-!
## bt_impl (`src/bitvector.cpp`): the packed B+-tree engine

The single-field accessors of `subtree_ref_base` —
`sizes(k) = _vector.sizes[k]`, `ranks(k) = _vector.ranks[k]`,
`pointers(k) = _vector.pointers[k]` (`bitvector.cpp:349,364,380`) — index the
arena-wide packed arrays *without* the node offset `_index * degree` that the
range accessors apply; the embedding reproduces this faithfully (it is exact
for the root node at index 0).
-/

/-- The only exception raised anywhere in `bitvector.cpp` is
`std::out_of_range`; `fuelExhausted` is the embedding's marker for exhausted
recursion fuel, never produced with the ample fuel used below. -/
inductive BtErr where
  | indexOutOfRange
  | fuelExhausted
deriving Repr, DecidableEq

/-- `leaf_bits = bitsize<leaf_t>()` (`bitvector.cpp:49`). -/
def leafBits : Nat := 64

/-- The `bt_impl` state (`bitvector.cpp:37`). -/
structure BtImpl where
  capacity : Nat
  nodeWidth : Nat
  size : Nat
  rank : Nat
  height : Nat
  counterWidth : Nat
  pointerWidth : Nat
  degree : Nat
  leavesBuffer : Nat
  nodesBuffer : Nat
  freeNode : Nat
  freeLeaf : Nat
  sizes : PV
  ranks : PV
  pointers : PV
  leaves : List Nat
deriving Repr, DecidableEq

/-- `subtree_ref_base` (`bitvector.cpp:168`): arena index, height, and the
subtree size and rank propagated from the parent during the descent. -/
structure Ref where
  index : Nat
  height : Nat
  size : Nat
  rank : Nat
deriving Repr, DecidableEq

/-- `bt_impl::alloc_node` (`bitvector.cpp:589`): bump allocation.  The C++
asserts `free_node < sizes.size() / degree` (debug) and prints a warning near
exhaustion; neither raises an error, the counter is returned and incremented
unconditionally. -/
def allocNode (v : BtImpl) : Nat × BtImpl :=
  (v.freeNode, { v with freeNode := v.freeNode + 1 })

/-- `bt_impl::alloc_leaf` (`bitvector.cpp:596`): same shape as `alloc_node`;
`assert(free_leaf < leaves.size())` is debug-only, there is no error path. -/
def allocLeaf (v : BtImpl) : Nat × BtImpl :=
  (v.freeLeaf, { v with freeLeaf := v.freeLeaf + 1 })

/-- `subtree_ref_base::child(k)` (`bitvector.cpp:250`): subtree size and rank
from the cumulative counters; `pointers(k)`, `sizes(k)`, `ranks(k)` are the
offset-less single-field accessors. -/
def refChild (v : BtImpl) (t : Ref) (k : Nat) : Ref :=
  let p := pvGetItem v.pointers k
  let h := t.height - 1
  let s := if k = 0 then pvGetItem v.sizes k
           else if k = v.degree then t.size - pvGetItem v.sizes (k - 1)
           else pvGetItem v.sizes k - pvGetItem v.sizes (k - 1)
  let r := if k = 0 then pvGetItem v.ranks k
           else if k = v.degree then t.rank - pvGetItem v.ranks (k - 1)
           else pvGetItem v.ranks k - pvGetItem v.ranks (k - 1)
  ⟨p, h, s, r⟩

/-- `subtree_ref_base::find_insert_point` (`bitvector.cpp:286`):
`child = sizes().find(index)` on the node's size-field range (the modelled
`packed_view::find`), then `new_index = index - sizes(child - 1)` for
`child > 0` (offset-less single-field accessor). -/
def refFindInsertPoint (v : BtImpl) (t : Ref) (index : Nat) : Nat × Nat :=
  let child := pvFindRange v.sizes (t.index * v.degree) (t.index * v.degree + v.degree) index
  let newIndex := if 0 < child then index - pvGetItem v.sizes (child - 1) else index
  (child, newIndex)

/-- `subtree_ref_base::find` (`bitvector.cpp:307`): `find_insert_point` plus
the advance-at-boundary tweak. -/
def refFind (v : BtImpl) (t : Ref) (index : Nat) : Nat × Nat :=
  let fp := refFindInsertPoint v t index
  if fp.2 = (refChild v t fp.1).size then (fp.1 + 1, 0) else fp

/-- `subtree_ref_base::nchildren` (`bitvector.cpp:324`). -/
def refNChildren (v : BtImpl) (t : Ref) : Nat :=
  if t.size = 0 then 0 else (refFindInsertPoint v t t.size).1 + 1

/-- `subtree_ref_base::is_full` (`bitvector.cpp:241`). -/
def refIsFull (v : BtImpl) (t : Ref) : Bool :=
  if t.height = 0 then t.size = leafBits else refNChildren v t = v.degree + 1

/-- `t.sizes(b, e) += n` (range accessor with node offset, `bitvector.cpp:333`,
incremented through `range_reference::operator+=` → `packed_view::increment`). -/
def vSizesInc (v : BtImpl) (t : Ref) (b e n : Nat) : BtImpl :=
  { v with sizes := pvIncrement v.sizes (t.index * v.degree + b) (t.index * v.degree + e) n }

/-- `t.ranks(b, e) += n`. -/
def vRanksInc (v : BtImpl) (t : Ref) (b e n : Nat) : BtImpl :=
  { v with ranks := pvIncrement v.ranks (t.index * v.degree + b) (t.index * v.degree + e) n }

/-- `subtree_ref::insert_child(k)` (`bitvector.cpp:469`): shift the keys and
pointers of the node one slot up from `k` (overlapping in-place range copies,
with the destination one field shorter than the source, hence truncation),
restore the duplicated boundary fields, and allocate the new child. -/
def refInsertChild (v : BtImpl) (t : Ref) (k : Nat) : BtImpl :=
  let d := v.degree
  let v1 :=
    if k < d then
      let s := pvGetItem v.sizes (k - 1)
      let r := pvGetItem v.ranks (k - 1)
      let va := { v with sizes := (pvCopySelf v.sizes
        (t.index * d + (k - 1)) (t.index * d + d) (t.index * d + k) (t.index * d + d)) }
      let vb := { va with ranks := (pvCopySelf va.ranks
        (t.index * d + (k - 1)) (t.index * d + d) (t.index * d + k) (t.index * d + d)) }
      let vc := { vb with pointers := (pvCopySelf vb.pointers
        (t.index * (d + 1) + k) (t.index * (d + 1) + (d + 1))
        (t.index * (d + 1) + (k + 1)) (t.index * (d + 1) + (d + 1))) }
      let vd := { vc with sizes := pvSetItem vc.sizes (k - 1) s }
      { vd with ranks := pvSetItem vd.ranks (k - 1) r }
    else v
  if t.height = 1 then
    let al := allocLeaf v1
    { al.2 with pointers := pvSetItem al.2.pointers k al.1 }
  else
    let al := allocNode v1
    { al.2 with pointers := pvSetItem al.2.pointers k al.1 }

/-- `subtree_ref::copy` (`bitvector.cpp:509`): clone the node (or leaf) into
a freshly allocated arena slot. -/
def refCopy (v : BtImpl) (t : Ref) : Ref × BtImpl :=
  if 0 < t.height then
    let al := allocNode v
    let idx := al.1
    let d := v.degree
    let v2 := { al.2 with sizes := (pvCopySelf al.2.sizes
      (t.index * d) (t.index * d + d) (idx * d) (idx * d + d)) }
    let v3 := { v2 with ranks := (pvCopySelf v2.ranks
      (t.index * d) (t.index * d + d) (idx * d) (idx * d + d)) }
    let v4 := { v3 with pointers := (pvCopySelf v3.pointers
      (t.index * (d + 1)) (t.index * (d + 1) + (d + 1))
      (idx * (d + 1)) (idx * (d + 1) + (d + 1))) }
    ({ t with index := idx }, v4)
  else
    let al := allocLeaf v
    let idx := al.1
    ({ t with index := idx },
     { al.2 with leaves := al.2.leaves.set idx (v.leaves.getD t.index 0) })

/-- `bt_impl::clear_children_counters` (`bitvector.cpp:823`): broadcast the
preceding cumulative value over `[begin, keys_end)` and subtract the removed
weight from the tail fields.  `size`/`rank` here are the *vector's* totals,
as in the source. -/
def clearChildrenCounters (v : BtImpl) (t : Ref) (b e : Nat) : BtImpl :=
  let d := v.degree
  let keysEnd := min e d
  let lastSize := if e < d then pvGetItem v.sizes (e - 1) else v.size
  let lastRank := if e < d then pvGetItem v.ranks (e - 1) else v.rank
  let prevSize := if 0 < b then pvGetItem v.sizes (b - 1) else 0
  let prevRank := if 0 < b then pvGetItem v.ranks (b - 1) else 0
  let v1 := { v with sizes := pvSetRange v.sizes (t.index * d + b) (t.index * d + keysEnd) prevSize }
  let v2 := { v1 with ranks := pvSetRange v1.ranks (t.index * d + b) (t.index * d + keysEnd) prevRank }
  let v3 := { v2 with sizes := pvDecrement v2.sizes (t.index * d + keysEnd) (t.index * d + d) lastSize }
  { v3 with ranks := pvDecrement v3.ranks (t.index * d + keysEnd) (t.index * d + d) lastRank }

/-- The per-child free-slot count of `bt_impl::find_adjacent_children`
(`bitvector.cpp:779`): a null pointer counts as fully free. -/
def facCount (v : BtImpl) (t : Ref) (isLf : Bool) (maxCount i : Nat) : Nat :=
  if pvGetItem v.pointers i = 0 then maxCount
  else if isLf then leafBits - (refChild v t i).size
  else (v.degree + 1) - refNChildren v (refChild v t i)

/-- The sliding-window loop of `find_adjacent_children` (`bitvector.cpp:798`),
including its incremental update `freeslots - count(begin) + count(end - 1)`
exactly as written (`count(end - 1)` is evaluated before `end` moves). -/
def facSlide (v : BtImpl) (t : Ref) (isLf : Bool) (maxCount child dp1 : Nat) :
    Nat → Nat → Nat → Nat → (Nat × Nat) → Nat → (Nat × Nat) × Nat
  | 0, _, _, _, win, mf => (win, mf)
  | fuel + 1, b, e, fs, win, mf =>
      if b < child ∧ e < dp1 then
        let fs' := fs - facCount v t isLf maxCount b + facCount v t isLf maxCount (e - 1)
        let b' := b + 1
        let e' := e + 1
        if mf < fs' then facSlide v t isLf maxCount child dp1 fuel b' e' fs' (b', e') fs'
        else facSlide v t isLf maxCount child dp1 fuel b' e' fs' win mf
      else (win, mf)

/-- `bt_impl::find_adjacent_children` (`bitvector.cpp:773`). -/
def findAdjacentChildren (v : BtImpl) (t : Ref) (child : Nat) : Nat × Nat × Nat :=
  let isLf := (refChild v t child).height = 0
  let buffer := if isLf then v.leavesBuffer else v.nodesBuffer
  let maxCount := if isLf then leafBits else v.degree + 1
  let b0 := if buffer ≤ child then child - buffer + 1 else 0
  let e0 := min (b0 + buffer) (v.degree + 1)
  let fs0 := (List.range (e0 - b0)).foldl
    (fun acc j => acc + facCount v t isLf maxCount (b0 + j)) 0
  let out := facSlide v t isLf maxCount child (v.degree + 1) (child + 1) b0 e0 fs0 (b0, e0) fs0
  (out.1.1, out.1.2, maxCount * buffer - out.2)

/-- Gather loop of `bt_impl::redistribute_bits` (`bitvector.cpp:854`): the
window's leaves are appended to the temporary width-1 buffer through
`bits(p, p + size) = leaf`, i.e. `packed_view::set` — the broadcast
assignment. -/
def rbGather (v : BtImpl) (t : Ref) : Nat → Nat → PV × Nat → PV × Nat
  | 0, _, st => st
  | n + 1, i, st =>
      if pvGetItem v.pointers i ≠ 0 then
        let sz := (refChild v t i).size
        rbGather v t n (i + 1)
          (pvSetRange st.1 st.2 (st.2 + sz) (v.leaves.getD (refChild v t i).index 0), st.2 + sz)
      else rbGather v t n (i + 1) st

/-- Scatter loop of `bt_impl::redistribute_bits` (`bitvector.cpp:864`):
`word_t leaf = bits(p, p + n)` goes through the range-reference word
conversion (`pvRefWord`), new children are created on demand, and the
window's cumulative counters are rebuilt by suffix increments. -/
def rbScatter (bitsBuf : PV) (bpl : Nat) :
    Nat → BtImpl → Ref → Nat → Nat → Nat → BtImpl
  | 0, v, _, _, _, _ => v
  | m + 1, v, t, i, p, rem =>
      let n := if 0 < rem then bpl + 1 else bpl
      let rem' := rem - (if 0 < rem then 1 else 0)
      let v1 := if pvGetItem v.pointers i = 0 then refInsertChild v t i else v
      let leafVal := pvRefWord bitsBuf p (p + n)
      let v2 := { v1 with leaves := v1.leaves.set (refChild v1 t i).index leafVal }
      let v3 := vSizesInc v2 t i v2.degree n
      let v4 := vRanksInc v3 t i v3.degree (popcount leafVal)
      rbScatter bitsBuf bpl m v4 t (i + 1) (p + n) rem'

/-- `bt_impl::redistribute_bits` (`bitvector.cpp:840`). -/
def redistributeBits (v : BtImpl) (t : Ref) (b e cnt : Nat) : BtImpl :=
  let nb := e - b
  let bpl := cnt / nb
  let rem := cnt % nb
  let gathered := rbGather v t nb b (pvMk 1 cnt, 0)
  let v1 := clearChildrenCounters v t b e
  rbScatter gathered.1 bpl nb v1 t b 0 rem

/-- Gather loop of `bt_impl::redistribute_keys` (`bitvector.cpp:916`):
collect the `(size, rank, ptr)` triples of the window's grandchildren.
`t.child(i).pointers(c)` is the offset-less single-field accessor, exactly as
in the source. -/
def rkGather (v : BtImpl) (t : Ref) : Nat → Nat → List (Nat × Nat × Nat) → List (Nat × Nat × Nat)
  | 0, _, acc => acc
  | n + 1, i, acc =>
      let acc' :=
        if pvGetItem v.pointers i ≠ 0 then
          let ci := refChild v t i
          acc ++ (List.range (refNChildren v ci)).map fun c =>
            ((refChild v ci c).size, (refChild v ci c).rank, pvGetItem v.pointers c)
        else acc
      rkGather v t n (i + 1) acc'

/-- Inner loop of the scatter phase of `redistribute_keys`
(`bitvector.cpp:946`): write the `n` triples into child `i` and accumulate
its size and rank.  The source's `+= index_mask() * s` is the broadcast
increment spelled `+= s` in the `bt_impl` idiom used everywhere else in the
file (`index_mask` does not exist in `bt_impl`). -/
def rkScatInner (ptrs : List (Nat × Nat × Nat)) (ci : Ref) (d : Nat) :
    Nat → BtImpl → Nat → Nat → Nat × Nat × BtImpl
  | 0, v, _, _ => (0, 0, v)
  | m + 1, v, p, j =>
      let srp := ptrs.getD (p + j) (0, 0, 0)
      let v1 := { v with pointers := pvSetItem v.pointers j srp.2.2 }
      let v2 := { v1 with sizes := pvIncrement v1.sizes (ci.index * d + j) (ci.index * d + d) srp.1 }
      let v3 := { v2 with ranks := pvIncrement v2.ranks (ci.index * d + j) (ci.index * d + d) srp.2.1 }
      let rest := rkScatInner ptrs ci d m v3 p (j + 1)
      (rest.1 + srp.1, rest.2.1 + srp.2.1, rest.2.2)

/-- Outer scatter loop of `redistribute_keys` (`bitvector.cpp:928`). -/
def rkScatter (ptrs : List (Nat × Nat × Nat)) (kpn : Nat) :
    Nat → BtImpl → Ref → Nat → Nat → Nat → BtImpl
  | 0, v, _, _, _, _ => v
  | m + 1, v, t, i, p, rem =>
      let n := if 0 < rem then kpn + 1 else kpn
      let rem' := rem - (if 0 < rem then 1 else 0)
      let v1 := if pvGetItem v.pointers i = 0 then refInsertChild v t i else v
      let d := v1.degree
      let ci := refChild v1 t i
      let v2 := { v1 with sizes := pvSetRange v1.sizes (ci.index * d) (ci.index * d + d) 0 }
      let v3 := { v2 with ranks := pvSetRange v2.ranks (ci.index * d) (ci.index * d + d) 0 }
      let v4 := { v3 with pointers := (pvSetRange v3.pointers
        (ci.index * (d + 1)) (ci.index * (d + 1) + (d + 1)) 0) }
      let inner := rkScatInner ptrs ci d n v4 p 0
      let v5 := vSizesInc inner.2.2 t i d inner.1
      let v6 := vRanksInc v5 t i d inner.2.1
      rkScatter ptrs kpn m v6 t (i + 1) (p + n) rem'

/-- `bt_impl::redistribute_keys` (`bitvector.cpp:898`). -/
def redistributeKeys (v : BtImpl) (t : Ref) (b e cnt : Nat) : BtImpl :=
  let nb := e - b
  let kpn := cnt / nb
  let rem := cnt % nb
  let ptrs := rkGather v t nb b []
  let v1 := clearChildrenCounters v t b e
  rkScatter ptrs kpn nb v1 t b 0 rem

/-- The root `subtree_ref` (`bitvector.cpp:614`). -/
def rootRef (v : BtImpl) : Ref := ⟨0, v.height, v.size, v.rank⟩

/-- `bt_impl::access` (`bitvector.cpp:626`): throws `std::out_of_range` when
`index ≥ t.size()`, reads the bit at a leaf, otherwise recurses through
`find`.  The fuel only bounds the recursion depth of the embedding. -/
def accessGo (v : BtImpl) : Nat → Ref → Nat → Except BtErr Bool
  | 0, _, _ => throw .fuelExhausted
  | fuel + 1, t, index =>
      if t.size ≤ index then throw .indexOutOfRange
      else if t.height = 0 then pure (bit (v.leaves.getD t.index 0) index)
      else
        let f := refFind v t index
        accessGo v fuel (refChild v t f.1) f.2

/-- `bitvector::access` (`bitvector.cpp:987`): start from the root. -/
def btAccess (v : BtImpl) (index : Nat) : Except BtErr Bool :=
  accessGo v (v.height + 2) (rootRef v) index

/-- `bt_impl::insert` (`bitvector.cpp:651`), the full descent: bounds check,
full-root promotion, per-level redistribute-or-split, counter updates, and
the final `insert_bit` into the leaf. -/
def insertGo : Nat → BtImpl → Ref → Nat → Bool → Except BtErr BtImpl
  | 0, _, _, _, _ => throw .fuelExhausted
  | fuel + 1, v, t, index, bv =>
      if t.size < index then throw .indexOutOfRange
      else if refIsFull v t then
        -- full-root promotion (`bitvector.cpp:664`)
        let rc := refCopy v t
        let oldRoot := rc.1
        let v1 := rc.2
        let d := v1.degree
        let v2 := { v1 with sizes := pvSetRange v1.sizes (t.index * d) (t.index * d + d) t.size }
        let v3 := { v2 with ranks := pvSetRange v2.ranks (t.index * d) (t.index * d + d) t.rank }
        let v4 := { v3 with pointers := (pvSetRange v3.pointers
          (t.index * (d + 1)) (t.index * (d + 1) + (d + 1)) 0) }
        let v5 := { v4 with pointers := pvSetItem v4.pointers 0 oldRoot.index }
        let v6 := { v5 with height := v5.height + 1 }
        insertGo fuel v6 (rootRef v6) index bv
      else
        let fp := refFindInsertPoint v t index
        if t.height = 1 then
          -- leaf level (`bitvector.cpp:695`)
          let st :=
            if refIsFull v (refChild v t fp.1) then
              let fac := findAdjacentChildren v t fp.1
              let ve :=
                if v.leavesBuffer * (leafBits - v.leavesBuffer) ≤ fac.2.2
                then (refInsertChild v t fac.2.1, fac.2.1 + 1)
                else (v, fac.2.1)
              let v' := redistributeBits ve.1 t fac.1 ve.2 fac.2.2
              (v', refFindInsertPoint v' t index)
            else (v, fp)
          let v1 := st.1
          let child := st.2.1
          let newIndex := st.2.2
          let v2 := { v1 with size := v1.size + 1, rank := v1.rank + (if bv then 1 else 0) }
          let v3 := vSizesInc v2 t child v2.degree 1
          let v4 := vRanksInc v3 t child v3.degree (if bv then 1 else 0)
          let leafIdx := (refChild v4 t child).index
          pure { v4 with leaves :=
            v4.leaves.set leafIdx (insertBit (v4.leaves.getD leafIdx 0) newIndex bv) }
        else
          -- internal level (`bitvector.cpp:732`)
          let st :=
            if refIsFull v (refChild v t fp.1) then
              let fac := findAdjacentChildren v t fp.1
              let ve :=
                if v.nodesBuffer ≤ fac.2.2 / (v.nodesBuffer + 1)
                then (refInsertChild v t fac.2.1, fac.2.1 + 1)
                else (v, fac.2.1)
              let v' := redistributeKeys ve.1 t fac.1 ve.2 fac.2.2
              (v', refFindInsertPoint v' t index)
            else (v, fp)
          let v1 := st.1
          let child := st.2.1
          let newIndex := st.2.2
          let nextChild := refChild v1 t child
          let v2 := vSizesInc v1 t child v1.degree 1
          let v3 := vRanksInc v2 t child v2.degree (if bv then 1 else 0)
          insertGo fuel v3 nextChild newIndex bv

/-- `bitvector::insert`: start from the root with ample fuel (the recursion
depth is at most `height + 2`: one promotion step plus one step per level). -/
def btInsert (v : BtImpl) (index : Nat) (b : Bool) : Except BtErr BtImpl :=
  insertGo (v.height + 3) v (rootRef v) index b

/-- Helper for `ceilLog2`, structural on a fuel argument (`fuel ≥ n`
suffices). -/
def ceilLog2Aux : Nat → Nat → Nat
  | 0, _ => 0
  | fuel + 1, n => if n ≤ 1 then 0 else 1 + ceilLog2Aux fuel ((n + 1) / 2)

/-- `ceil(log2 n)` (`bitvector.cpp:536,566` use `ceil(log2(...))` on
`double`s; this is the exact integer version — the least `k` with
`n ≤ 2 ^ k` — which agrees on every value used in the theorems below). -/
def ceilLog2 (n : Nat) : Nat := ceilLog2Aux n n

/-- `ceil(sqrt n)` (exact integer version of `bitvector.cpp:540`): the least
`k` with `n ≤ k * k`. -/
def ceilSqrt (n : Nat) : Nat :=
  ((List.range (n + 1)).find? fun k => decide (n ≤ k * k)).getD n

/-- The downward search for `nodes_buffer` (`bitvector.cpp:540`):
start from `max(ceil(sqrt(degree)), 1)` and decrement while
`(degree + 1) / nodes_buffer < nodes_buffer`. -/
def nbSearch (degree : Nat) : Nat → Nat
  | 0 => 0
  | nb + 1 => if (degree + 1) / (nb + 1) < nb + 1 then nbSearch degree nb else nb + 1

/-- The node-count accumulation loop (`bitvector.cpp:559`), a do-while:
`level = ceil(level / minimum_degree); nodes += level;` until `level ≤ 1`.
`ceildiv` is the exact version of the `float` arithmetic of the source,
which is exact on the small values used here. -/
def nodesCountLoop (md : Nat) : Nat → Nat → Nat → Nat
  | 0, _, acc => acc
  | fuel + 1, level, acc =>
      let level' := ceildiv level md
      if 1 < level' then nodesCountLoop md fuel level' (acc + level') else acc + level'

/-- The `bt_impl` constructor (`bitvector.cpp:531`): parameter derivation,
arena allocation, root node, and the first leaf of the empty root. -/
def mkBtImpl (N Wn : Nat) : BtImpl :=
  let cw := ceilLog2 N + 1
  let d := Wn / cw
  let nb := nbSearch d (max (ceilSqrt d) 1)
  let lb := nb
  let leavesCount := N / (lb * (Wn - lb) / (lb + 1))
  let nodesCount := nodesCountLoop nb (leavesCount + 2) leavesCount 0
  let pw := ceilLog2 (max nodesCount (leavesCount + 1))
  let v0 : BtImpl :=
    { capacity := N, nodeWidth := Wn, size := 0, rank := 0, height := 1
      counterWidth := cw, pointerWidth := pw, degree := d
      leavesBuffer := lb, nodesBuffer := nb, freeNode := 0, freeLeaf := 1
      sizes := pvMk cw (nodesCount * d), ranks := pvMk cw (nodesCount * d)
      pointers := pvMk pw (nodesCount * (d + 1))
      leaves := List.replicate (leavesCount + 1) 0 }
  let an := allocNode v0
  let al := allocLeaf an.2
  { al.2 with pointers := pvSetItem al.2.pointers 0 al.1 }

/-- Repeated `push_back(bit)` = `insert(size, bit)`, the driver used by the
concrete traces. -/
def pushN (v : BtImpl) (b : Bool) : Nat → Except BtErr BtImpl
  | 0 => pure v
  | n + 1 => do
      let v' ← pushN v b n
      btInsert v' v'.size b

/-!
## Specification-side definitions

The following definitions follow the words of the specification (not the
source); they are the reference values the embedded code is compared with.
-/

/-- A list of `w`-bit fields packed into one number, field `k` at bit
`k * w` — the layout of `packed_view` (field 0 at the least significant
bits). -/
def pack (w : Nat) : List Nat → Nat
  | [] => 0
  | x :: xs => x + 2 ^ w * pack w xs

/-- Modelled from the spec: the single-word `find` computation of §4.2
(the definition of `packed_view::find`, declared at `packed_view.h:195`, is
absent from the sources under `src/`).  On a word `X` packing `m` fields of
width `w` and a threshold `t`:
1. form `S = broadcast(threshold) - X` (machine subtraction on the word);
2. mask `S` with the flag-bit mask `field_mask * 2 ^ (w - 1)`;
3. the result is the number of fields minus the popcount of the masked word. -/
def specFindSimd (w m X t : Nat) : Nat :=
  let fmask := pack w (List.replicate m 1)
  let flagmask := (fmask * 2 ^ (w - 1)) % M
  let S := ((fmask * t) % M + (M - X % M)) % M
  m - popcount (flagmask &&& S)

/-- Digit-by-digit base-`2 ^ w` subtraction of each field of `xs` from `t`,
with an incoming borrow: the reference value for the broadcast subtraction
of `specFindSimd`.  Returns the digit list and the outgoing borrow. -/
def swarSub (w t : Nat) : List Nat → Nat → List Nat × Nat
  | [], brw => ([], brw)
  | x :: xs, brw =>
      let d := if x + brw ≤ t then (t - (x + brw), 0)
               else (2 ^ w + t - (x + brw), 1)
      let rest := swarSub w t xs d.2
      (d.1 :: rest.1, rest.2)

/-- The free-slot count of the window `[b, e)` of children of `t`, as the
spec words it for `find_adjacent_children`: the sum of the per-child free
slots, null children counting as fully free (the per-child count is the one
the source's `count` lambda computes). -/
def windowFreeSlots (v : BtImpl) (t : Ref) (isLf : Bool) (maxCount b e : Nat) : Nat :=
  ((List.range (e - b)).map fun j => facCount v t isLf maxCount (b + j)).sum

/-- The occupied-slot count of the window `[b, e)`: total slots minus free
slots, per child. -/
def windowOccupied (v : BtImpl) (t : Ref) (isLf : Bool) (maxCount b e : Nat) : Nat :=
  ((List.range (e - b)).map fun j => maxCount - facCount v t isLf maxCount (b + j)).sum

/-!
## Concrete states used by the counterexample theorems
-/

/-- `bt_impl(capacity = 256, node_width = 64)`: counter width 9, degree 7,
buffers 2, pointer width 3, arena of 6 nodes and 6 leaves (+ sentinel). -/
def cexBt : BtImpl := mkBtImpl 256 64

/-- The state after 64 × `push_back(true)` on `cexBt`: one full leaf of
64 ones. -/
def cexState64 : Except BtErr BtImpl := pushN cexBt true 64

/-- The state after the 65th `push_back(true)`: the insert hits a full leaf
and triggers the first `redistribute_bits`. -/
def cexState65 : Except BtErr BtImpl :=
  cexState64.bind fun v => btInsert v 64 true

/-- A width-4 packed view with fields `(0, 5)`, for the decrement
counterexample. -/
def decPv : PV := pvSetItem (pvMk 4 2) 1 5

/-- A width-1 packed view of 8 fields, all zero, for the pre-packed payload
counterexample of `set_range`. -/
def payloadPv : PV := pvMk 1 8

/-- A width-4 packed view with fields (7, 5), a state where both the
no-overflow increment and the no-underflow decrement preconditions hold
for `n = 2`. -/
def c7Pv : PV := pvSetItem (pvSetItem (pvMk 4 2) 0 7) 1 5

/-- A width-9 packed view of 8 fields, every field 5: with 7 fields per
64-bit word the range `[0, 8)` spans two words, so a full-range
increment/decrement runs the chunk loop twice (one full chunk of 7 fields,
one partial chunk of 1 field). -/
def c7Pv2 : PV := pvSetRange (pvMk 9 8) 0 8 5

/-- A height-1 node state for `find_adjacent_children`: root with three
leaf children of sizes 64, 64, 59 (cumulative size fields
64, 128, 187, 187, …), pointers 1, 2, 3. -/
def facBt : BtImpl :=
  let v := mkBtImpl 256 64
  let v := { v with size := 187 }
  let v := { v with pointers :=
    (pvSetItem (pvSetItem (pvSetItem v.pointers 0 1) 1 2) 2 3) }
  { v with sizes :=
    (pvSetItem (pvSetItem (pvSetItem (pvSetItem (pvSetItem (pvSetItem
      (pvSetItem v.sizes 0 64) 1 128) 2 187) 3 187) 4 187) 5 187) 6 187) }

/-- The reference to `facBt`'s root. -/
def facRoot : Ref := rootRef facBt

/-- `cexBt` with its leaf arena exhausted (`free_leaf = leaves.size()`),
the state in which `alloc_leaf` is supposed to fail. -/
def exhaustedBt : BtImpl := { cexBt with freeLeaf := 7 }

/-!
## Bit-level toolkit lemmas
-/

theorem M_pos : 0 < M := by norm_num [M]

theorem testBit_M_sub_one (i : Nat) : (M - 1).testBit i = decide (i < 64) := by
  rw [show M - 1 = 2 ^ 64 - 1 from rfl, Nat.testBit_two_pow_sub_one]

theorem testBit_ones {b e : Nat} (hbe : b ≤ e) (he : e ≤ 64) (i : Nat) :
    (ones b e).testBit i = decide (b ≤ i ∧ i < e) := by
  unfold ones
  by_cases h : b = e
  · rw [if_pos h, Nat.zero_testBit]
    symm
    simp only [decide_eq_false_iff_not]
    omega
  · rw [if_neg h, Nat.testBit_shiftLeft, Nat.testBit_shiftRight, testBit_M_sub_one,
      ← Bool.decide_and, decide_eq_decide]
    omega

theorem ones_lt {b e : Nat} (he : e ≤ 64) : ones b e < M := by
  unfold ones
  by_cases h : b = e
  · rw [if_pos h]; exact M_pos
  · rw [if_neg h, Nat.shiftLeft_eq, Nat.shiftRight_eq_div_pow]
    rcases le_or_lt b e with hbe | hbe
    · have h1 : (M - 1) / 2 ^ (64 - e + b) < 2 ^ (e - b) := by
        rw [Nat.div_lt_iff_lt_mul (Nat.pos_pow_of_pos _ (by norm_num)),
          ← Nat.pow_add]
        have : e - b + (64 - e + b) = 64 := by omega
        rw [this]
        exact Nat.sub_lt M_pos Nat.one_pos
      calc (M - 1) / 2 ^ (64 - e + b) * 2 ^ b
          < 2 ^ (e - b) * 2 ^ b :=
            Nat.mul_lt_mul_of_lt_of_le h1 (Nat.le_refl _) (Nat.pos_pow_of_pos _ (by norm_num))
        _ = 2 ^ (e - b + b) := by rw [Nat.pow_add]
        _ ≤ M := Nat.pow_le_pow_right (by norm_num) (by omega)
    · have h1 : (M - 1) / 2 ^ (64 - e + b) = 0 := by
        apply Nat.div_eq_of_lt
        calc M - 1 < M := Nat.sub_lt M_pos Nat.one_pos
          _ ≤ 2 ^ (64 - e + b) := Nat.pow_le_pow_right (by norm_num) (by omega)
      rw [h1, Nat.zero_mul]
      exact M_pos

theorem testBit_zeroes {b e : Nat} (hbe : b ≤ e) (he : e ≤ 64) (i : Nat) :
    (zeroes b e).testBit i = decide ((i < b ∨ e ≤ i) ∧ i < 64) := by
  unfold zeroes
  rw [Nat.testBit_or, testBit_ones (Nat.zero_le b) (by omega),
    testBit_ones he (Nat.le_refl 64), ← Bool.decide_or, decide_eq_decide]
  omega

theorem zeroes_lt {b e : Nat} (hb : b ≤ 64) : zeroes b e < M :=
  Nat.or_lt_two_pow (ones_lt hb) (ones_lt (Nat.le_refl 64))

theorem testBit_lowbits {n : Nat} (hn : n ≤ 64) (v i : Nat) :
    (lowbits v n).testBit i = (decide (i < n) && v.testBit i) := by
  unfold lowbits
  rw [Nat.testBit_and, testBit_ones (Nat.zero_le n) hn, Bool.and_comm]
  congr 1
  rw [decide_eq_decide]
  omega

theorem lowbits_lt {v n : Nat} (hn : n ≤ 64) : lowbits v n < M :=
  Nat.and_lt_two_pow v (ones_lt hn)

theorem testBit_highbits {n : Nat} (hn : n ≤ 64) (v i : Nat) :
    (highbits v n).testBit i = (decide (64 - n ≤ i ∧ i < 64) && v.testBit i) := by
  unfold highbits
  rw [Nat.testBit_and, testBit_ones (by omega) (Nat.le_refl 64), Bool.and_comm]

theorem highbits_lt {v n : Nat} : highbits v n < M :=
  Nat.and_lt_two_pow v (ones_lt (Nat.le_refl 64))

theorem testBit_bitfield {b e : Nat} (hbe : b ≤ e) (he : e ≤ 64) (w i : Nat) :
    (bitfield w b e).testBit i = (decide (i < e - b) && w.testBit (b + i)) := by
  unfold bitfield
  rw [Nat.testBit_shiftRight, Nat.testBit_and, testBit_ones hbe he, Bool.and_comm]
  congr 1
  rw [decide_eq_decide]
  omega

theorem testBit_setBitfield {b e : Nat} (hbe : b ≤ e) (he : e ≤ 64) (w v i : Nat) :
    (setBitfield w b e v).testBit i =
      if b ≤ i ∧ i < e then v.testBit (i - b)
      else (decide (i < 64) && w.testBit i) := by
  unfold setBitfield
  rw [Nat.testBit_or, Nat.testBit_and, Nat.testBit_and, testBit_zeroes hbe he,
    testBit_ones hbe he, Nat.testBit_shiftLeft]
  by_cases h : b ≤ i ∧ i < e
  · rw [if_pos h]
    have h1 : decide ((i < b ∨ e ≤ i) ∧ i < 64) = false := by
      simp only [decide_eq_false_iff_not]; omega
    have h2 : decide (b ≤ i ∧ i < e) = true := by
      simp only [decide_eq_true_eq]; exact h
    have h3 : decide (b ≤ i) = true := by
      simp only [decide_eq_true_eq]; exact h.1
    rw [h1, h2, h3]
    simp
  · rw [if_neg h]
    have h2 : decide (b ≤ i ∧ i < e) = false := by
      simp only [decide_eq_false_iff_not]; exact h
    rw [h2, Bool.and_false, Bool.or_false]
    have h1 : decide ((i < b ∨ e ≤ i) ∧ i < 64) = decide (i < 64) := by
      rw [decide_eq_decide]; omega
    rw [h1, Bool.and_comm]

theorem setBitfield_lt {w b e v : Nat} (hb : b ≤ 64) (he : e ≤ 64) :
    setBitfield w b e v < M :=
  Nat.or_lt_two_pow (Nat.and_lt_two_pow w (zeroes_lt hb))
    (Nat.and_lt_two_pow _ (ones_lt he))

/-!
## Container lemmas and the `bitview` set/get specifications
-/

theorem wget_lt {c : List Nat} (hw : ∀ w ∈ c, w < M) (k : Nat) : wget c k < M := by
  unfold wget
  rcases Nat.lt_or_ge k c.length with h | h
  · rw [List.getD_eq_getElem c 0 h]
    exact hw _ (List.getElem_mem h)
  · rw [List.getD_eq_default c 0 h]
    exact M_pos

theorem wget_wset_eq {c : List Nat} {i : Nat} (h : i < c.length) (v : Nat) :
    wget (wset c i v) i = v := by
  unfold wget wset
  rw [List.getD_eq_getElem _ 0 (by simpa using h), List.getElem_set_self]

theorem wget_wset_ne {c : List Nat} {i : Nat} (j : Nat) (h : i ≠ j) (v : Nat) :
    wget (wset c i v) j = wget c j := by
  unfold wget wset
  rcases Nat.lt_or_ge j c.length with hj | hj
  · rw [List.getD_eq_getElem _ 0 (by simpa using hj), List.getD_eq_getElem _ 0 hj,
      List.getElem_set_ne h]
  · rw [List.getD_eq_default _ 0 (by simpa using hj), List.getD_eq_default _ 0 hj]

theorem wset_oob {c : List Nat} {i : Nat} (h : c.length ≤ i) (v : Nat) :
    wset c i v = c := by
  unfold wset
  exact List.set_eq_of_length_le h

theorem length_wset {c : List Nat} {i v : Nat} : (wset c i v).length = c.length := by
  simp [wset]

theorem words_lt_wset {c : List Nat} {i v : Nat} (hw : ∀ w ∈ c, w < M) (hv : v < M) :
    ∀ w ∈ wset c i v, w < M := by
  intro w hmem
  rcases List.mem_or_eq_of_mem_set hmem with h | h
  · exact hw _ h
  · exact h ▸ hv

theorem bitAt_wset {c : List Nat} {i : Nat} (hi : i < c.length) (v j : Nat) :
    bitAt (wset c i v) j =
      if j / 64 = i then v.testBit (j % 64) else bitAt c j := by
  unfold bitAt
  by_cases h : j / 64 = i
  · rw [if_pos h, h, wget_wset_eq hi]
  · rw [if_neg h, wget_wset_ne _ (fun hh => h hh.symm)]

theorem bvSet_length {c : List Nat} {b e v : Nat} :
    (bvSet c b e v).length = c.length := by
  unfold bvSet
  split
  · rfl
  · dsimp only
    split <;> simp [length_wset]

theorem bvSet_words_lt {c : List Nat} {b e v : Nat} (hspan : e - b ≤ 64)
    (hw : ∀ w ∈ c, w < M) :
    ∀ w ∈ bvSet c b e v, w < M := by
  unfold bvSet
  split
  · exact hw
  · dsimp only
    split
    · exact words_lt_wset (words_lt_wset hw (setBitfield_lt (by omega) (by omega)))
        (setBitfield_lt (by omega) (by omega))
    · exact words_lt_wset hw (setBitfield_lt (by omega) (by omega))

/-- The write specification of `bitview::set`: bit `j` of the result is the
corresponding bit of `v` inside `[b, e)` and the old bit outside. -/
theorem bitAt_bvSet {c : List Nat} {b e : Nat} (hlen : e - b ≤ 64)
    (hbound : e ≤ 64 * c.length) (v j : Nat) :
    bitAt (bvSet c b e v) j =
      if b ≤ j ∧ j < e then v.testBit (j - b) else bitAt c j := by
  unfold bvSet
  by_cases hbe : isEmptyRange b e
  · rw [if_pos hbe]
    have : ¬ (b ≤ j ∧ j < e) := by
      unfold isEmptyRange at hbe
      simp only [decide_eq_true_eq] at hbe
      omega
    rw [if_neg this]
  · rw [if_neg hbe]
    unfold isEmptyRange at hbe
    simp only [decide_eq_true_eq, Nat.not_le] at hbe
    dsimp only
    set l := min (64 - b % 64) (e - b) with hl
    set hp := (e - b) - l with hhp
    have hl1 : l ≤ 64 - b % 64 := Nat.min_le_left _ _
    have hl2 : l ≤ e - b := Nat.min_le_right _ _
    have hlpos : 0 < l := by
      apply Nat.lt_min.mpr
      constructor <;> omega
    have hmod : decide (j % 64 < 64) = true := by
      simp only [decide_eq_true_eq]
      omega
    have hindex : b / 64 < c.length := by omega
    by_cases hh : hp ≠ 0
    -- straddling case: the range continues into word `b / 64 + 1`
    · rw [if_pos hh]
      have hlfull : l = 64 - b % 64 := by
        rw [hl]
        omega
      have hsplit : b + l = 64 * (b / 64 + 1) := by omega
      have hindex2 : b / 64 + 1 < c.length := by omega
      rw [bitAt_wset (by simpa [length_wset] using hindex2)]
      rw [wget_wset_ne _ (by omega) _]
      by_cases hj : j / 64 = b / 64 + 1
      · rw [if_pos hj]
        rw [testBit_setBitfield (Nat.zero_le _) (by omega)]
        by_cases hin : b ≤ j ∧ j < e
        · rw [if_pos hin, if_pos (by omega)]
          rw [testBit_bitfield (Nat.le_add_right _ _) (by omega)]
          have h1 : decide (j % 64 - 0 < l + hp - l) = true := by
            simp only [decide_eq_true_eq]
            omega
          rw [h1, Bool.true_and]
          congr 1
          omega
        · rw [if_neg hin, if_neg (by omega)]
          unfold bitAt
          rw [hj, hmod, Bool.true_and]
      · rw [if_neg hj]
        rw [bitAt_wset hindex]
        by_cases hj2 : j / 64 = b / 64
        · rw [if_pos hj2]
          rw [testBit_setBitfield (by omega) (by omega)]
          by_cases hin : b ≤ j ∧ j < e
          · rw [if_pos hin, if_pos (by omega)]
            congr 1
            omega
          · rw [if_neg hin, if_neg (by omega)]
            unfold bitAt
            rw [hj2, hmod, Bool.true_and]
        · rw [if_neg hj2, if_neg (by omega)]
    -- one-word case
    · rw [if_neg hh]
      rw [bitAt_wset hindex]
      by_cases hj2 : j / 64 = b / 64
      · rw [if_pos hj2]
        rw [testBit_setBitfield (by omega) (by omega)]
        by_cases hin : b ≤ j ∧ j < e
        · rw [if_pos hin, if_pos (by omega)]
          congr 1
          omega
        · rw [if_neg hin, if_neg (by omega)]
          unfold bitAt
          rw [hj2, hmod, Bool.true_and]
      · rw [if_neg hj2, if_neg (by omega)]

/-- The read specification of `bitview::get` (the Klunder trick): bit `i`
of the returned word is bit `b + i` of the stream for `i < e - b`, and zero
above. -/
theorem testBit_bvGet {c : List Nat} {b e : Nat} (hspan : e - b ≤ 64)
    (he : e ≤ M - 64) (hw : ∀ w ∈ c, w < M) (i : Nat) :
    (bvGet c b e).testBit i = (decide (i < e - b) && bitAt c (b + i)) := by
  have hMv : M = 2 ^ 64 := rfl
  unfold bvGet
  dsimp only
  by_cases hbe : b < e
  · rw [if_pos (show (0:Nat) < e by omega)]
    rw [hMv] at he
    set k := (e - 1) % 64 with hk
    have hk63 : k ≤ 63 := by omega
    have hsh : (M - 64 - e) % 64 = 63 - k := by
      rw [hMv]
      omega
    rw [hsh]
    set hv := (((wget c ((e - 1) / 64)) <<< (63 - k)) % M) >>> (63 - k) with hhv
    have hhi : ∀ jj, hv.testBit jj
        = (decide (jj ≤ k) && (wget c ((e - 1) / 64)).testBit jj) := by
      intro jj
      rw [hhv, Nat.testBit_shiftRight, hMv, Nat.testBit_mod_two_pow,
        Nat.testBit_shiftLeft]
      by_cases hjj : jj ≤ k
      · have h1 : decide (63 - k + jj < 64) = true := by
          simp only [decide_eq_true_eq]; omega
        have h2 : decide (63 - k ≤ 63 - k + jj) = true := by
          simp only [decide_eq_true_eq]; omega
        have h3 : 63 - k + jj - (63 - k) = jj := by omega
        rw [h1, h2, h3, Bool.true_and, Bool.true_and, decide_eq_true hjj, Bool.true_and]
      · have h1 : decide (63 - k + jj < 64) = false := by
          simp only [decide_eq_false_iff_not]; omega
        have h2 : decide (jj ≤ k) = false := by
          simp only [decide_eq_false_iff_not]; omega
        rw [h1, h2, Bool.false_and, Bool.false_and]
    clear_value hv
    by_cases hcase : (e - 1) / 64 ≤ b / 64
    · -- single-word branch
      rw [if_pos hcase, if_pos hbe, Nat.mul_one, Nat.testBit_shiftRight, hhi]
      have heq : (e - 1) / 64 = b / 64 := by omega
      unfold bitAt
      by_cases hin : i < e - b
      · have h1 : (b + i) / 64 = b / 64 := by omega
        have h2 : (b + i) % 64 = b % 64 + i := by omega
        have h3 : decide (b % 64 + i ≤ k) = true := by
          simp only [decide_eq_true_eq]; omega
        rw [heq, h1, h2, h3, Bool.true_and, decide_eq_true hin, Bool.true_and]
      · have h3 : decide (b % 64 + i ≤ k) = false := by
          simp only [decide_eq_false_iff_not]; omega
        rw [h3, decide_eq_false hin, Bool.false_and, Bool.false_and]
    · -- straddling branch
      rw [if_neg hcase]
      have hlo : (e - 1) / 64 = b / 64 + 1 := by omega
      have hls : 0 < b % 64 := by omega
      rw [Nat.testBit_or, hMv, Nat.testBit_mod_two_pow, Nat.testBit_shiftLeft,
        Nat.testBit_shiftRight, hhi]
      have hwlo : (wget c (b / 64)) < 2 ^ 64 := wget_lt hw _
      unfold bitAt
      by_cases h1 : i < 64 - b % 64
      · have ha : decide (64 - b % 64 ≤ i) = false := by
          simp only [decide_eq_false_iff_not]; omega
        have hb' : (b + i) / 64 = b / 64 := by omega
        have hc' : (b + i) % 64 = b % 64 + i := by omega
        have hd : decide (i < e - b) = true := by
          simp only [decide_eq_true_eq]; omega
        rw [ha, Bool.false_and, Bool.and_false, Bool.false_or, hb', hc', hd,
          Bool.true_and]
      · by_cases h2 : i < e - b
        · have ha : decide (i < 64) = true := by
            simp only [decide_eq_true_eq]; omega
          have hb' : decide (64 - b % 64 ≤ i) = true := by
            simp only [decide_eq_true_eq]; omega
          have hc' : decide (i - (64 - b % 64) ≤ k) = true := by
            simp only [decide_eq_true_eq]; omega
          have hd : (wget c (b / 64)).testBit (b % 64 + i) = false :=
            Nat.testBit_lt_two_pow (Nat.lt_of_lt_of_le hwlo
              (Nat.pow_le_pow_right (by norm_num) (by omega)))
          have hei : (b + i) / 64 = b / 64 + 1 := by omega
          have hfi : (b + i) % 64 = i - (64 - b % 64) := by omega
          rw [ha, hb', hc', hd, Bool.true_and, Bool.true_and, Bool.true_and,
            Bool.or_false, hei, hfi, hlo, decide_eq_true h2, Bool.true_and]
        · have hd : (wget c (b / 64)).testBit (b % 64 + i) = false :=
            Nat.testBit_lt_two_pow (Nat.lt_of_lt_of_le hwlo
              (Nat.pow_le_pow_right (by norm_num) (by omega)))
          have hres : decide (i < e - b) = false := by
            simp only [decide_eq_false_iff_not]; omega
          rw [hd, hres, Bool.false_and, Bool.or_false]
          by_cases hi64 : i < 64
          · have hb' : decide (64 - b % 64 ≤ i) = true := by
              simp only [decide_eq_true_eq]; omega
            have hc' : decide (i - (64 - b % 64) ≤ k) = false := by
              simp only [decide_eq_false_iff_not]; omega
            rw [hb', hc', Bool.true_and, Bool.false_and, Bool.and_false]
          · have ha : decide (i < 64) = false := by
              simp only [decide_eq_false_iff_not]; omega
            rw [ha, Bool.false_and]
  · -- empty range
    have hif : (e - (if 0 < e then 1 else 0)) / 64 ≤ b / 64 := by
      split <;> omega
    rw [if_pos hif, if_neg hbe, Nat.mul_zero, Nat.zero_testBit]
    have hres : decide (i < e - b) = false := by
      simp only [decide_eq_false_iff_not]; omega
    rw [hres, Bool.false_and]

/-- `bvGet` returns a value that fits in `e - b` bits. -/
theorem bvGet_lt {c : List Nat} {b e : Nat} (hspan : e - b ≤ 64)
    (he : e ≤ M - 64) (hw : ∀ w ∈ c, w < M) :
    bvGet c b e < 2 ^ (e - b) := by
  apply Nat.lt_pow_two_of_testBit
  intro i hi
  rw [testBit_bvGet hspan he hw]
  have : decide (i < e - b) = false := by
    simp only [decide_eq_false_iff_not]; omega
  rw [this, Bool.false_and]

/-- C6: the round-trip and frame laws of `bitview::set`/`bitview::get`.
After `set(b, e, v)` with `v` fitting in `e - b` bits, `get(b, e)` returns
`v`; every bit outside `[b, e)` keeps its previous value; `get` on an empty
range yields 0; and `set` on an empty range is a no-op.  The hypotheses are
the documented preconditions of the calls: a valid range inside the view,
`e - b ≤ W`, a value that fits, words below `2 ^ 64`, and the (immaterial)
bound keeping `end` away from `size_t` wrap-around. -/
theorem bitview_set_get_spec {c : List Nat} {b e v : Nat} (hbe : b ≤ e)
    (hspan : e - b ≤ 64) (hbound : e ≤ 64 * c.length) (he : e ≤ M - 64)
    (hv : v < 2 ^ (e - b)) (hw : ∀ w ∈ c, w < M) :
    bvGet (bvSet c b e v) b e = v ∧
    (∀ j, j < b ∨ e ≤ j → bitAt (bvSet c b e v) j = bitAt c j) ∧
    bvGet c b b = 0 ∧
    bvSet c b b v = c := by
  refine ⟨?_, ?_, ?_, ?_⟩
  · apply Nat.eq_of_testBit_eq
    intro i
    rw [testBit_bvGet hspan he (bvSet_words_lt hspan hw)]
    rw [bitAt_bvSet hspan hbound]
    by_cases hi : i < e - b
    · rw [if_pos (by omega), decide_eq_true hi, Bool.true_and]
      congr 1
      omega
    · rw [if_neg (by omega)]
      have h1 : decide (i < e - b) = false := by
        simp only [decide_eq_false_iff_not]; omega
      rw [h1, Bool.false_and]
      symm
      exact Nat.testBit_lt_two_pow (Nat.lt_of_lt_of_le hv
        (Nat.pow_le_pow_right (by norm_num) (by omega)))
  · intro j hj
    rw [bitAt_bvSet hspan hbound, if_neg (by omega)]
  · apply Nat.eq_of_testBit_eq
    intro i
    rw [testBit_bvGet (by omega) (by omega) hw, Nat.zero_testBit]
    have h1 : decide (i < b - b) = false := by
      simp only [decide_eq_false_iff_not]; omega
    rw [h1, Bool.false_and]
  · unfold bvSet
    rw [if_pos]
    unfold isEmptyRange
    simp

/-- Witness for C6 at a concrete input. -/
theorem bitview_set_get_spec_witness :
    bvGet (bvSet [0, 0] 3 10 77) 3 10 = 77 ∧
    (∀ j, j < 3 ∨ 10 ≤ j → bitAt (bvSet [0, 0] 3 10 77) j = bitAt [0, 0] j) ∧
    bvGet [0, 0] 3 3 = 0 ∧
    bvSet [0, 0] 3 3 77 = [0, 0] := by
  have h := bitview_set_get_spec (c := [0, 0]) (b := 3) (e := 10) (v := 77)
    (by omega) (by omega) (by norm_num) (by norm_num [M]) (by norm_num)
    (by
      intro w hw
      have : w = 0 := by
        simpa using hw
      rw [this]
      exact M_pos)
  exact h

/-- C10: `const_range_reference::operator word_type` silently caps the read
at `begin + elements_per_word` fields, so the conversion depends only on the
first word's worth of fields: for any `e` past the cap it returns exactly
the value for `e = b + elements_per_word`, and the bit length handed to
`bitview::get` never exceeds the word size. -/
theorem range_reference_word_cap (pv : PV) (b e : Nat)
    (hcap : b + pvElementsPerWord pv ≤ e) :
    pvRefWord pv b e = pvRefWord pv b (b + pvElementsPerWord pv) ∧
    (min e (b + pvElementsPerWord pv) - b) * pv.width ≤ 64 := by
  constructor
  · unfold pvRefWord
    rw [min_eq_right hcap, min_eq_right (Nat.le_refl _)]
  · rw [min_eq_right hcap]
    have h1 : (b + pvElementsPerWord pv - b) = pvElementsPerWord pv := by omega
    rw [h1]
    unfold pvElementsPerWord
    by_cases hwz : pv.width = 0
    · simp [hwz]
    · calc 64 / pv.width * pv.width ≤ 64 := Nat.div_mul_le_self 64 pv.width

/-- Witness for C10: a width-9 view (7 fields per word) read through a
27-field range reference. -/
theorem range_reference_word_cap_witness :
    pvRefWord (pvMk 9 27) 0 27 = pvRefWord (pvMk 9 27) 0 (0 + pvElementsPerWord (pvMk 9 27)) ∧
    (min 27 (0 + pvElementsPerWord (pvMk 9 27)) - 0) * (pvMk 9 27).width ≤ 64 :=
  range_reference_word_cap (pvMk 9 27) 0 27 (by decide)

/-- Two containers with equal length, word-bounded entries, and the same
bit stream are equal. -/
theorem bitAt_ext {c1 c2 : List Nat} (hlen : c1.length = c2.length)
    (h1 : ∀ w ∈ c1, w < M) (h2 : ∀ w ∈ c2, w < M)
    (h : ∀ j, bitAt c1 j = bitAt c2 j) : c1 = c2 := by
  apply List.ext_getElem hlen
  intro i hi1 hi2
  apply Nat.eq_of_testBit_eq
  intro x
  by_cases hx : x < 64
  · have e1 : c1[i] = wget c1 i := by
      unfold wget
      rw [List.getD_eq_getElem _ 0 hi1]
    have e2 : c2[i] = wget c2 i := by
      unfold wget
      rw [List.getD_eq_getElem _ 0 hi2]
    have hj := h (64 * i + x)
    unfold bitAt at hj
    have hdiv : (64 * i + x) / 64 = i := by omega
    have hmod : (64 * i + x) % 64 = x := by omega
    rw [hdiv, hmod] at hj
    rw [e1, e2]
    exact hj
  · rw [Nat.testBit_lt_two_pow, Nat.testBit_lt_two_pow]
    · exact Nat.lt_of_lt_of_le (h2 _ (List.getElem_mem hi2))
        (Nat.pow_le_pow_right (by norm_num) (by omega))
    · exact Nat.lt_of_lt_of_le (h1 _ (List.getElem_mem hi1))
        (Nat.pow_le_pow_right (by norm_num) (by omega))

/-- Specification of the middle loop of `copy_forward` on an aliased
container: as long as the positions at and above the current word still hold
the original bits (true when the source range starts at or after the
destination), each processed word receives the original source bits. -/
theorem copyForwardWords_spec {orig : List Nat} :
    ∀ (count : Nat) (c : List Nat) (i0 srcPos : Nat),
    c.length = orig.length →
    (∀ w ∈ c, w < M) →
    64 * i0 ≤ srcPos →
    i0 + count ≤ orig.length →
    srcPos + 64 * count + 128 ≤ M →
    (∀ j, 64 * i0 ≤ j → bitAt c j = bitAt orig j) →
    ((copyForwardWords count c i0 srcPos).length = orig.length ∧
     (∀ w ∈ copyForwardWords count c i0 srcPos, w < M) ∧
     (∀ j, bitAt (copyForwardWords count c i0 srcPos) j =
        if 64 * i0 ≤ j ∧ j < 64 * (i0 + count)
        then bitAt orig (j + (srcPos - 64 * i0))
        else bitAt c j)) := by
  intro count
  induction count with
  | zero =>
      intro c i0 srcPos hclen hcw _ _ _ _
      refine ⟨hclen, hcw, ?_⟩
      intro j
      rw [if_neg (by omega)]
      rfl
  | succ k ih =>
      intro c i0 srcPos hclen hcw hoff hcnt hbig hinv
      have hi0 : i0 < c.length := by omega
      have hval_lt : bvGet c srcPos (srcPos + 64) < M := by
        calc bvGet c srcPos (srcPos + 64)
            < 2 ^ (srcPos + 64 - srcPos) :=
              bvGet_lt (by omega) (by unfold M at hbig ⊢; omega) hcw
          _ ≤ M := by
              unfold M
              apply Nat.pow_le_pow_right (by norm_num)
              omega
      have hvalbits : ∀ x, (bvGet c srcPos (srcPos + 64)).testBit x =
          (decide (x < srcPos + 64 - srcPos) && bitAt c (srcPos + x)) :=
        testBit_bvGet (by omega) (by unfold M at hbig ⊢; omega) hcw
      have hc1len : (wset c i0 (bvGet c srcPos (srcPos + 64))).length = orig.length := by
        rw [length_wset, hclen]
      have hc1w : ∀ w ∈ wset c i0 (bvGet c srcPos (srcPos + 64)), w < M :=
        words_lt_wset hcw hval_lt
      have hc1inv : ∀ j, 64 * (i0 + 1) ≤ j →
          bitAt (wset c i0 (bvGet c srcPos (srcPos + 64))) j = bitAt orig j := by
        intro j hj
        rw [bitAt_wset hi0, if_neg (by omega)]
        exact hinv j (by omega)
      have hrec := ih (wset c i0 (bvGet c srcPos (srcPos + 64))) (i0 + 1) (srcPos + 64)
        hc1len hc1w (by omega) (by omega) (by omega) hc1inv
      rw [show copyForwardWords (k + 1) c i0 srcPos =
        copyForwardWords k (wset c i0 (bvGet c srcPos (srcPos + 64))) (i0 + 1) (srcPos + 64)
        from rfl]
      refine ⟨hrec.1, hrec.2.1, ?_⟩
      intro j
      rw [hrec.2.2 j]
      by_cases h1 : 64 * (i0 + 1) ≤ j ∧ j < 64 * (i0 + 1 + k)
      · rw [if_pos h1, if_pos (by omega)]
        congr 1
        omega
      · rw [if_neg h1]
        by_cases h2 : 64 * i0 ≤ j ∧ j < 64 * (i0 + (k + 1))
        · -- j lies in the word just written
          rw [if_pos h2, bitAt_wset hi0, if_pos (by omega)]
          rw [hvalbits]
          have hd : decide (j % 64 < srcPos + 64 - srcPos) = true := by
            simp only [decide_eq_true_eq]; omega
          rw [hd, Bool.true_and]
          have harg : srcPos + j % 64 = j + (srcPos - 64 * i0) := by omega
          rw [harg]
          exact hinv _ (by omega)
        · rw [if_neg h2, bitAt_wset hi0, if_neg (by omega)]

/-- Full specification of `copy_forward` on an aliased container, under the
condition `db ≤ sb` (the direction `bitview::copy` selects it for): the
destination range receives the original source bits, everything else is
preserved. -/
theorem copyForward_spec {c : List Nat} {sb se db de : Nat}
    (hd : db ≤ sb) (hlen : se - sb = de - db) (hsd : sb ≤ se) (hdd : db ≤ de)
    (hde : de ≤ 64 * c.length) (hse : se ≤ 64 * c.length)
    (hbig : 64 * c.length + 128 ≤ M)
    (hw : ∀ w ∈ c, w < M) :
    (copyForward c sb se db de).length = c.length ∧
    (∀ w ∈ copyForward c sb se db de, w < M) ∧
    (∀ j, bitAt (copyForward c sb se db de) j =
      if db ≤ j ∧ j < de then bitAt c (sb + (j - db)) else bitAt c j) := by
  have hMval : M = 2 ^ 64 := rfl
  unfold copyForward
  dsimp only
  by_cases hsingle : db / 64 = de / 64
  · -- the destination lies in a single word
    rw [if_pos hsingle, Nat.one_mul]
    have hLe : de % 64 ≥ db % 64 := by omega
    have hlen1 : 64 - db % 64 - (64 - de % 64) = de % 64 - db % 64 := by omega
    rw [hlen1]
    have hcount : de / 64 - (db / 64 + 1) = 0 := by omega
    rw [hcount]
    have hlast : se - (sb + (de % 64 - db % 64) + 64 * 0) = 0 := by omega
    rw [show (copyForwardWords 0
      (wset c (db / 64)
        (bvGet c sb (sb + (de % 64 - db % 64)) <<< (db % 64) % M |||
          lowbits (wget c (db / 64)) (db % 64) |||
          highbits (wget c (db / 64)) (64 - de % 64)))
      (db / 64 + 1) (sb + (de % 64 - db % 64))) =
      (wset c (db / 64)
        (bvGet c sb (sb + (de % 64 - db % 64)) <<< (db % 64) % M |||
          lowbits (wget c (db / 64)) (db % 64) |||
          highbits (wget c (db / 64)) (64 - de % 64))) from rfl]
    rw [hlast, if_neg (by omega)]
    set v := bvGet c sb (sb + (de % 64 - db % 64)) <<< (db % 64) % M |||
      lowbits (wget c (db / 64)) (db % 64) |||
      highbits (wget c (db / 64)) (64 - de % 64) with hv
    have hvM : v < M :=
      Nat.or_lt_two_pow (Nat.or_lt_two_pow (Nat.mod_lt _ M_pos)
        (lowbits_lt (by omega))) highbits_lt
    have hvb : ∀ x, x < 64 → v.testBit x =
        if db % 64 ≤ x ∧ x < de % 64 then bitAt c (sb + (x - db % 64))
        else (wget c (db / 64)).testBit x := by
      intro x hx
      rw [hv, Nat.testBit_or, Nat.testBit_or, hMval, Nat.testBit_mod_two_pow,
        Nat.testBit_shiftLeft, testBit_lowbits (by omega),
        testBit_highbits (by omega),
        testBit_bvGet (by omega) (by unfold M at hbig; omega) hw]
      by_cases h1 : x < db % 64
      · rw [if_neg (by omega)]
        have ha : decide (db % 64 ≤ x) = false := by
          simp only [decide_eq_false_iff_not]; omega
        have hb' : decide (x < db % 64) = true := by
          simp only [decide_eq_true_eq]; omega
        have hc' : decide (64 - (64 - de % 64) ≤ x ∧ x < 64) = false := by
          simp only [decide_eq_false_iff_not]; omega
        rw [ha, hb', hc']
        simp only [Bool.true_and, Bool.false_and, Bool.and_false, Bool.or_false,
          Bool.false_or]
      · by_cases h2 : x < de % 64
        · rw [if_pos (by omega)]
          have ha : decide (x < 64) = true := by
            simp only [decide_eq_true_eq]; omega
          have hb' : decide (db % 64 ≤ x) = true := by
            simp only [decide_eq_true_eq]; omega
          have hc' : decide (x - db % 64 < sb + (de % 64 - db % 64) - sb) = true := by
            simp only [decide_eq_true_eq]; omega
          have hdd' : decide (x < db % 64) = false := by
            simp only [decide_eq_false_iff_not]; omega
          have he' : decide (64 - (64 - de % 64) ≤ x ∧ x < 64) = false := by
            simp only [decide_eq_false_iff_not]; omega
          rw [ha, hb', hc', hdd', he']
          simp only [Bool.true_and, Bool.false_and, Bool.and_false, Bool.or_false,
            Bool.false_or]
        · rw [if_neg (by omega)]
          have hc' : decide (x - db % 64 < sb + (de % 64 - db % 64) - sb) = false := by
            simp only [decide_eq_false_iff_not]; omega
          have he' : decide (64 - (64 - de % 64) ≤ x ∧ x < 64) = true := by
            simp only [decide_eq_true_eq]; omega
          have hb2 : decide (x < db % 64) = false := by
            simp only [decide_eq_false_iff_not]; omega
          rw [hc', he', hb2]
          simp only [Bool.true_and, Bool.false_and, Bool.and_false, Bool.or_false,
            Bool.false_or]
    by_cases hbounds : db / 64 < c.length
    · refine ⟨by rw [length_wset], words_lt_wset hw hvM, ?_⟩
      intro j
      rw [bitAt_wset hbounds]
      by_cases hj : j / 64 = db / 64
      · rw [if_pos hj, hvb _ (by omega)]
        by_cases hjin : db ≤ j ∧ j < de
        · rw [if_pos (by omega), if_pos hjin]
          congr 1
          omega
        · rw [if_neg (by omega), if_neg hjin]
          unfold bitAt
          rw [hj]
      · rw [if_neg hj, if_neg (by omega)]
    · -- the (empty) destination sits exactly at the end of the view
      have hempty : db = de := by omega
      rw [wset_oob (by omega)]
      refine ⟨rfl, hw, ?_⟩
      intro j
      rw [if_neg (by omega)]
  · -- the destination spans several words
    have hsl : db / 64 < de / 64 := by omega
    rw [if_neg hsingle, Nat.zero_mul, Nat.sub_zero]
    have hdbi : db / 64 < c.length := by omega
    set v := bvGet c sb (sb + (64 - db % 64)) <<< (db % 64) % M |||
      lowbits (wget c (db / 64)) (db % 64) |||
      highbits (wget c (db / 64)) 0 with hv
    have hvM : v < M :=
      Nat.or_lt_two_pow (Nat.or_lt_two_pow (Nat.mod_lt _ M_pos)
        (lowbits_lt (by omega))) highbits_lt
    have hvb : ∀ x, x < 64 → v.testBit x =
        if db % 64 ≤ x then bitAt c (sb + (x - db % 64))
        else (wget c (db / 64)).testBit x := by
      intro x hx
      rw [hv, Nat.testBit_or, Nat.testBit_or, hMval, Nat.testBit_mod_two_pow,
        Nat.testBit_shiftLeft, testBit_lowbits (by omega),
        testBit_highbits (by omega),
        testBit_bvGet (by omega) (by unfold M at hbig; omega) hw]
      have hhb : decide (64 - 0 ≤ x ∧ x < 64) = false := by
        simp only [decide_eq_false_iff_not]; omega
      rw [hhb, Bool.false_and, Bool.or_false]
      by_cases h1 : x < db % 64
      · rw [if_neg (by omega)]
        have ha : decide (db % 64 ≤ x) = false := by
          simp only [decide_eq_false_iff_not]; omega
        have hb' : decide (x < db % 64) = true := by
          simp only [decide_eq_true_eq]; omega
        rw [ha, hb']
        simp only [Bool.true_and, Bool.false_and, Bool.and_false, Bool.or_false,
          Bool.false_or]
      · rw [if_pos (by omega)]
        have ha : decide (x < 64) = true := by
          simp only [decide_eq_true_eq]; omega
        have hb' : decide (db % 64 ≤ x) = true := by
          simp only [decide_eq_true_eq]; omega
        have hc' : decide (x - db % 64 < sb + (64 - db % 64) - sb) = true := by
          simp only [decide_eq_true_eq]; omega
        have hdd' : decide (x < db % 64) = false := by
          simp only [decide_eq_false_iff_not]; omega
        rw [ha, hb', hc', hdd', Bool.true_and, Bool.true_and, Bool.true_and,
          Bool.false_and, Bool.or_false]
    have hc1len : (wset c (db / 64) v).length = c.length := length_wset
    have hc1w : ∀ w ∈ wset c (db / 64) v, w < M := words_lt_wset hw hvM
    have hc1b : ∀ j, bitAt (wset c (db / 64) v) j =
        if db ≤ j ∧ j < 64 * (db / 64 + 1) then bitAt c (sb + (j - db))
        else bitAt c j := by
      intro j
      rw [bitAt_wset hdbi]
      by_cases hj : j / 64 = db / 64
      · rw [if_pos hj, hvb _ (by omega)]
        by_cases hjin : db ≤ j
        · rw [if_pos (by omega), if_pos (by omega)]
          congr 1
          omega
        · rw [if_neg (by omega), if_neg (by omega)]
          unfold bitAt
          rw [hj]
      · rw [if_neg hj, if_neg (by omega)]
    have hrec := @copyForwardWords_spec c (de / 64 - (db / 64 + 1))
      (wset c (db / 64) v) (db / 64 + 1) (sb + (64 - db % 64))
      hc1len hc1w (by omega) (by omega) (by unfold M at hbig ⊢; omega)
      (by
        intro j hj
        rw [hc1b j, if_neg (by omega)])
    set c2 := copyForwardWords (de / 64 - (db / 64 + 1)) (wset c (db / 64) v)
      (db / 64 + 1) (sb + (64 - db % 64)) with hc2
    have hc2b : ∀ j, bitAt c2 j =
        if db ≤ j ∧ j < 64 * (de / 64) then bitAt c (sb + (j - db))
        else bitAt c j := by
      intro j
      rw [hrec.2.2 j]
      by_cases h1 : 64 * (db / 64 + 1) ≤ j ∧ j < 64 * (db / 64 + 1 + (de / 64 - (db / 64 + 1)))
      · rw [if_pos h1, if_pos (by omega)]
        congr 1
        omega
      · rw [if_neg h1, hc1b j]
        by_cases h2 : db ≤ j ∧ j < 64 * (db / 64 + 1)
        · rw [if_pos h2, if_pos (by omega)]
        · rw [if_neg h2, if_neg (by omega)]
    have hsrc2 : sb + (64 - db % 64) + 64 * (de / 64 - (db / 64 + 1)) =
        (sb - db) + 64 * (de / 64) := by omega
    have hlen2 : se - (sb + (64 - db % 64) + 64 * (de / 64 - (db / 64 + 1))) =
        de % 64 := by omega
    rw [hlen2]
    by_cases hdep : 0 < de % 64
    · rw [if_pos hdep]
      have hdei : de / 64 < c.length := by omega
      have hreads : ∀ x, x < 64 →
          bitAt c2 (64 * (de / 64) + x) = bitAt c (64 * (de / 64) + x) := by
        intro x hx
        rw [hc2b, if_neg (by omega)]
      have hv2b : ∀ x, x < 64 →
          (bvGet c2 (sb + (64 - db % 64) + 64 * (de / 64 - (db / 64 + 1)))
              (sb + (64 - db % 64) + 64 * (de / 64 - (db / 64 + 1)) + de % 64) |||
            highbits (wget c2 (de / 64)) (64 - de % 64)).testBit x =
          if x < de % 64 then bitAt c (sb - db + 64 * (de / 64) + x)
          else bitAt c (64 * (de / 64) + x) := by
        intro x hx
        rw [Nat.testBit_or, testBit_highbits (by omega),
          testBit_bvGet (by omega)
            (by rw [hsrc2]; unfold M at hbig ⊢; omega) hrec.2.1]
        by_cases h1 : x < de % 64
        · rw [if_pos h1]
          have ha : decide (x < sb + (64 - db % 64) + 64 * (de / 64 - (db / 64 + 1)) + de % 64 -
              (sb + (64 - db % 64) + 64 * (de / 64 - (db / 64 + 1)))) = true := by
            simp only [decide_eq_true_eq]; omega
          have hb' : decide (64 - (64 - de % 64) ≤ x ∧ x < 64) = false := by
            simp only [decide_eq_false_iff_not]; omega
          rw [ha, hb', Bool.true_and, Bool.false_and, Bool.or_false]
          rw [show sb + (64 - db % 64) + 64 * (de / 64 - (db / 64 + 1)) + x =
            64 * (de / 64) + (x + (sb - db)) from by omega]
          rw [hc2b, if_neg (by omega)]
          congr 1
          omega
        · rw [if_neg h1]
          have ha : decide (x < sb + (64 - db % 64) + 64 * (de / 64 - (db / 64 + 1)) + de % 64 -
              (sb + (64 - db % 64) + 64 * (de / 64 - (db / 64 + 1)))) = false := by
            simp only [decide_eq_false_iff_not]; omega
          have hb' : decide (64 - (64 - de % 64) ≤ x ∧ x < 64) = true := by
            simp only [decide_eq_true_eq]; omega
          rw [ha, hb', Bool.false_and, Bool.false_or, Bool.true_and]
          have hfold : bitAt c2 (64 * (de / 64) + x) = (wget c2 (de / 64)).testBit x := by
            unfold bitAt
            have hdiv : (64 * (de / 64) + x) / 64 = de / 64 := by omega
            have hmod : (64 * (de / 64) + x) % 64 = x := by omega
            rw [hdiv, hmod]
          rw [← hfold]
          exact hreads x hx
      have hv2M : bvGet c2 (sb + (64 - db % 64) + 64 * (de / 64 - (db / 64 + 1)))
          (sb + (64 - db % 64) + 64 * (de / 64 - (db / 64 + 1)) + de % 64) |||
            highbits (wget c2 (de / 64)) (64 - de % 64) < M := by
        apply Nat.or_lt_two_pow _ highbits_lt
        calc bvGet c2 _ _ < 2 ^ (sb + (64 - db % 64) + 64 * (de / 64 - (db / 64 + 1)) + de % 64 -
              (sb + (64 - db % 64) + 64 * (de / 64 - (db / 64 + 1)))) :=
              bvGet_lt (by omega) (by rw [hsrc2]; unfold M at hbig ⊢; omega) hrec.2.1
          _ ≤ M := by
              rw [hMval]
              apply Nat.pow_le_pow_right (by norm_num)
              omega
      refine ⟨by rw [length_wset, hrec.1],
        words_lt_wset hrec.2.1 hv2M, ?_⟩
      intro j
      rw [bitAt_wset (by rw [hrec.1]; exact hdei)]
      by_cases hj : j / 64 = de / 64
      · rw [if_pos hj, hv2b _ (by omega)]
        by_cases hjin : j % 64 < de % 64
        · rw [if_pos hjin, if_pos (by omega)]
          congr 1
          omega
        · rw [if_neg hjin, if_neg (by omega)]
          unfold bitAt
          rw [hj]
          have hdiv : (64 * (de / 64) + j % 64) / 64 = de / 64 := by omega
          have hmod : (64 * (de / 64) + j % 64) % 64 = j % 64 := by omega
          rw [hdiv, hmod]
      · rw [if_neg hj, hc2b j]
        by_cases h2 : db ≤ j ∧ j < 64 * (de / 64)
        · rw [if_pos h2, if_pos (by omega)]
        · rw [if_neg h2, if_neg (by omega)]
    · rw [if_neg hdep]
      refine ⟨hrec.1, hrec.2.1, ?_⟩
      intro j
      rw [hc2b j]
      by_cases h2 : db ≤ j ∧ j < 64 * (de / 64)
      · rw [if_pos h2, if_pos (by omega)]
      · rw [if_neg h2, if_neg (by omega)]

/-- Specification of the middle loop of `copy_backward` on an aliased
container: words are written descending from `destPos`; while every position
below `destPos` still holds original bits, the reads (always below
`destPos`) return original data. -/
theorem copyBackwardWords_spec {orig : List Nat} :
    ∀ (count : Nat) (c : List Nat) (destPos srcPos : Nat),
    c.length = orig.length →
    (∀ w ∈ c, w < M) →
    srcPos ≤ destPos →
    destPos ≤ 64 * orig.length →
    64 * count ≤ destPos →
    64 * count ≤ srcPos →
    destPos % 64 = 0 →
    destPos + 128 ≤ M →
    (∀ j, j < destPos → bitAt c j = bitAt orig j) →
    ((copyBackwardWords count c destPos srcPos).1.length = orig.length ∧
     (∀ w ∈ (copyBackwardWords count c destPos srcPos).1, w < M) ∧
     (copyBackwardWords count c destPos srcPos).2.1 = destPos - 64 * count ∧
     (copyBackwardWords count c destPos srcPos).2.2 = srcPos - 64 * count ∧
     (∀ j, bitAt (copyBackwardWords count c destPos srcPos).1 j =
        if destPos - 64 * count ≤ j ∧ j < destPos
        then bitAt orig (j - (destPos - srcPos))
        else bitAt c j)) := by
  intro count
  induction count with
  | zero =>
      intro c destPos srcPos hclen hcw _ _ _ _ _ _ _
      refine ⟨hclen, hcw, by simp [copyBackwardWords], by simp [copyBackwardWords], ?_⟩
      intro j
      rw [if_neg (by omega)]
      rfl
  | succ k ih =>
      intro c destPos srcPos hclen hcw hsd hbound hcnt hcnt2 hmod hbig hinv
      have hwidx : (destPos - 64) / 64 < c.length := by omega
      have hval_lt : bvGet c (srcPos - 64) (srcPos - 64 + 64) < M := by
        calc bvGet c (srcPos - 64) (srcPos - 64 + 64)
            < 2 ^ (srcPos - 64 + 64 - (srcPos - 64)) :=
              bvGet_lt (by omega) (by unfold M at hbig ⊢; omega) hcw
          _ ≤ M := by
              unfold M
              apply Nat.pow_le_pow_right (by norm_num)
              omega
      have hvalbits : ∀ x, (bvGet c (srcPos - 64) (srcPos - 64 + 64)).testBit x =
          (decide (x < srcPos - 64 + 64 - (srcPos - 64)) && bitAt c (srcPos - 64 + x)) :=
        testBit_bvGet (by omega) (by unfold M at hbig ⊢; omega) hcw
      have hc1len : (wset c ((destPos - 64) / 64)
          (bvGet c (srcPos - 64) (srcPos - 64 + 64))).length = orig.length := by
        rw [length_wset, hclen]
      have hc1w : ∀ w ∈ wset c ((destPos - 64) / 64)
          (bvGet c (srcPos - 64) (srcPos - 64 + 64)), w < M :=
        words_lt_wset hcw hval_lt
      have hc1b : ∀ j, bitAt (wset c ((destPos - 64) / 64)
          (bvGet c (srcPos - 64) (srcPos - 64 + 64))) j =
          if destPos - 64 ≤ j ∧ j < destPos then bitAt orig (j - (destPos - srcPos))
          else bitAt c j := by
        intro j
        rw [bitAt_wset hwidx]
        by_cases hj : j / 64 = (destPos - 64) / 64
        · rw [if_pos hj, if_pos (by omega), hvalbits]
          have hd : decide (j % 64 < srcPos - 64 + 64 - (srcPos - 64)) = true := by
            simp only [decide_eq_true_eq]; omega
          rw [hd, Bool.true_and]
          rw [hinv _ (by omega)]
          congr 1
          omega
        · rw [if_neg hj, if_neg (by omega)]
      have hc1inv : ∀ j, j < destPos - 64 →
          bitAt (wset c ((destPos - 64) / 64)
            (bvGet c (srcPos - 64) (srcPos - 64 + 64))) j = bitAt orig j := by
        intro j hj
        rw [hc1b, if_neg (by omega)]
        exact hinv _ (by omega)
      have hrec := ih (wset c ((destPos - 64) / 64)
          (bvGet c (srcPos - 64) (srcPos - 64 + 64))) (destPos - 64) (srcPos - 64)
        hc1len hc1w (by omega) (by omega) (by omega) (by omega) (by omega)
        (by omega) hc1inv
      rw [show copyBackwardWords (k + 1) c destPos srcPos =
        copyBackwardWords k (wset c ((destPos - 64) / 64)
          (bvGet c (srcPos - 64) (srcPos - 64 + 64))) (destPos - 64) (srcPos - 64)
        from rfl]
      refine ⟨hrec.1, hrec.2.1, by rw [hrec.2.2.1]; omega, by rw [hrec.2.2.2.1]; omega, ?_⟩
      intro j
      rw [hrec.2.2.2.2 j]
      by_cases h1 : destPos - 64 - 64 * k ≤ j ∧ j < destPos - 64
      · rw [if_pos h1, if_pos (by omega)]
        congr 1
        omega
      · rw [if_neg h1, hc1b j]
        by_cases h2 : destPos - 64 ≤ j ∧ j < destPos
        · rw [if_pos h2, if_pos (by omega)]
        · rw [if_neg h2, if_neg (by omega)]

/-- Full specification of `copy_backward` on an aliased container, under the
condition `sb ≤ db` (the direction `bitview::copy` selects it for is
`sb < db`): the destination range receives the original source bits,
everything else is preserved. -/
theorem copyBackward_spec {c : List Nat} {sb se db de : Nat}
    (hd : sb ≤ db) (hlen : se - sb = de - db) (hsd : sb ≤ se) (hdd : db ≤ de)
    (hde : de ≤ 64 * c.length) (hse : se ≤ 64 * c.length)
    (hbig : 64 * c.length + 128 ≤ M)
    (hw : ∀ w ∈ c, w < M) :
    (copyBackward c sb se db de).length = c.length ∧
    (∀ w ∈ copyBackward c sb se db de, w < M) ∧
    (∀ j, bitAt (copyBackward c sb se db de) j =
      if db ≤ j ∧ j < de then bitAt c (sb + (j - db)) else bitAt c j) := by
  have hMval : M = 2 ^ 64 := rfl
  unfold copyBackward
  dsimp only
  by_cases hsingle : db / 64 = de / 64
  · -- the destination lies in a single word
    rw [if_pos hsingle, Nat.mul_one]
    have hcount : (de - (de % 64 - db % 64) - db) / 64 = 0 := by omega
    rw [hcount]
    rw [show (copyBackwardWords 0 (wset c (de / 64) (highbits (wget c (de / 64)) (64 - de % 64) ||| bvGet c (se - (de % 64 - db % 64)) se <<< (db % 64) % M ||| lowbits (wget c (de / 64)) (db % 64)))
      (de - (de % 64 - db % 64)) (se - (de % 64 - db % 64))).2.2 =
      se - (de % 64 - db % 64) from rfl]
    rw [if_neg (show ¬ 0 < se - (de % 64 - db % 64) - sb from by omega)]
    rw [show (copyBackwardWords 0 (wset c (de / 64) (highbits (wget c (de / 64)) (64 - de % 64) ||| bvGet c (se - (de % 64 - db % 64)) se <<< (db % 64) % M ||| lowbits (wget c (de / 64)) (db % 64)))
      (de - (de % 64 - db % 64)) (se - (de % 64 - db % 64))).1 =
      wset c (de / 64) (highbits (wget c (de / 64)) (64 - de % 64) ||| bvGet c (se - (de % 64 - db % 64)) se <<< (db % 64) % M ||| lowbits (wget c (de / 64)) (db % 64)) from rfl]
    set v := highbits (wget c (de / 64)) (64 - de % 64) ||| bvGet c (se - (de % 64 - db % 64)) se <<< (db % 64) % M ||| lowbits (wget c (de / 64)) (db % 64) with hv
    have hvM : v < M :=
      Nat.or_lt_two_pow (Nat.or_lt_two_pow highbits_lt (Nat.mod_lt _ M_pos))
        (lowbits_lt (by omega))
    have hvb : ∀ x, x < 64 → v.testBit x =
        if db % 64 ≤ x ∧ x < de % 64 then
          bitAt c (se - (de % 64 - db % 64) + (x - db % 64))
        else (wget c (de / 64)).testBit x := by
      intro x hx
      rw [hv, Nat.testBit_or, Nat.testBit_or, hMval, Nat.testBit_mod_two_pow,
        Nat.testBit_shiftLeft, testBit_lowbits (by omega),
        testBit_highbits (by omega),
        testBit_bvGet (by omega) (by unfold M at hbig ⊢; omega) hw]
      by_cases h1 : x < db % 64
      · rw [if_neg (by omega)]
        have ha : decide (db % 64 ≤ x) = false := by
          simp only [decide_eq_false_iff_not]; omega
        have hb' : decide (x < db % 64) = true := by
          simp only [decide_eq_true_eq]; omega
        have hc' : decide (64 - (64 - de % 64) ≤ x ∧ x < 64) = false := by
          simp only [decide_eq_false_iff_not]; omega
        rw [ha, hb', hc']
        simp only [Bool.true_and, Bool.false_and, Bool.and_false, Bool.or_false,
          Bool.false_or]
      · by_cases h2 : x < de % 64
        · rw [if_pos (by omega)]
          have ha : decide (x < 64) = true := by
            simp only [decide_eq_true_eq]; omega
          have hb' : decide (db % 64 ≤ x) = true := by
            simp only [decide_eq_true_eq]; omega
          have hc' : decide (x - db % 64 < se - (se - (de % 64 - db % 64))) = true := by
            simp only [decide_eq_true_eq]; omega
          have hdd' : decide (x < db % 64) = false := by
            simp only [decide_eq_false_iff_not]; omega
          have he' : decide (64 - (64 - de % 64) ≤ x ∧ x < 64) = false := by
            simp only [decide_eq_false_iff_not]; omega
          rw [ha, hb', hc', hdd', he']
          simp only [Bool.true_and, Bool.false_and, Bool.and_false, Bool.or_false,
            Bool.false_or]
        · rw [if_neg (by omega)]
          have hc' : decide (x - db % 64 < se - (se - (de % 64 - db % 64))) = false := by
            simp only [decide_eq_false_iff_not]; omega
          have he' : decide (64 - (64 - de % 64) ≤ x ∧ x < 64) = true := by
            simp only [decide_eq_true_eq]; omega
          have hb2 : decide (x < db % 64) = false := by
            simp only [decide_eq_false_iff_not]; omega
          rw [hc', he', hb2]
          simp only [Bool.true_and, Bool.false_and, Bool.and_false, Bool.or_false,
            Bool.false_or]
    by_cases hbounds : de / 64 < c.length
    · refine ⟨by rw [length_wset], words_lt_wset hw hvM, ?_⟩
      intro j
      rw [bitAt_wset hbounds]
      by_cases hj : j / 64 = de / 64
      · rw [if_pos hj, hvb _ (by omega)]
        by_cases hjin : db ≤ j ∧ j < de
        · rw [if_pos (by omega), if_pos hjin]
          congr 1
          omega
        · rw [if_neg (by omega), if_neg hjin]
          unfold bitAt
          rw [hj]
      · rw [if_neg hj, if_neg (by omega)]
    · -- the (empty) destination sits exactly at the end of the view
      have hempty : db = de := by omega
      rw [wset_oob (by omega)]
      refine ⟨rfl, hw, ?_⟩
      intro j
      rw [if_neg (by omega)]
  · -- the destination spans several words
    have hsl : db / 64 < de / 64 := by omega
    rw [if_neg hsingle, Nat.mul_zero, Nat.sub_zero]
    have hdbi : db / 64 < c.length := by omega
    set v := highbits (wget c (de / 64)) (64 - de % 64) |||
      bvGet c (se - de % 64) se <<< 0 % M ||| lowbits (wget c (de / 64)) 0 with hv
    have hvM : v < M :=
      Nat.or_lt_two_pow (Nat.or_lt_two_pow highbits_lt (Nat.mod_lt _ M_pos))
        (lowbits_lt (by omega))
    have hvb : ∀ x, x < 64 → v.testBit x =
        if x < de % 64 then bitAt c (se - de % 64 + x)
        else (wget c (de / 64)).testBit x := by
      intro x hx
      rw [hv, Nat.testBit_or, Nat.testBit_or, hMval, Nat.testBit_mod_two_pow,
        Nat.testBit_shiftLeft, testBit_lowbits (by omega),
        testBit_highbits (by omega),
        testBit_bvGet (by omega) (by unfold M at hbig ⊢; omega) hw, Nat.sub_zero]
      have hz : decide (0 ≤ x) = true := by
        simp only [decide_eq_true_eq]; omega
      have hlow : decide (x < 0) = false := by
        simp only [decide_eq_false_iff_not]; omega
      rw [hz, hlow]
      by_cases h1 : x < de % 64
      · rw [if_pos h1]
        have ha : decide (x < 64) = true := by
          simp only [decide_eq_true_eq]; omega
        have hb' : decide (x < se - (se - de % 64)) = true := by
          simp only [decide_eq_true_eq]; omega
        have hc' : decide (64 - (64 - de % 64) ≤ x ∧ x < 64) = false := by
          simp only [decide_eq_false_iff_not]; omega
        rw [ha, hb', hc']
        simp only [Bool.true_and, Bool.false_and, Bool.and_false, Bool.or_false,
          Bool.false_or]
      · rw [if_neg h1]
        have hb' : decide (x < se - (se - de % 64)) = false := by
          simp only [decide_eq_false_iff_not]; omega
        have hc' : decide (64 - (64 - de % 64) ≤ x ∧ x < 64) = true := by
          simp only [decide_eq_true_eq]; omega
        rw [hb', hc']
        simp only [Bool.true_and, Bool.false_and, Bool.and_false, Bool.or_false,
          Bool.false_or]
    have hc1len : (wset c (de / 64) v).length = c.length := length_wset
    have hc1w : ∀ w ∈ wset c (de / 64) v, w < M := words_lt_wset hw hvM
    have hc1b : ∀ j, bitAt (wset c (de / 64) v) j =
        if 64 * (de / 64) ≤ j ∧ j < de then bitAt c (sb + (j - db))
        else bitAt c j := by
      intro j
      by_cases hdei : de / 64 < c.length
      · rw [bitAt_wset hdei]
        by_cases hj : j / 64 = de / 64
        · rw [if_pos hj, hvb _ (by omega)]
          by_cases hjin : j % 64 < de % 64
          · rw [if_pos hjin, if_pos (by omega)]
            congr 1
            omega
          · rw [if_neg hjin, if_neg (by omega)]
            unfold bitAt
            rw [hj]
        · rw [if_neg hj, if_neg (by omega)]
      · rw [wset_oob (by omega)]
        rw [if_neg (by omega)]
    have hc1inv : ∀ j, j < de - de % 64 → bitAt (wset c (de / 64) v) j = bitAt c j := by
      intro j hj
      rw [hc1b, if_neg (by omega)]
    have hrec := @copyBackwardWords_spec c ((de - de % 64 - db) / 64)
      (wset c (de / 64) v) (de - de % 64) (se - de % 64)
      hc1len hc1w (by omega) (by omega) (by omega) (by omega) (by omega)
      (by unfold M at hbig ⊢; omega) hc1inv
    set out := copyBackwardWords ((de - de % 64 - db) / 64) (wset c (de / 64) v)
      (de - de % 64) (se - de % 64) with hout
    clear_value out
    have hc2b : ∀ j, bitAt out.1 j =
        if de - de % 64 - 64 * ((de - de % 64 - db) / 64) ≤ j ∧ j < de
        then bitAt c (sb + (j - db)) else bitAt c j := by
      intro j
      rw [hrec.2.2.2.2 j]
      by_cases h1 : de - de % 64 - 64 * ((de - de % 64 - db) / 64) ≤ j ∧ j < de - de % 64
      · rw [if_pos h1, if_pos (by omega)]
        congr 1
        omega
      · rw [if_neg h1, hc1b j]
        by_cases h2 : 64 * (de / 64) ≤ j ∧ j < de
        · rw [if_pos h2, if_pos (by omega)]
        · rw [if_neg h2, if_neg (by omega)]
    rw [hrec.2.2.2.1]
    by_cases hfp : 0 < se - de % 64 - 64 * ((de - de % 64 - db) / 64) - sb
    · rw [if_pos hfp]
      have hdbp : 0 < db % 64 := by omega
      have hkey : de - de % 64 - 64 * ((de - de % 64 - db) / 64) = 64 * (db / 64 + 1) := by
        omega
      set v2 := lowbits (wget out.1 (db / 64)) (db % 64) |||
        bvGet out.1 sb (se - de % 64 - 64 * ((de - de % 64 - db) / 64)) <<< (db % 64) % M
        with hv2
      have hwout : ∀ x, x < 64 →
          (wget out.1 (db / 64)).testBit x = bitAt c (64 * (db / 64) + x) := by
        intro x hx
        have hfold : bitAt out.1 (64 * (db / 64) + x) =
            (wget out.1 (db / 64)).testBit x := by
          unfold bitAt
          have hdiv : (64 * (db / 64) + x) / 64 = db / 64 := by omega
          have hmod : (64 * (db / 64) + x) % 64 = x := by omega
          rw [hdiv, hmod]
        rw [← hfold, hc2b, if_neg (by omega)]
      have hv2M : v2 < M :=
        Nat.or_lt_two_pow (lowbits_lt (by omega)) (Nat.mod_lt _ M_pos)
      have hv2b : ∀ x, x < 64 → v2.testBit x =
          if db % 64 ≤ x then bitAt c (sb + (x - db % 64))
          else bitAt c (64 * (db / 64) + x) := by
        intro x hx
        rw [hv2, Nat.testBit_or, hMval, Nat.testBit_mod_two_pow,
          Nat.testBit_shiftLeft, testBit_lowbits (by omega),
          testBit_bvGet (by omega) (by unfold M at hbig ⊢; omega) hrec.2.1]
        by_cases h1 : db % 64 ≤ x
        · rw [if_pos h1]
          have ha : decide (x < 64) = true := by
            simp only [decide_eq_true_eq]; omega
          have hb' : decide (db % 64 ≤ x) = true := by
            simp only [decide_eq_true_eq]; omega
          have hc' : decide (x - db % 64 <
              se - de % 64 - 64 * ((de - de % 64 - db) / 64) - sb) = true := by
            simp only [decide_eq_true_eq]; omega
          have hdd' : decide (x < db % 64) = false := by
            simp only [decide_eq_false_iff_not]; omega
          rw [ha, hb', hc', hdd']
          simp only [Bool.true_and, Bool.false_and, Bool.and_false, Bool.or_false,
            Bool.false_or]
          rw [hc2b, if_neg (by omega)]
        · rw [if_neg h1]
          have hb' : decide (db % 64 ≤ x) = false := by
            simp only [decide_eq_false_iff_not]; omega
          have hdd' : decide (x < db % 64) = true := by
            simp only [decide_eq_true_eq]; omega
          rw [hb', hdd']
          simp only [Bool.true_and, Bool.false_and, Bool.and_false, Bool.or_false,
            Bool.false_or]
          exact hwout x hx
      refine ⟨by rw [length_wset, hrec.1], words_lt_wset hrec.2.1 hv2M, ?_⟩
      intro j
      rw [bitAt_wset (show db / 64 < out.1.length from by rw [hrec.1]; exact hdbi)]
      by_cases hj : j / 64 = db / 64
      · rw [if_pos hj, hv2b _ (by omega)]
        by_cases hjin : db % 64 ≤ j % 64
        · rw [if_pos hjin, if_pos (by omega)]
          congr 1
          omega
        · rw [if_neg hjin, if_neg (by omega)]
          congr 1
          omega
      · rw [if_neg hj, hc2b j]
        by_cases h2 : de - de % 64 - 64 * ((de - de % 64 - db) / 64) ≤ j ∧ j < de
        · rw [if_pos h2, if_pos (by omega)]
        · rw [if_neg h2, if_neg (by omega)]
    · rw [if_neg hfp]
      have hdbp0 : db % 64 = 0 := by omega
      refine ⟨hrec.1, hrec.2.1, ?_⟩
      intro j
      rw [hc2b j]
      by_cases h2 : de - de % 64 - 64 * ((de - de % 64 - db) / 64) ≤ j ∧ j < de
      · rw [if_pos h2, if_pos (by omega)]
      · rw [if_neg h2, if_neg (by omega)]

/-- `bitview::copy` on an aliased source: the destination range receives the
first `min (se - sb) (de - db)` bits the source range held before the call
(the source is truncated when the destination is shorter), and every other
bit is preserved — in both the forward and the backward direction. -/
theorem bvCopy_spec {c : List Nat} {sb se db de : Nat}
    (hsd : sb ≤ se) (hdd : db ≤ de)
    (hde : de ≤ 64 * c.length) (hse : se ≤ 64 * c.length)
    (hbig : 64 * c.length + 128 ≤ M) (hw : ∀ w ∈ c, w < M) :
    (bvCopy c sb se db de).length = c.length ∧
    (∀ w ∈ bvCopy c sb se db de, w < M) ∧
    (∀ j, bitAt (bvCopy c sb se db de) j =
      if db ≤ j ∧ j < db + min (se - sb) (de - db) then bitAt c (sb + (j - db))
      else bitAt c j) := by
  unfold bvCopy
  dsimp only
  by_cases htr : de - db < se - sb
  · have hmin : min (se - sb) (de - db) = de - db := by omega
    rw [if_pos htr, if_pos htr]
    by_cases hdir : sb < db
    · rw [if_pos hdir]
      have h := @copyBackward_spec c sb (sb + (de - db)) db (db + (de - db))
        (by omega) (by omega) (by omega) (by omega) (by omega) (by omega) hbig hw
      refine ⟨h.1, h.2.1, ?_⟩
      intro j
      rw [h.2.2 j, hmin]
    · rw [if_neg hdir]
      have h := @copyForward_spec c sb (sb + (de - db)) db (db + (de - db))
        (by omega) (by omega) (by omega) (by omega) (by omega) (by omega) hbig hw
      refine ⟨h.1, h.2.1, ?_⟩
      intro j
      rw [h.2.2 j, hmin]
  · have hmin : min (se - sb) (de - db) = se - sb := by omega
    rw [if_neg htr, if_neg htr]
    by_cases hdir : sb < db
    · rw [if_pos hdir]
      have h := @copyBackward_spec c sb se db (db + (se - sb))
        (by omega) (by omega) (by omega) (by omega) (by omega) (by omega) hbig hw
      refine ⟨h.1, h.2.1, ?_⟩
      intro j
      rw [h.2.2 j, hmin]
    · rw [if_neg hdir]
      have h := @copyForward_spec c sb se db (db + (se - sb))
        (by omega) (by omega) (by omega) (by omega) (by omega) (by omega) hbig hw
      refine ⟨h.1, h.2.1, ?_⟩
      intro j
      rw [h.2.2 j, hmin]

/-- C4: `bitview::copy` with the source aliased to the destination view moves
the original source bits into the destination range even when the two ranges
overlap in either direction; the backward routine is selected exactly when
`sb < db` (and the forward one otherwise); every bit outside the destination
range is preserved; and copying a range onto itself leaves the view
unchanged. -/
theorem bitview_copy_overlap_spec {c : List Nat} {sb se db de : Nat}
    (hsd : sb ≤ se) (hdd : db ≤ de)
    (hde : de ≤ 64 * c.length) (hse : se ≤ 64 * c.length)
    (hbig : 64 * c.length + 128 ≤ M) (hw : ∀ w ∈ c, w < M) :
    (∀ i, i < min (se - sb) (de - db) →
      bitAt (bvCopy c sb se db de) (db + i) = bitAt c (sb + i)) ∧
    (∀ j, j < db ∨ db + min (se - sb) (de - db) ≤ j →
      bitAt (bvCopy c sb se db de) j = bitAt c j) ∧
    (bvCopy c sb se db de =
      if sb < db then
        copyBackward c sb (min se (sb + (de - db))) db (db + min (se - sb) (de - db))
      else
        copyForward c sb (min se (sb + (de - db))) db (db + min (se - sb) (de - db))) ∧
    bvCopy c sb se sb se = c := by
  refine ⟨?_, ?_, ?_, ?_⟩
  · intro i hi
    have h := bvCopy_spec hsd hdd hde hse hbig hw
    rw [h.2.2 (db + i), if_pos (by omega)]
    congr 1
    omega
  · intro j hj
    have h := bvCopy_spec hsd hdd hde hse hbig hw
    rw [h.2.2 j, if_neg (by omega)]
  · unfold bvCopy
    dsimp only
    have e1 : (if de - db < se - sb then sb + (de - db) else se) =
        min se (sb + (de - db)) := by
      split <;> omega
    have e2 : (if de - db < se - sb then de - db else se - sb) =
        min (se - sb) (de - db) := by
      split <;> omega
    rw [e1, e2]
  · have h := @bvCopy_spec c sb se sb se
      hsd hsd hse hse hbig hw
    apply bitAt_ext h.1 h.2.1 hw
    intro j
    rw [h.2.2 j]
    by_cases hjin : sb ≤ j ∧ j < sb + min (se - sb) (se - sb)
    · rw [if_pos hjin]
      congr 1
      omega
    · rw [if_neg hjin]

/-- Witness for C4: an overlapping backward self-copy inside a two-word
view. -/
theorem bitview_copy_overlap_spec_witness :
    (20 : Nat) ≤ 50 ∧ (30 : Nat) ≤ 50 ∧ (50 : Nat) ≤ 64 * 2 ∧
    ((∀ i, i < min (50 - 20) (50 - 30) →
      bitAt (bvCopy [0xBABE0000F0F0A5A5, 0x1234] 20 50 30 50) (30 + i) =
        bitAt [0xBABE0000F0F0A5A5, 0x1234] (20 + i)) ∧
    (∀ j, j < 30 ∨ 30 + min (50 - 20) (50 - 30) ≤ j →
      bitAt (bvCopy [0xBABE0000F0F0A5A5, 0x1234] 20 50 30 50) j =
        bitAt [0xBABE0000F0F0A5A5, 0x1234] j) ∧
    (bvCopy [0xBABE0000F0F0A5A5, 0x1234] 20 50 30 50 =
      if 20 < 30 then
        copyBackward [0xBABE0000F0F0A5A5, 0x1234] 20 (min 50 (20 + (50 - 30))) 30
          (30 + min (50 - 20) (50 - 30))
      else
        copyForward [0xBABE0000F0F0A5A5, 0x1234] 20 (min 50 (20 + (50 - 30))) 30
          (30 + min (50 - 20) (50 - 30))) ∧
    bvCopy [0xBABE0000F0F0A5A5, 0x1234] 20 50 20 50 = [0xBABE0000F0F0A5A5, 0x1234]) :=
  ⟨by decide, by decide, by decide,
   @bitview_copy_overlap_spec [0xBABE0000F0F0A5A5, 0x1234] 20 50 30 50
     (by decide) (by decide) (by decide) (by decide)
     (by decide) (by decide)⟩

/-- A digit of a number in base `2 ^ w`: bit `x` of `A / 2 ^ k % 2 ^ ww` is
bit `k + x` of `A`. -/
theorem testBit_digit {A k ww x : Nat} :
    (A / 2 ^ k % 2 ^ ww).testBit x = (decide (x < ww) && A.testBit (k + x)) := by
  rw [← Nat.shiftRight_eq_div_pow, Nat.testBit_mod_two_pow, Nat.testBit_shiftRight]

/-- Setting the low bit of an even number is adding one. -/
theorem or_one_of_even {a : Nat} (h : a % 2 = 0) : a ||| 1 = a + 1 := by
  apply Nat.eq_of_testBit_eq
  intro x
  cases x with
  | zero =>
      rw [Nat.testBit_or]
      simp only [Nat.testBit_zero]
      have h1 : decide (a % 2 = 1) = false := by
        simp only [decide_eq_false_iff_not]; omega
      have h2 : decide ((a + 1) % 2 = 1) = true := by
        simp only [decide_eq_true_eq]; omega
      rw [h1, h2]
      simp
  | succ k =>
      rw [Nat.testBit_or, Nat.testBit_succ, Nat.testBit_succ, Nat.testBit_succ]
      have h2 : (a + 1) / 2 = a / 2 := by omega
      have h3 : (1 : Nat) / 2 = 0 := by norm_num
      rw [h2, h3, Nat.zero_testBit, Bool.or_false]

/-- Closed form of `compute_field_mask`: the base-`2^w` number with digit 1
in every field. -/
theorem computeFieldMask_eq {w : Nat} (hw : 0 < w) :
    computeFieldMask w = ∑ i ∈ Finset.range (64 / w), 2 ^ (w * i) := by
  unfold computeFieldMask
  generalize 64 / w = k
  induction k with
  | zero => simp
  | succ m ih =>
      rw [List.range_succ, List.foldl_append, ih]
      simp only [List.foldl_cons, List.foldl_nil]
      have heven : (∑ i ∈ Finset.range m, 2 ^ (w * i)) <<< w % 2 = 0 := by
        rw [Nat.shiftLeft_eq]
        have : (2 : Nat) ∣ (∑ i ∈ Finset.range m, 2 ^ (w * i)) * 2 ^ w :=
          Dvd.dvd.mul_left (dvd_pow_self 2 (by omega)) _
        omega
      rw [or_one_of_even heven, Nat.shiftLeft_eq, Finset.sum_range_succ']
      have hterm : ∀ i ∈ Finset.range m, (2 : Nat) ^ (w * (i + 1)) =
          2 ^ (w * i) * 2 ^ w := by
        intro i _
        rw [Nat.mul_succ, pow_add]
      rw [Finset.sum_congr rfl hterm, ← Finset.sum_mul]
      simp only [Nat.mul_zero, pow_zero]

/-- A geometric digit sum, one step. -/
theorem geomsum_succ {w n : Nat} (k : Nat) :
    ∑ i ∈ Finset.range (k + 1), n * 2 ^ (w * i) =
      n + 2 ^ w * ∑ i ∈ Finset.range k, n * 2 ^ (w * i) := by
  rw [Finset.sum_range_succ']
  have hterm : ∀ i ∈ Finset.range k, n * 2 ^ (w * (i + 1)) =
      2 ^ w * (n * 2 ^ (w * i)) := by
    intro i _
    rw [Nat.mul_succ, pow_add]
    ring
  rw [Finset.sum_congr rfl hterm, ← Finset.mul_sum]
  simp only [Nat.mul_zero, pow_zero, Nat.mul_one]
  ring

/-- Bound on a geometric digit sum with digits below `2 ^ w`. -/
theorem geomsum_lt {w n : Nat} (hn : n < 2 ^ w) :
    ∀ k, ∑ i ∈ Finset.range k, n * 2 ^ (w * i) < 2 ^ (w * k) := by
  intro k
  induction k with
  | zero => simp
  | succ m ih =>
      rw [geomsum_succ]
      calc n + 2 ^ w * ∑ i ∈ Finset.range m, n * 2 ^ (w * i)
          < 2 ^ w * (∑ i ∈ Finset.range m, n * 2 ^ (w * i)) + 2 ^ w := by omega
        _ = 2 ^ w * ((∑ i ∈ Finset.range m, n * 2 ^ (w * i)) + 1) := by ring
        _ ≤ 2 ^ w * 2 ^ (w * m) := Nat.mul_le_mul_left _ (by omega)
        _ = 2 ^ (w * (m + 1)) := by rw [Nat.mul_succ, pow_add]; ring

/-- Truncating a geometric digit sum keeps the low digits. -/
theorem geomsum_mod {w n : Nat} (hn : n < 2 ^ w) {s : Nat} :
    ∀ k, s ≤ k → (∑ i ∈ Finset.range k, n * 2 ^ (w * i)) % 2 ^ (w * s) =
      ∑ i ∈ Finset.range s, n * 2 ^ (w * i) := by
  intro k
  induction k with
  | zero =>
      intro h
      have hs : s = 0 := by omega
      subst hs
      simp
  | succ m ih =>
      intro hs
      by_cases hsm : s = m + 1
      · subst hsm
        exact Nat.mod_eq_of_lt (geomsum_lt hn (m + 1))
      · have hs' : s ≤ m := by omega
        rw [Finset.sum_range_succ]
        have hdvd : (2 : Nat) ^ (w * s) ∣ n * 2 ^ (w * m) := by
          apply Dvd.dvd.mul_left
          exact pow_dvd_pow 2 (Nat.mul_le_mul_left w (by omega))
        obtain ⟨q, hq⟩ := hdvd
        rw [hq, Nat.add_mul_mod_self_left]
        exact ih hs'
/-- Digit of a geometric digit sum. -/
theorem geomsum_digit {w n : Nat} (hn : n < 2 ^ w) {s : Nat} :
    ∀ i, i < s → (∑ j ∈ Finset.range s, n * 2 ^ (w * j)) / 2 ^ (w * i) % 2 ^ w = n := by
  induction s with
  | zero => intro i hi; omega
  | succ m ih =>
      intro i hi
      rw [geomsum_succ]
      cases i with
      | zero =>
          simp only [Nat.mul_zero, pow_zero, Nat.div_one]
          rw [Nat.add_mul_mod_self_left]
          exact Nat.mod_eq_of_lt hn
      | succ i' =>
          have hdiv : (n + 2 ^ w * ∑ j ∈ Finset.range m, n * 2 ^ (w * j)) /
              2 ^ (w * (i' + 1)) =
              (∑ j ∈ Finset.range m, n * 2 ^ (w * j)) / 2 ^ (w * i') := by
            rw [Nat.mul_succ, pow_add, Nat.mul_comm (2 ^ (w * i')) (2 ^ w),
              ← Nat.div_div_eq_div_mul]
            congr 1
            rw [Nat.add_mul_div_left _ _ (Nat.pos_pow_of_pos w (by norm_num)),
              Nat.div_eq_of_lt hn, Nat.zero_add]
          rw [hdiv]
          exact ih i' (by omega)

/-- Quotient additivity under the no-carry condition on every lower digit. -/
theorem digit_quot_add {w : Nat} {X Y : Nat} :
    ∀ i, (∀ j, j < i → X / 2 ^ (w * j) % 2 ^ w + Y / 2 ^ (w * j) % 2 ^ w < 2 ^ w) →
      (X + Y) / 2 ^ (w * i) = X / 2 ^ (w * i) + Y / 2 ^ (w * i) := by
  intro i
  induction i with
  | zero => intro _; simp
  | succ k ih =>
      intro h
      have hq := ih (fun j hj => h j (by omega))
      have hpow : (2 : Nat) ^ (w * (k + 1)) = 2 ^ (w * k) * 2 ^ w := by
        rw [Nat.mul_succ, pow_add]
      rw [hpow, ← Nat.div_div_eq_div_mul, ← Nat.div_div_eq_div_mul,
        ← Nat.div_div_eq_div_mul, hq,
        Nat.add_div (Nat.pos_pow_of_pos w (by norm_num))]
      have hc := h k (by omega)
      rw [if_neg (by omega)]
      omega

/-- Digit additivity under the no-carry condition. -/
theorem digit_add {w : Nat} {X Y s : Nat}
    (h : ∀ j, j < s → X / 2 ^ (w * j) % 2 ^ w + Y / 2 ^ (w * j) % 2 ^ w < 2 ^ w) :
    ∀ i, i < s → (X + Y) / 2 ^ (w * i) % 2 ^ w =
      X / 2 ^ (w * i) % 2 ^ w + Y / 2 ^ (w * i) % 2 ^ w := by
  intro i hi
  rw [digit_quot_add i (fun j hj => h j (by omega)), Nat.add_mod,
    Nat.mod_eq_of_lt (h i hi)]

/-- Truncation above `s` digits does not change digit `i < s`. -/
theorem digit_mod_high {w : Nat} {X s i : Nat} (hi : i < s) :
    X % 2 ^ (w * s) / 2 ^ (w * i) % 2 ^ w = X / 2 ^ (w * i) % 2 ^ w := by
  apply Nat.eq_of_testBit_eq
  intro x
  rw [testBit_digit, testBit_digit, Nat.testBit_mod_two_pow]
  by_cases hx : x < w
  · have h1 : decide (w * i + x < w * s) = true := by
      simp only [decide_eq_true_eq]
      calc w * i + x < w * i + w := by omega
        _ = w * (i + 1) := by ring
        _ ≤ w * s := Nat.mul_le_mul_left w hi
    rw [h1, Bool.true_and]
  · have h1 : decide (x < w) = false := by
      simp only [decide_eq_false_iff_not]; omega
    rw [h1, Bool.false_and, Bool.false_and]

/-- Division distributes over a subtraction whose remainders do not borrow. -/
theorem div_sub_of_mod_le {a b n : Nat} (hn : 0 < n) (hba : b ≤ a)
    (hr : b % n ≤ a % n) : (a - b) / n = a / n - b / n := by
  have ha := Nat.div_add_mod a n
  have hb := Nat.div_add_mod b n
  have hra := Nat.mod_lt a hn
  have hq : b / n ≤ a / n := Nat.div_le_div_right hba
  have hmul : n * (a / n - b / n) = n * (a / n) - n * (b / n) := Nat.mul_sub n _ _
  have hmul2 : n * (b / n) ≤ n * (a / n) := Nat.mul_le_mul_left n hq
  have key : a - b = a % n - b % n + n * (a / n - b / n) := by omega
  rw [key, Nat.add_mul_div_left _ _ hn, Nat.div_eq_of_lt (by omega), Nat.zero_add]

/-- The remainder of a subtraction whose remainders do not borrow. -/
theorem mod_sub_of_mod_le {a b n : Nat} (hn : 0 < n) (hba : b ≤ a)
    (hr : b % n ≤ a % n) : (a - b) % n = a % n - b % n := by
  have ha := Nat.div_add_mod a n
  have hb := Nat.div_add_mod b n
  have hra := Nat.mod_lt a hn
  have hq : b / n ≤ a / n := Nat.div_le_div_right hba
  have hmul : n * (a / n - b / n) = n * (a / n) - n * (b / n) := Nat.mul_sub n _ _
  have hmul2 : n * (b / n) ≤ n * (a / n) := Nat.mul_le_mul_left n hq
  have key : a - b = a % n - b % n + n * (a / n - b / n) := by omega
  rw [key, Nat.add_mul_mod_self_left, Nat.mod_eq_of_lt (by omega)]

/-- Quotient subtractivity under the no-borrow condition on every lower
digit. -/
theorem digit_quot_sub {w : Nat} {X Y : Nat} (hYX : Y ≤ X) :
    ∀ i, (∀ j, j < i → Y / 2 ^ (w * j) % 2 ^ w ≤ X / 2 ^ (w * j) % 2 ^ w) →
      (X - Y) / 2 ^ (w * i) = X / 2 ^ (w * i) - Y / 2 ^ (w * i) := by
  intro i
  induction i with
  | zero => intro _; simp
  | succ k ih =>
      intro h
      have hq := ih (fun j hj => h j (by omega))
      have hpow : (2 : Nat) ^ (w * (k + 1)) = 2 ^ (w * k) * 2 ^ w := by
        rw [Nat.mul_succ, pow_add]
      rw [hpow, ← Nat.div_div_eq_div_mul, ← Nat.div_div_eq_div_mul,
        ← Nat.div_div_eq_div_mul, hq,
        div_sub_of_mod_le (Nat.pos_pow_of_pos w (by norm_num))
          (Nat.div_le_div_right hYX) (h k (by omega))]

/-- Digit subtractivity under the no-borrow condition. -/
theorem digit_sub {w : Nat} {X Y s : Nat} (hYX : Y ≤ X)
    (h : ∀ j, j < s → Y / 2 ^ (w * j) % 2 ^ w ≤ X / 2 ^ (w * j) % 2 ^ w) :
    ∀ i, i < s → (X - Y) / 2 ^ (w * i) % 2 ^ w =
      X / 2 ^ (w * i) % 2 ^ w - Y / 2 ^ (w * i) % 2 ^ w := by
  intro i hi
  rw [digit_quot_sub hYX i (fun j hj => h j (by omega)),
    mod_sub_of_mod_le (Nat.pos_pow_of_pos w (by norm_num))
      (Nat.div_le_div_right hYX) (h i hi)]

/-- Base-`2 ^ w` digit expansion of a bounded number. -/
theorem digit_expand {w : Nat} :
    ∀ (s : Nat) (X : Nat), X < 2 ^ (w * s) →
      X = ∑ i ∈ Finset.range s, X / 2 ^ (w * i) % 2 ^ w * 2 ^ (w * i) := by
  intro s
  induction s with
  | zero =>
      intro X hX
      simp only [Nat.mul_zero, pow_zero] at hX
      interval_cases X
      simp
  | succ k ih =>
      intro X hX
      have hsplit := Nat.div_add_mod X (2 ^ w)
      have hq : X / 2 ^ w < 2 ^ (w * k) := by
        apply Nat.div_lt_of_lt_mul
        rw [← pow_add]
        rw [show w + w * k = w * (k + 1) from by ring]
        exact hX
      have hrec := ih (X / 2 ^ w) hq
      rw [Finset.sum_range_succ']
      have hterm : ∀ i ∈ Finset.range k,
          X / 2 ^ (w * (i + 1)) % 2 ^ w * 2 ^ (w * (i + 1)) =
          2 ^ w * (X / 2 ^ w / 2 ^ (w * i) % 2 ^ w * 2 ^ (w * i)) := by
        intro i _
        rw [Nat.mul_succ, pow_add, Nat.mul_comm (2 ^ (w * i)) (2 ^ w),
          ← Nat.div_div_eq_div_mul]
        ring
      rw [Finset.sum_congr rfl hterm, ← Finset.mul_sum, ← hrec]
      simp only [Nat.mul_zero, pow_zero, Nat.div_one, Nat.mul_one]
      omega

/-- A remainder by a divisor of `A`, after subtracting `B ≤ A`. -/
theorem mod_sub_of_dvd {A B C : Nat} (hC : 0 < C) (hBA : B ≤ A) (hCA : C ∣ A) :
    (A - B) % C = (C - B % C) % C := by
  obtain ⟨a, rfl⟩ := hCA
  have hb := Nat.div_add_mod B C
  have hrb := Nat.mod_lt B hC
  rcases Nat.eq_zero_or_pos (B % C) with h0 | hpos
  · have hBdvd : C ∣ B := Nat.dvd_of_mod_eq_zero h0
    obtain ⟨bq, rfl⟩ := hBdvd
    rw [h0, Nat.sub_zero, Nat.mod_self, ← Nat.mul_sub, Nat.mul_mod_right]
  · have hq : B / C < a := by
      by_contra hcon
      push_neg at hcon
      have : C * a ≤ C * (B / C) := Nat.mul_le_mul_left C hcon
      omega
    have hmul : C * (a - B / C - 1) = C * a - C * (B / C) - C := by
      rw [Nat.mul_sub, Nat.mul_sub, Nat.mul_one]
    have hmul2 : C * (B / C) ≤ C * a := Nat.mul_le_mul_left C (by omega)
    have hmul3 : C * (B / C) + C ≤ C * a := by
      have := Nat.mul_le_mul_left C (show B / C + 1 ≤ a from by omega)
      rw [Nat.mul_add, Nat.mul_one] at this
      omega
    have key : C * a - B = C * (a - B / C - 1) + (C - B % C) := by omega
    rw [key, Nat.mul_add_mod]

/-- `lowbits` is reduction modulo a power of two. -/
theorem lowbits_eq_mod {v n : Nat} (hn : n ≤ 64) : lowbits v n = v % 2 ^ n := by
  apply Nat.eq_of_testBit_eq
  intro i
  rw [testBit_lowbits hn, Nat.testBit_mod_two_pow, Bool.and_comm]

/-- The increment loop does nothing once the cursor reaches the end. -/
theorem pvIncLoop_stop {bpw rem A endw : Nat} (f : Nat) (bits : List Nat)
    (p len : Nat) (h : ¬ p < endw) :
    pvIncLoop bpw rem A endw f bits p len = bits := by
  cases f with
  | zero => rfl
  | succ k => simp only [pvIncLoop, if_neg h]

/-- For a range of at most one word of fields, `packed_view::increment`
performs exactly one chunk update. -/
theorem pvIncrement_bits {pv : PV} {b e n : Nat} (hw : 0 < pv.width)
    (hchunk : e - b ≤ 64 / pv.width) (hbe : b < e) :
    (pvIncrement pv b e n).bits =
      bvSet pv.bits (b * pv.width) (e * pv.width)
        (lowbits ((bvGet pv.bits (b * pv.width) (e * pv.width) +
          lowbits ((pv.fieldMask * n) % M) ((e - b) * pv.width)) % M)
          ((e - b) * pv.width)) := by
  have hSbpw : (e - b) * pv.width ≤ 64 / pv.width * pv.width :=
    Nat.mul_le_mul_right _ hchunk
  have hble : b * pv.width ≤ e * pv.width := Nat.mul_le_mul_right _ (by omega)
  have heq : b * pv.width + (e - b) * pv.width = e * pv.width := by
    have := Nat.sub_mul e b pv.width
    omega
  unfold pvIncrement
  dsimp only
  obtain ⟨f, hf⟩ : ∃ f, (e - b) * pv.width = f + 1 :=
    ⟨(e - b) * pv.width - 1, by
      have : 0 < (e - b) * pv.width := Nat.mul_pos (by omega) hw
      omega⟩
  rw [hf] at hSbpw heq ⊢
  simp only [pvIncLoop]
  rw [if_pos (show b * pv.width < e * pv.width from by omega)]
  have hstep : (if f + 1 < 64 / pv.width * pv.width
      then (f + 1) % (64 / pv.width * pv.width)
      else 64 / pv.width * pv.width) = f + 1 := by
    by_cases hc : f + 1 < 64 / pv.width * pv.width
    · rw [if_pos hc]
      exact Nat.mod_eq_of_lt hc
    · rw [if_neg hc]
      omega
  rw [hstep]
  rw [pvIncLoop_stop _ _ _ _ (show ¬ b * pv.width + (f + 1) < e * pv.width from by omega)]
  rw [heq]

/-- An empty range leaves the bits untouched. -/
theorem pvIncrement_bits_empty {pv : PV} {b e n : Nat} (hbe : e ≤ b) :
    (pvIncrement pv b e n).bits = pv.bits := by
  unfold pvIncrement
  dsimp only
  rw [show (e - b) * pv.width = 0 from by
    have : e - b = 0 := by omega
    rw [this, Nat.zero_mul]]
  rfl

/-- A sub-range of a `bitview::get` is a digit of the full read. -/
theorem bvGet_digit {c : List Nat} {b e p q : Nat} (hspan : e - b ≤ 64)
    (he : e ≤ M - 64) (hw : ∀ x ∈ c, x < M)
    (hbp : b ≤ p) (hpq : p ≤ q) (hqe : q ≤ e) :
    bvGet c p q = bvGet c b e / 2 ^ (p - b) % 2 ^ (q - p) := by
  apply Nat.eq_of_testBit_eq
  intro x
  rw [testBit_digit, testBit_bvGet (by omega) (by omega) hw,
    testBit_bvGet hspan he hw]
  by_cases hx : x < q - p
  · have h1 : decide (x < q - p) = true := by simp only [decide_eq_true_eq]; omega
    have h2 : decide (p - b + x < e - b) = true := by
      simp only [decide_eq_true_eq]; omega
    rw [h1, h2, Bool.true_and, Bool.true_and, Bool.true_and]
    congr 1
    omega
  · have h1 : decide (x < q - p) = false := by
      simp only [decide_eq_false_iff_not]; omega
    rw [h1, Bool.false_and, Bool.false_and]

/-- Reading a sub-range of a freshly `set` range returns a digit of the
written value. -/
theorem bvGet_bvSet_inside {c : List Nat} {b e V p q : Nat} (hspan : e - b ≤ 64)
    (hbound : e ≤ 64 * c.length) (hbig : 64 * c.length + 128 ≤ M)
    (hw : ∀ x ∈ c, x < M)
    (hbp : b ≤ p) (hpq : p ≤ q) (hqe : q ≤ e) :
    bvGet (bvSet c b e V) p q = V / 2 ^ (p - b) % 2 ^ (q - p) := by
  apply Nat.eq_of_testBit_eq
  intro x
  rw [testBit_digit,
    testBit_bvGet (by omega) (by unfold M at hbig ⊢; omega) (bvSet_words_lt hspan hw)]
  by_cases hx : x < q - p
  · have h1 : decide (x < q - p) = true := by simp only [decide_eq_true_eq]; omega
    rw [h1, Bool.true_and, Bool.true_and,
      bitAt_bvSet hspan hbound, if_pos (by omega)]
    congr 1
    omega
  · have h1 : decide (x < q - p) = false := by
      simp only [decide_eq_false_iff_not]; omega
    rw [h1, Bool.false_and, Bool.false_and]

/-- Reading a range disjoint from a `set` range is unchanged. -/
theorem bvGet_bvSet_outside {c : List Nat} {b e V p q : Nat} (hspan : e - b ≤ 64)
    (hbound : e ≤ 64 * c.length) (hbig : 64 * c.length + 128 ≤ M)
    (hw : ∀ x ∈ c, x < M) (hq64 : q - p ≤ 64) (hqbound : q ≤ 64 * c.length)
    (hdisj : q ≤ b ∨ e ≤ p) :
    bvGet (bvSet c b e V) p q = bvGet c p q := by
  apply Nat.eq_of_testBit_eq
  intro x
  rw [testBit_bvGet hq64 (by unfold M at hbig ⊢; omega) (bvSet_words_lt hspan hw),
    testBit_bvGet hq64 (by unfold M at hbig ⊢; omega) hw,
    bitAt_bvSet hspan hbound]
  by_cases hx : x < q - p
  · rw [if_neg (by omega)]
  · have h1 : decide (x < q - p) = false := by
      simp only [decide_eq_false_iff_not]; omega
    rw [h1, Bool.false_and, Bool.false_and]

/-- Per-field specification of `packed_view::increment` on a range of at
most one word of fields, under the no-overflow precondition: every field of
`[b, e)` increases by exactly `n`, every field outside is unchanged. -/
theorem pvIncrement_field_spec {pv : PV} {b e n : Nat}
    (hw : 0 < pv.width) (hw64 : pv.width ≤ 64)
    (hmask : pv.fieldMask = computeFieldMask pv.width)
    (hbits : ∀ x ∈ pv.bits, x < M)
    (hrange : e * pv.width ≤ 64 * pv.bits.length)
    (hbig : 64 * pv.bits.length + 128 ≤ M)
    (hchunk : e - b ≤ 64 / pv.width) (hbe : b ≤ e)
    (hnov : ∀ k, b ≤ k → k < e → pvGetItem pv k + n < 2 ^ pv.width) :
    (∀ k, b ≤ k → k < e → pvGetItem (pvIncrement pv b e n) k = pvGetItem pv k + n) ∧
    (∀ k, (k < b ∨ e ≤ k) → (k + 1) * pv.width ≤ 64 * pv.bits.length →
      pvGetItem (pvIncrement pv b e n) k = pvGetItem pv k) := by
  have hwidth : (pvIncrement pv b e n).width = pv.width := rfl
  by_cases hbe' : b < e
  case neg =>
    have hbits_eq := @pvIncrement_bits_empty pv b e n (by omega)
    constructor
    · intro k hk1 hk2
      omega
    · intro k _ _
      unfold pvGetItem pvGetRange
      rw [hwidth, hbits_eq]
  case pos =>
  have hn : n < 2 ^ pv.width := by
    have := hnov b (by omega) (by omega)
    omega
  have hS64 : (e - b) * pv.width ≤ 64 := by
    calc (e - b) * pv.width ≤ 64 / pv.width * pv.width :=
          Nat.mul_le_mul_right _ hchunk
      _ ≤ 64 := Nat.div_mul_le_self 64 pv.width
  have hsub : (e - b) * pv.width = e * pv.width - b * pv.width :=
    Nat.sub_mul e b pv.width
  have hble : b * pv.width ≤ e * pv.width := Nat.mul_le_mul_right _ (by omega)
  have hMe : e * pv.width ≤ M - 64 := by
    unfold M at hbig ⊢
    omega
  have hbits_eq := pvIncrement_bits (n := n) hw hchunk hbe'
  have hmaskn : pv.fieldMask * n =
      ∑ i ∈ Finset.range (64 / pv.width), n * 2 ^ (pv.width * i) := by
    rw [hmask, computeFieldMask_eq hw, Finset.sum_mul]
    apply Finset.sum_congr rfl
    intro i _
    ring
  have hfpw64 : pv.width * (64 / pv.width) ≤ 64 := by
    rw [Nat.mul_comm]
    exact Nat.div_mul_le_self 64 pv.width
  have hmaskn_lt : pv.fieldMask * n < M := by
    rw [hmaskn]
    calc (∑ i ∈ Finset.range (64 / pv.width), n * 2 ^ (pv.width * i))
        < 2 ^ (pv.width * (64 / pv.width)) := geomsum_lt hn _
      _ ≤ 2 ^ 64 := Nat.pow_le_pow_right (by norm_num) hfpw64
      _ = M := rfl
  have hlowA : lowbits ((pv.fieldMask * n) % M) ((e - b) * pv.width) =
      ∑ i ∈ Finset.range (e - b), n * 2 ^ (pv.width * i) := by
    rw [Nat.mod_eq_of_lt hmaskn_lt, lowbits_eq_mod hS64, hmaskn,
      show (e - b) * pv.width = pv.width * (e - b) from Nat.mul_comm _ _,
      geomsum_mod hn _ hchunk]
  have hchunk_lt : bvGet pv.bits (b * pv.width) (e * pv.width) <
      2 ^ (pv.width * (e - b)) := by
    have h := bvGet_lt (c := pv.bits) (b := b * pv.width) (e := e * pv.width)
      (by omega) hMe hbits
    rw [show e * pv.width - b * pv.width = pv.width * (e - b) from by
      rw [← hsub]; exact Nat.mul_comm _ _] at h
    exact h
  have hfdig : ∀ i, i < e - b →
      bvGet pv.bits (b * pv.width) (e * pv.width) / 2 ^ (pv.width * i) %
        2 ^ pv.width = pvGetItem pv (b + i) := by
    intro i hi
    have h1 : pvGetItem pv (b + i) =
        bvGet pv.bits ((b + i) * pv.width) ((b + i + 1) * pv.width) := rfl
    have e1 : (b + i) * pv.width - b * pv.width = pv.width * i := by
      rw [← Nat.sub_mul, Nat.add_sub_cancel_left]
      exact Nat.mul_comm i pv.width
    have e2 : (b + i + 1) * pv.width - (b + i) * pv.width = pv.width := by
      rw [← Nat.sub_mul, Nat.add_sub_cancel_left, Nat.one_mul]
    rw [h1, @bvGet_digit pv.bits (b * pv.width) (e * pv.width)
      ((b + i) * pv.width) ((b + i + 1) * pv.width)
      (by omega) hMe hbits
      (Nat.mul_le_mul_right _ (by omega)) (Nat.mul_le_mul_right _ (by omega))
      (Nat.mul_le_mul_right _ (by omega)), e1, e2]
  have hnov' : ∀ j, j < e - b →
      bvGet pv.bits (b * pv.width) (e * pv.width) / 2 ^ (pv.width * j) %
        2 ^ pv.width +
      (∑ i ∈ Finset.range (e - b), n * 2 ^ (pv.width * i)) / 2 ^ (pv.width * j) %
        2 ^ pv.width < 2 ^ pv.width := by
    intro j hj
    rw [hfdig j hj, geomsum_digit hn j hj]
    exact hnov (b + j) (by omega) (by omega)
  have hVdig : ∀ i, i < e - b →
      lowbits ((bvGet pv.bits (b * pv.width) (e * pv.width) +
        lowbits ((pv.fieldMask * n) % M) ((e - b) * pv.width)) % M)
        ((e - b) * pv.width) / 2 ^ (pv.width * i) % 2 ^ pv.width =
      pvGetItem pv (b + i) + n := by
    intro i hi
    rw [hlowA, lowbits_eq_mod hS64,
      Nat.mod_mod_of_dvd _ (show (2 : Nat) ^ ((e - b) * pv.width) ∣ M from
        pow_dvd_pow 2 hS64),
      show (e - b) * pv.width = pv.width * (e - b) from Nat.mul_comm _ _,
      digit_mod_high hi, digit_add hnov' i hi, hfdig i hi, geomsum_digit hn i hi]
  constructor
  · intro k hk1 hk2
    obtain ⟨i, rfl⟩ : ∃ i, k = b + i := ⟨k - b, by omega⟩
    have h1 : pvGetItem (pvIncrement pv b e n) (b + i) =
        bvGet (pvIncrement pv b e n).bits ((b + i) * pv.width)
          ((b + i + 1) * pv.width) := by
      unfold pvGetItem pvGetRange
      rw [hwidth]
    have e1 : (b + i) * pv.width - b * pv.width = pv.width * i := by
      rw [← Nat.sub_mul, Nat.add_sub_cancel_left]
      exact Nat.mul_comm i pv.width
    have e2 : (b + i + 1) * pv.width - (b + i) * pv.width = pv.width := by
      rw [← Nat.sub_mul, Nat.add_sub_cancel_left, Nat.one_mul]
    rw [h1, hbits_eq,
      bvGet_bvSet_inside (by omega) hrange hbig hbits
        (Nat.mul_le_mul_right _ (by omega)) (Nat.mul_le_mul_right _ (by omega))
        (Nat.mul_le_mul_right _ (by omega)),
      e1, e2, hVdig i (by omega)]
  · intro k hk hkb
    have h1 : pvGetItem (pvIncrement pv b e n) k =
        bvGet (pvIncrement pv b e n).bits (k * pv.width) ((k + 1) * pv.width) := by
      unfold pvGetItem pvGetRange
      rw [hwidth]
    have hsucc : (k + 1) * pv.width = k * pv.width + pv.width :=
      Nat.succ_mul k pv.width
    rw [h1, hbits_eq,
      bvGet_bvSet_outside (by omega) hrange hbig hbits (by omega) hkb
        (by
          rcases hk with hk | hk
          · exact Or.inl (Nat.mul_le_mul_right _ (by omega))
          · exact Or.inr (Nat.mul_le_mul_right _ hk))]
    rfl

/-- Per-field specification of `packed_view::decrement` on a range of at
most one word of fields, under the *no-underflow* precondition: every field
of `[b, e)` decreases by exactly `n`, every field outside is unchanged.
Without that precondition the borrow of a wrapping field propagates into the
next field (see the counterexample). -/
theorem pvDecrement_field_spec {pv : PV} {b e n : Nat}
    (hw : 0 < pv.width) (hw64 : pv.width ≤ 64)
    (hmask : pv.fieldMask = computeFieldMask pv.width)
    (hbits : ∀ x ∈ pv.bits, x < M)
    (hrange : e * pv.width ≤ 64 * pv.bits.length)
    (hbig : 64 * pv.bits.length + 128 ≤ M)
    (hchunk : e - b ≤ 64 / pv.width) (hbe : b ≤ e)
    (hn : n < 2 ^ pv.width)
    (hnun : ∀ k, b ≤ k → k < e → n ≤ pvGetItem pv k) :
    (∀ k, b ≤ k → k < e → pvGetItem (pvDecrement pv b e n) k = pvGetItem pv k - n) ∧
    (∀ k, (k < b ∨ e ≤ k) → (k + 1) * pv.width ≤ 64 * pv.bits.length →
      pvGetItem (pvDecrement pv b e n) k = pvGetItem pv k) := by
  have hpow64 : (2 : Nat) ^ pv.width ≤ 2 ^ 64 :=
    Nat.pow_le_pow_right (by norm_num) hw64
  have hnM : n < M := by
    unfold M
    omega
  have hnmod : n % M = n := Nat.mod_eq_of_lt hnM
  unfold pvDecrement
  rw [hnmod]
  by_cases hn0 : n = 0
  · subst hn0
    rw [show (M - 0) % M = 0 from by
      rw [Nat.sub_zero, Nat.mod_self]]
    have h := pvIncrement_field_spec (n := 0) hw hw64 hmask hbits hrange hbig
      hchunk hbe
      (by
        intro k hk1 hk2
        rw [Nat.add_zero]
        have h1 : pvGetItem pv k = bvGet pv.bits (k * pv.width)
            ((k + 1) * pv.width) := rfl
        rw [h1]
        have hsucc : (k + 1) * pv.width = k * pv.width + pv.width :=
          Nat.succ_mul k pv.width
        have h2 := bvGet_lt (c := pv.bits) (b := k * pv.width)
          (e := (k + 1) * pv.width) (by omega)
          (by
            unfold M at hbig ⊢
            have : (k + 1) * pv.width ≤ e * pv.width :=
              Nat.mul_le_mul_right _ (by omega)
            omega)
          hbits
        calc bvGet pv.bits (k * pv.width) ((k + 1) * pv.width)
            < 2 ^ ((k + 1) * pv.width - k * pv.width) := h2
          _ ≤ 2 ^ pv.width := Nat.pow_le_pow_right (by norm_num) (by omega))
    constructor
    · intro k hk1 hk2
      rw [(h.1 k hk1 hk2), Nat.add_zero, Nat.sub_zero]
    · exact h.2
  · -- n ≥ 1: the two's-complement addend
    have hwidth : ∀ m : Nat, (pvIncrement pv b e m).width = pv.width :=
      fun m => rfl
    by_cases hbe' : b < e
    case neg =>
      have hbits_eq := @pvIncrement_bits_empty pv b e ((M - n) % M) (by omega)
      constructor
      · intro k hk1 hk2
        omega
      · intro k _ _
        unfold pvGetItem pvGetRange
        rw [hwidth, hbits_eq]
    case pos =>
    have hS64 : (e - b) * pv.width ≤ 64 := by
      calc (e - b) * pv.width ≤ 64 / pv.width * pv.width :=
            Nat.mul_le_mul_right _ hchunk
        _ ≤ 64 := Nat.div_mul_le_self 64 pv.width
    have hsub : (e - b) * pv.width = e * pv.width - b * pv.width :=
      Nat.sub_mul e b pv.width
    have hble : b * pv.width ≤ e * pv.width := Nat.mul_le_mul_right _ (by omega)
    have hMe : e * pv.width ≤ M - 64 := by
      unfold M at hbig ⊢
      omega
    have hbits_eq := pvIncrement_bits (n := (M - n) % M) hw hchunk hbe'
    have hmaskn : pv.fieldMask * n =
        ∑ i ∈ Finset.range (64 / pv.width), n * 2 ^ (pv.width * i) := by
      rw [hmask, computeFieldMask_eq hw, Finset.sum_mul]
      apply Finset.sum_congr rfl
      intro i _
      ring
    have hfpw64 : pv.width * (64 / pv.width) ≤ 64 := by
      rw [Nat.mul_comm]
      exact Nat.div_mul_le_self 64 pv.width
    have hmaskn_lt : pv.fieldMask * n < M := by
      rw [hmaskn]
      calc (∑ i ∈ Finset.range (64 / pv.width), n * 2 ^ (pv.width * i))
          < 2 ^ (pv.width * (64 / pv.width)) := geomsum_lt hn _
        _ ≤ 2 ^ 64 := Nat.pow_le_pow_right (by norm_num) hfpw64
        _ = M := rfl
    have hmasknS : (pv.fieldMask * n) % 2 ^ ((e - b) * pv.width) =
        ∑ i ∈ Finset.range (e - b), n * 2 ^ (pv.width * i) := by
      rw [hmaskn, show (e - b) * pv.width = pv.width * (e - b) from
        Nat.mul_comm _ _, geomsum_mod hn _ hchunk]
    have hRSpos : 0 < ∑ i ∈ Finset.range (e - b), n * 2 ^ (pv.width * i) := by
      obtain ⟨s, hs⟩ : ∃ s, e - b = s + 1 := ⟨e - b - 1, by omega⟩
      rw [hs, geomsum_succ]
      omega
    have hRSlt : (∑ i ∈ Finset.range (e - b), n * 2 ^ (pv.width * i)) <
        2 ^ ((e - b) * pv.width) := by
      rw [show (e - b) * pv.width = pv.width * (e - b) from Nat.mul_comm _ _]
      exact geomsum_lt hn _
    -- the truncated two's-complement addend
    have hlowA : lowbits ((pv.fieldMask * ((M - n) % M)) % M) ((e - b) * pv.width) =
        2 ^ ((e - b) * pv.width) -
          ∑ i ∈ Finset.range (e - b), n * 2 ^ (pv.width * i) := by
      rw [show (M - n) % M = M - n from Nat.mod_eq_of_lt (by omega)]
      rw [Nat.mul_sub]
      rw [lowbits_eq_mod hS64]
      rw [Nat.mod_mod_of_dvd _ (show (2 : Nat) ^ ((e - b) * pv.width) ∣ M from
        pow_dvd_pow 2 hS64)]
      rw [mod_sub_of_dvd (Nat.pos_pow_of_pos _ (by norm_num))
        (Nat.mul_le_mul_left pv.fieldMask (show n ≤ M from by omega))
        (Dvd.dvd.mul_left (show (2 : Nat) ^ ((e - b) * pv.width) ∣ M from
          pow_dvd_pow 2 hS64) pv.fieldMask)]
      rw [hmasknS]
      exact Nat.mod_eq_of_lt (by omega)
    have hchunk_lt : bvGet pv.bits (b * pv.width) (e * pv.width) <
        2 ^ (pv.width * (e - b)) := by
      have h := bvGet_lt (c := pv.bits) (b := b * pv.width) (e := e * pv.width)
        (by omega) hMe hbits
      rw [show e * pv.width - b * pv.width = pv.width * (e - b) from by
        rw [← hsub]; exact Nat.mul_comm _ _] at h
      exact h
    have hchunk_ltS : bvGet pv.bits (b * pv.width) (e * pv.width) <
        2 ^ ((e - b) * pv.width) := by
      rw [show (e - b) * pv.width = pv.width * (e - b) from Nat.mul_comm _ _]
      exact hchunk_lt
    have hfdig : ∀ i, i < e - b →
        bvGet pv.bits (b * pv.width) (e * pv.width) / 2 ^ (pv.width * i) %
          2 ^ pv.width = pvGetItem pv (b + i) := by
      intro i hi
      have h1 : pvGetItem pv (b + i) =
          bvGet pv.bits ((b + i) * pv.width) ((b + i + 1) * pv.width) := rfl
      have e1 : (b + i) * pv.width - b * pv.width = pv.width * i := by
        rw [← Nat.sub_mul, Nat.add_sub_cancel_left]
        exact Nat.mul_comm i pv.width
      have e2 : (b + i + 1) * pv.width - (b + i) * pv.width = pv.width := by
        rw [← Nat.sub_mul, Nat.add_sub_cancel_left, Nat.one_mul]
      rw [h1, @bvGet_digit pv.bits (b * pv.width) (e * pv.width)
        ((b + i) * pv.width) ((b + i + 1) * pv.width)
        (by omega) hMe hbits
        (Nat.mul_le_mul_right _ (by omega)) (Nat.mul_le_mul_right _ (by omega))
        (Nat.mul_le_mul_right _ (by omega)), e1, e2]
    have hRSchunk : (∑ i ∈ Finset.range (e - b), n * 2 ^ (pv.width * i)) ≤
        bvGet pv.bits (b * pv.width) (e * pv.width) := by
      calc (∑ i ∈ Finset.range (e - b), n * 2 ^ (pv.width * i))
          ≤ ∑ i ∈ Finset.range (e - b),
              bvGet pv.bits (b * pv.width) (e * pv.width) / 2 ^ (pv.width * i) %
                2 ^ pv.width * 2 ^ (pv.width * i) := by
            apply Finset.sum_le_sum
            intro i hi
            rw [hfdig i (Finset.mem_range.mp hi)]
            exact Nat.mul_le_mul_right _
              (hnun (b + i) (by omega) (by
                have := Finset.mem_range.mp hi
                omega))
        _ = bvGet pv.bits (b * pv.width) (e * pv.width) :=
            (digit_expand (e - b) _ hchunk_lt).symm
    have hborrow : ∀ j, j < e - b →
        (∑ i ∈ Finset.range (e - b), n * 2 ^ (pv.width * i)) / 2 ^ (pv.width * j) %
          2 ^ pv.width ≤
        bvGet pv.bits (b * pv.width) (e * pv.width) / 2 ^ (pv.width * j) %
          2 ^ pv.width := by
      intro j hj
      rw [hfdig j hj, geomsum_digit hn j hj]
      exact hnun (b + j) (by omega) (by omega)
    have hVdig : ∀ i, i < e - b →
        lowbits ((bvGet pv.bits (b * pv.width) (e * pv.width) +
          lowbits ((pv.fieldMask * ((M - n) % M)) % M) ((e - b) * pv.width)) % M)
          ((e - b) * pv.width) / 2 ^ (pv.width * i) % 2 ^ pv.width =
        pvGetItem pv (b + i) - n := by
      intro i hi
      rw [hlowA, lowbits_eq_mod hS64,
        Nat.mod_mod_of_dvd _ (show (2 : Nat) ^ ((e - b) * pv.width) ∣ M from
          pow_dvd_pow 2 hS64)]
      rw [show bvGet pv.bits (b * pv.width) (e * pv.width) +
          (2 ^ ((e - b) * pv.width) -
            ∑ i ∈ Finset.range (e - b), n * 2 ^ (pv.width * i)) =
          (bvGet pv.bits (b * pv.width) (e * pv.width) -
            ∑ i ∈ Finset.range (e - b), n * 2 ^ (pv.width * i)) +
          2 ^ ((e - b) * pv.width) from by omega]
      rw [Nat.add_mod_right,
        Nat.mod_eq_of_lt (show bvGet pv.bits (b * pv.width) (e * pv.width) -
          (∑ i ∈ Finset.range (e - b), n * 2 ^ (pv.width * i)) <
          2 ^ ((e - b) * pv.width) from by omega)]
      rw [digit_sub hRSchunk hborrow i hi, hfdig i hi, geomsum_digit hn i hi]
    constructor
    · intro k hk1 hk2
      obtain ⟨i, rfl⟩ : ∃ i, k = b + i := ⟨k - b, by omega⟩
      have h1 : pvGetItem (pvIncrement pv b e ((M - n) % M)) (b + i) =
          bvGet (pvIncrement pv b e ((M - n) % M)).bits ((b + i) * pv.width)
            ((b + i + 1) * pv.width) := by
        unfold pvGetItem pvGetRange
        rw [hwidth]
      have e1 : (b + i) * pv.width - b * pv.width = pv.width * i := by
        rw [← Nat.sub_mul, Nat.add_sub_cancel_left]
        exact Nat.mul_comm i pv.width
      have e2 : (b + i + 1) * pv.width - (b + i) * pv.width = pv.width := by
        rw [← Nat.sub_mul, Nat.add_sub_cancel_left, Nat.one_mul]
      rw [h1, hbits_eq,
        bvGet_bvSet_inside (by omega) hrange hbig hbits
          (Nat.mul_le_mul_right _ (by omega)) (Nat.mul_le_mul_right _ (by omega))
          (Nat.mul_le_mul_right _ (by omega)),
        e1, e2, hVdig i (by omega)]
    · intro k hk hkb
      have h1 : pvGetItem (pvIncrement pv b e ((M - n) % M)) k =
          bvGet (pvIncrement pv b e ((M - n) % M)).bits (k * pv.width)
            ((k + 1) * pv.width) := by
        unfold pvGetItem pvGetRange
        rw [hwidth]
      have hsucc : (k + 1) * pv.width = k * pv.width + pv.width :=
        Nat.succ_mul k pv.width
      rw [h1, hbits_eq,
        bvGet_bvSet_outside (by omega) hrange hbig hbits (by omega) hkb
          (by
            rcases hk with hk | hk
            · exact Or.inl (Nat.mul_le_mul_right _ (by omega))
            · exact Or.inr (Nat.mul_le_mul_right _ hk))]
      rfl

/-- One chunk write of the increment loop, at an arbitrary field-aligned
position: with an addend whose low `s` digits all read `n` and no field
overflowing, the `s` fields of the chunk each gain `n` and every other
field is untouched. -/
theorem chunk_inc_fields {w n A : Nat} {bits : List Nat} (q s : Nat)
    (hw : 0 < w) (hw64 : w ≤ 64) (hsw : s * w ≤ 64) (hs0 : 0 < s)
    (hwords : ∀ x ∈ bits, x < M)
    (hbound : (q + s) * w ≤ 64 * bits.length)
    (hbig : 64 * bits.length + 128 ≤ M)
    (hn : n < 2 ^ w)
    (hA : lowbits A (s * w) = ∑ i ∈ Finset.range s, n * 2 ^ (w * i))
    (hnov : ∀ i, i < s →
      bvGet bits ((q + i) * w) ((q + i + 1) * w) + n < 2 ^ w) :
    (bvSet bits (q * w) ((q + s) * w)
        (lowbits ((bvGet bits (q * w) ((q + s) * w) + lowbits A (s * w)) % M)
          (s * w))).length = bits.length ∧
    (∀ x ∈ bvSet bits (q * w) ((q + s) * w)
        (lowbits ((bvGet bits (q * w) ((q + s) * w) + lowbits A (s * w)) % M)
          (s * w)), x < M) ∧
    (∀ i, i < s →
      bvGet (bvSet bits (q * w) ((q + s) * w)
          (lowbits ((bvGet bits (q * w) ((q + s) * w) + lowbits A (s * w)) % M)
            (s * w))) ((q + i) * w) ((q + i + 1) * w) =
        bvGet bits ((q + i) * w) ((q + i + 1) * w) + n) ∧
    (∀ k, (k < q ∨ q + s ≤ k) → (k + 1) * w ≤ 64 * bits.length →
      bvGet (bvSet bits (q * w) ((q + s) * w)
          (lowbits ((bvGet bits (q * w) ((q + s) * w) + lowbits A (s * w)) % M)
            (s * w))) (k * w) ((k + 1) * w) =
        bvGet bits (k * w) ((k + 1) * w)) := by
  have hadd : (q + s) * w = q * w + s * w := Nat.add_mul q s w
  have hMe : (q + s) * w ≤ M - 64 := by
    unfold M at hbig ⊢
    omega
  have hchunk_lt : bvGet bits (q * w) ((q + s) * w) < 2 ^ (w * s) := by
    have h := bvGet_lt (c := bits) (b := q * w) (e := (q + s) * w)
      (by omega) hMe hwords
    rw [show (q + s) * w - q * w = w * s from by
      have hc := Nat.mul_comm s w
      omega] at h
    exact h
  have hfdig : ∀ i, i < s →
      bvGet bits (q * w) ((q + s) * w) / 2 ^ (w * i) % 2 ^ w =
        bvGet bits ((q + i) * w) ((q + i + 1) * w) := by
    intro i hi
    have e1 : (q + i) * w - q * w = w * i := by
      rw [← Nat.sub_mul, Nat.add_sub_cancel_left]
      exact Nat.mul_comm i w
    have e2 : (q + i + 1) * w - (q + i) * w = w := by
      rw [← Nat.sub_mul, Nat.add_sub_cancel_left, Nat.one_mul]
    rw [@bvGet_digit bits (q * w) ((q + s) * w)
      ((q + i) * w) ((q + i + 1) * w)
      (by omega) hMe hwords
      (Nat.mul_le_mul_right _ (by omega)) (Nat.mul_le_mul_right _ (by omega))
      (Nat.mul_le_mul_right _ (by omega)), e1, e2]
  have hnov' : ∀ j, j < s →
      bvGet bits (q * w) ((q + s) * w) / 2 ^ (w * j) % 2 ^ w +
      (∑ i ∈ Finset.range s, n * 2 ^ (w * i)) / 2 ^ (w * j) % 2 ^ w <
        2 ^ w := by
    intro j hj
    rw [hfdig j hj, geomsum_digit hn j hj]
    exact hnov j hj
  have hVdig : ∀ i, i < s →
      lowbits ((bvGet bits (q * w) ((q + s) * w) + lowbits A (s * w)) % M)
        (s * w) / 2 ^ (w * i) % 2 ^ w =
      bvGet bits ((q + i) * w) ((q + i + 1) * w) + n := by
    intro i hi
    rw [hA, lowbits_eq_mod hsw,
      Nat.mod_mod_of_dvd _ (show (2 : Nat) ^ (s * w) ∣ M from
        pow_dvd_pow 2 hsw),
      show s * w = w * s from Nat.mul_comm s w,
      digit_mod_high hi, digit_add hnov' i hi, hfdig i hi,
      geomsum_digit hn i hi]
  refine ⟨bvSet_length, bvSet_words_lt (by omega) hwords, ?_, ?_⟩
  · intro i hi
    have e1 : (q + i) * w - q * w = w * i := by
      rw [← Nat.sub_mul, Nat.add_sub_cancel_left]
      exact Nat.mul_comm i w
    have e2 : (q + i + 1) * w - (q + i) * w = w := by
      rw [← Nat.sub_mul, Nat.add_sub_cancel_left, Nat.one_mul]
    rw [bvGet_bvSet_inside (by omega) hbound hbig hwords
        (Nat.mul_le_mul_right _ (by omega)) (Nat.mul_le_mul_right _ (by omega))
        (Nat.mul_le_mul_right _ (by omega)),
      e1, e2, hVdig i hi]
  · intro k hk hkb
    have hsucc : (k + 1) * w = k * w + w := Nat.succ_mul k w
    rw [bvGet_bvSet_outside (by omega) hbound hbig hwords (by omega) hkb
      (by
        rcases hk with hk | hk
        · exact Or.inl (Nat.mul_le_mul_right _ (by omega))
        · exact Or.inr (Nat.mul_le_mul_right _ hk))]

/-- One chunk write of the decrement loop, at an arbitrary field-aligned
position: with a two's-complement addend whose low `s * w` bits read
`2 ^ (s * w) - (n broadcast)` and no field underflowing, the `s` fields of
the chunk each lose `n` and every other field is untouched. -/
theorem chunk_dec_fields {w n A : Nat} {bits : List Nat} (q s : Nat)
    (hw : 0 < w) (hw64 : w ≤ 64) (hsw : s * w ≤ 64) (hs0 : 0 < s)
    (hwords : ∀ x ∈ bits, x < M)
    (hbound : (q + s) * w ≤ 64 * bits.length)
    (hbig : 64 * bits.length + 128 ≤ M)
    (hn : n < 2 ^ w) (hn0 : 0 < n)
    (hA : lowbits A (s * w) =
      2 ^ (s * w) - ∑ i ∈ Finset.range s, n * 2 ^ (w * i))
    (hnun : ∀ i, i < s →
      n ≤ bvGet bits ((q + i) * w) ((q + i + 1) * w)) :
    (bvSet bits (q * w) ((q + s) * w)
        (lowbits ((bvGet bits (q * w) ((q + s) * w) + lowbits A (s * w)) % M)
          (s * w))).length = bits.length ∧
    (∀ x ∈ bvSet bits (q * w) ((q + s) * w)
        (lowbits ((bvGet bits (q * w) ((q + s) * w) + lowbits A (s * w)) % M)
          (s * w)), x < M) ∧
    (∀ i, i < s →
      bvGet (bvSet bits (q * w) ((q + s) * w)
          (lowbits ((bvGet bits (q * w) ((q + s) * w) + lowbits A (s * w)) % M)
            (s * w))) ((q + i) * w) ((q + i + 1) * w) =
        bvGet bits ((q + i) * w) ((q + i + 1) * w) - n) ∧
    (∀ k, (k < q ∨ q + s ≤ k) → (k + 1) * w ≤ 64 * bits.length →
      bvGet (bvSet bits (q * w) ((q + s) * w)
          (lowbits ((bvGet bits (q * w) ((q + s) * w) + lowbits A (s * w)) % M)
            (s * w))) (k * w) ((k + 1) * w) =
        bvGet bits (k * w) ((k + 1) * w)) := by
  have hadd : (q + s) * w = q * w + s * w := Nat.add_mul q s w
  have hMe : (q + s) * w ≤ M - 64 := by
    unfold M at hbig ⊢
    omega
  have hchunk_lt : bvGet bits (q * w) ((q + s) * w) < 2 ^ (w * s) := by
    have h := bvGet_lt (c := bits) (b := q * w) (e := (q + s) * w)
      (by omega) hMe hwords
    rw [show (q + s) * w - q * w = w * s from by
      have hc := Nat.mul_comm s w
      omega] at h
    exact h
  have hchunk_ltS : bvGet bits (q * w) ((q + s) * w) < 2 ^ (s * w) := by
    rw [show s * w = w * s from Nat.mul_comm s w]
    exact hchunk_lt
  have hfdig : ∀ i, i < s →
      bvGet bits (q * w) ((q + s) * w) / 2 ^ (w * i) % 2 ^ w =
        bvGet bits ((q + i) * w) ((q + i + 1) * w) := by
    intro i hi
    have e1 : (q + i) * w - q * w = w * i := by
      rw [← Nat.sub_mul, Nat.add_sub_cancel_left]
      exact Nat.mul_comm i w
    have e2 : (q + i + 1) * w - (q + i) * w = w := by
      rw [← Nat.sub_mul, Nat.add_sub_cancel_left, Nat.one_mul]
    rw [@bvGet_digit bits (q * w) ((q + s) * w)
      ((q + i) * w) ((q + i + 1) * w)
      (by omega) hMe hwords
      (Nat.mul_le_mul_right _ (by omega)) (Nat.mul_le_mul_right _ (by omega))
      (Nat.mul_le_mul_right _ (by omega)), e1, e2]
  have hRSlt : (∑ i ∈ Finset.range s, n * 2 ^ (w * i)) < 2 ^ (s * w) := by
    rw [show s * w = w * s from Nat.mul_comm s w]
    exact geomsum_lt hn s
  have hRSchunk : (∑ i ∈ Finset.range s, n * 2 ^ (w * i)) ≤
      bvGet bits (q * w) ((q + s) * w) := by
    calc (∑ i ∈ Finset.range s, n * 2 ^ (w * i))
        ≤ ∑ i ∈ Finset.range s,
            bvGet bits (q * w) ((q + s) * w) / 2 ^ (w * i) % 2 ^ w *
              2 ^ (w * i) := by
          apply Finset.sum_le_sum
          intro i hi
          rw [hfdig i (Finset.mem_range.mp hi)]
          exact Nat.mul_le_mul_right _ (hnun i (Finset.mem_range.mp hi))
      _ = bvGet bits (q * w) ((q + s) * w) :=
          (digit_expand s _ hchunk_lt).symm
  have hborrow : ∀ j, j < s →
      (∑ i ∈ Finset.range s, n * 2 ^ (w * i)) / 2 ^ (w * j) % 2 ^ w ≤
      bvGet bits (q * w) ((q + s) * w) / 2 ^ (w * j) % 2 ^ w := by
    intro j hj
    rw [hfdig j hj, geomsum_digit hn j hj]
    exact hnun j hj
  have hVdig : ∀ i, i < s →
      lowbits ((bvGet bits (q * w) ((q + s) * w) + lowbits A (s * w)) % M)
        (s * w) / 2 ^ (w * i) % 2 ^ w =
      bvGet bits ((q + i) * w) ((q + i + 1) * w) - n := by
    intro i hi
    rw [hA, lowbits_eq_mod hsw,
      Nat.mod_mod_of_dvd _ (show (2 : Nat) ^ (s * w) ∣ M from
        pow_dvd_pow 2 hsw)]
    rw [show bvGet bits (q * w) ((q + s) * w) +
        (2 ^ (s * w) - ∑ i ∈ Finset.range s, n * 2 ^ (w * i)) =
        (bvGet bits (q * w) ((q + s) * w) -
          ∑ i ∈ Finset.range s, n * 2 ^ (w * i)) + 2 ^ (s * w) from by omega]
    rw [Nat.add_mod_right,
      Nat.mod_eq_of_lt (show bvGet bits (q * w) ((q + s) * w) -
        (∑ i ∈ Finset.range s, n * 2 ^ (w * i)) < 2 ^ (s * w) from by omega)]
    rw [digit_sub hRSchunk hborrow i hi, hfdig i hi, geomsum_digit hn i hi]
  refine ⟨bvSet_length, bvSet_words_lt (by omega) hwords, ?_, ?_⟩
  · intro i hi
    have e1 : (q + i) * w - q * w = w * i := by
      rw [← Nat.sub_mul, Nat.add_sub_cancel_left]
      exact Nat.mul_comm i w
    have e2 : (q + i + 1) * w - (q + i) * w = w := by
      rw [← Nat.sub_mul, Nat.add_sub_cancel_left, Nat.one_mul]
    rw [bvGet_bvSet_inside (by omega) hbound hbig hwords
        (Nat.mul_le_mul_right _ (by omega)) (Nat.mul_le_mul_right _ (by omega))
        (Nat.mul_le_mul_right _ (by omega)),
      e1, e2, hVdig i hi]
  · intro k hk hkb
    have hsucc : (k + 1) * w = k * w + w := Nat.succ_mul k w
    rw [bvGet_bvSet_outside (by omega) hbound hbig hwords (by omega) hkb
      (by
        rcases hk with hk | hk
        · exact Or.inl (Nat.mul_le_mul_right _ (by omega))
        · exact Or.inr (Nat.mul_le_mul_right _ hk))]

/-- The full chunk loop of `packed_view::increment`, for an arbitrary
number of chunks: starting at field `q` with `(e - q) * w` bits left and an
addend whose low digits all read `n`, every remaining field gains `n` and
every other field is untouched.  Induction over the fuel, one chunk per
iteration. -/
theorem pvIncLoop_fields_add {w n A e : Nat} {orig : List Nat}
    (hw : 0 < w) (hw64 : w ≤ 64)
    (hbig : 64 * orig.length + 128 ≤ M)
    (he : e * w ≤ 64 * orig.length)
    (hn : n < 2 ^ w)
    (hA : ∀ s, 0 < s → s ≤ 64 / w →
      lowbits A (s * w) = ∑ i ∈ Finset.range s, n * 2 ^ (w * i)) :
    ∀ (fuel : Nat) (bits : List Nat) (q rem : Nat),
      bits.length = orig.length →
      (∀ x ∈ bits, x < M) →
      q ≤ e →
      (e - q) * w ≤ fuel →
      rem = (e - q) * w % (64 / w * w) →
      (∀ k, q ≤ k → k < e →
        bvGet bits (k * w) ((k + 1) * w) + n < 2 ^ w) →
      (pvIncLoop (64 / w * w) rem A (e * w) fuel bits (q * w)
          ((e - q) * w)).length = orig.length ∧
      (∀ x ∈ pvIncLoop (64 / w * w) rem A (e * w) fuel bits (q * w)
          ((e - q) * w), x < M) ∧
      (∀ k, q ≤ k → k < e →
        bvGet (pvIncLoop (64 / w * w) rem A (e * w) fuel bits (q * w)
            ((e - q) * w)) (k * w) ((k + 1) * w) =
          bvGet bits (k * w) ((k + 1) * w) + n) ∧
      (∀ k, (k < q ∨ e ≤ k) → (k + 1) * w ≤ 64 * orig.length →
        bvGet (pvIncLoop (64 / w * w) rem A (e * w) fuel bits (q * w)
            ((e - q) * w)) (k * w) ((k + 1) * w) =
          bvGet bits (k * w) ((k + 1) * w)) := by
  intro fuel
  induction fuel with
  | zero =>
      intro bits q rem hlen hwords hqe hfuel _ _
      refine ⟨hlen, hwords, ?_, ?_⟩
      · intro k hk1 hk2
        have h1 : 1 * w ≤ (e - q) * w := Nat.mul_le_mul_right _ (by omega)
        omega
      · intro k _ _
        rfl
  | succ f ih =>
      intro bits q rem hlen hwords hqe hfuel hrem hnov
      by_cases hqlt : q < e
      case neg =>
        have hew : e * w ≤ q * w := Nat.mul_le_mul_right _ (by omega)
        rw [pvIncLoop_stop _ _ _ _ (show ¬ q * w < e * w from by omega)]
        exact ⟨hlen, hwords, fun k hk1 hk2 => by omega, fun k _ _ => rfl⟩
      case pos =>
      have hsubm : (e - q) * w = e * w - q * w := Nat.sub_mul e q w
      have hqle : q * w ≤ e * w := Nat.mul_le_mul_right _ (by omega)
      have hguard : q * w < e * w := by
        have h1 : (q + 1) * w ≤ e * w := Nat.mul_le_mul_right _ (by omega)
        have h2 : (q + 1) * w = q * w + w := Nat.succ_mul q w
        omega
      have hbpw64 : 64 / w * w ≤ 64 := Nat.div_mul_le_self 64 w
      have hfpw_pos : 0 < 64 / w := Nat.div_pos hw64 hw
      have hbpw_pos : 1 * w ≤ 64 / w * w := Nat.mul_le_mul_right _ hfpw_pos
      have hbits_big : 64 * bits.length + 128 ≤ M := by
        rw [hlen]; exact hbig
      by_cases hfull : (e - q) * w < 64 / w * w
      case pos =>
        -- final (partial) chunk covering all remaining fields [q, e)
        have hremv : rem = (e - q) * w := by
          rw [hrem]; exact Nat.mod_eq_of_lt hfull
        have hs : e - q ≤ 64 / w := by
          by_contra hc
          push_neg at hc
          have h1 : (64 / w + 1) * w ≤ (e - q) * w :=
            Nat.mul_le_mul_right _ (by omega)
          have h2 : (64 / w + 1) * w = 64 / w * w + w := Nat.succ_mul _ w
          omega
        have hstep : pvIncLoop (64 / w * w) rem A (e * w) (f + 1) bits
            (q * w) ((e - q) * w) =
            bvSet bits (q * w) ((q + (e - q)) * w)
              (lowbits ((bvGet bits (q * w) ((q + (e - q)) * w) +
                lowbits A ((e - q) * w)) % M) ((e - q) * w)) := by
          simp only [pvIncLoop]
          rw [if_pos hguard, if_pos hfull, hremv,
            show q * w + (e - q) * w = (q + (e - q)) * w from
              (Nat.add_mul q (e - q) w).symm]
          exact pvIncLoop_stop _ _ _ _
            (show ¬ (q + (e - q)) * w < e * w from by
              rw [show q + (e - q) = e from by omega]; omega)
        rw [hstep]
        have hchunk := chunk_inc_fields q (e - q) hw hw64
          (show (e - q) * w ≤ 64 from by omega)
          (show 0 < e - q from by omega) hwords
          (show (q + (e - q)) * w ≤ 64 * bits.length from by
            rw [show q + (e - q) = e from by omega, hlen]; exact he)
          hbits_big hn (hA (e - q) (by omega) hs)
          (fun i hi => hnov (q + i) (by omega) (by omega))
        refine ⟨by rw [hchunk.1, hlen], hchunk.2.1, ?_, ?_⟩
        · intro k hk1 hk2
          obtain ⟨i, rfl⟩ : ∃ i, k = q + i := ⟨k - q, by omega⟩
          exact hchunk.2.2.1 i (by omega)
        · intro k hk hkb
          exact hchunk.2.2.2 k
            (by
              rcases hk with h | h
              · exact Or.inl h
              · exact Or.inr (by omega))
            (by rw [hlen]; exact hkb)
      case neg =>
        -- one full chunk of 64 / w fields, then recurse
        have hfull' : 64 / w * w ≤ (e - q) * w := by omega
        have hfpw_le : 64 / w ≤ e - q := by
          by_contra hc
          push_neg at hc
          have h1 : (e - q + 1) * w ≤ 64 / w * w :=
            Nat.mul_le_mul_right _ (by omega)
          have h2 : (e - q + 1) * w = (e - q) * w + w := Nat.succ_mul _ w
          omega
        have hqfe : q + 64 / w ≤ e := by omega
        have hsm : (e - (q + 64 / w)) * w = (e - q) * w - 64 / w * w := by
          rw [show e - (q + 64 / w) = e - q - 64 / w from by omega,
            Nat.sub_mul]
        have hstep : pvIncLoop (64 / w * w) rem A (e * w) (f + 1) bits
            (q * w) ((e - q) * w) =
            pvIncLoop (64 / w * w) rem A (e * w) f
              (bvSet bits (q * w) ((q + 64 / w) * w)
                (lowbits ((bvGet bits (q * w) ((q + 64 / w) * w) +
                  lowbits A (64 / w * w)) % M) (64 / w * w)))
              ((q + 64 / w) * w) ((e - (q + 64 / w)) * w) := by
          simp only [pvIncLoop]
          rw [if_pos hguard, if_neg hfull,
            show q * w + 64 / w * w = (q + 64 / w) * w from
              (Nat.add_mul q (64 / w) w).symm,
            show (e - q) * w - 64 / w * w = (e - (q + 64 / w)) * w from
              hsm.symm]
        rw [hstep]
        have hchunk := chunk_inc_fields q (64 / w) hw hw64 hbpw64 hfpw_pos
          hwords
          (show (q + 64 / w) * w ≤ 64 * bits.length from by
            have h1 : (q + 64 / w) * w ≤ e * w := Nat.mul_le_mul_right _ hqfe
            omega)
          hbits_big hn (hA (64 / w) hfpw_pos (Nat.le_refl _))
          (fun i hi => hnov (q + i) (by omega) (by omega))
        have hih := ih (bvSet bits (q * w) ((q + 64 / w) * w)
            (lowbits ((bvGet bits (q * w) ((q + 64 / w) * w) +
              lowbits A (64 / w * w)) % M) (64 / w * w)))
          (q + 64 / w) rem
          (by rw [hchunk.1, hlen])
          hchunk.2.1
          hqfe
          (by omega)
          (by rw [hrem,
            show (e - q) * w = (e - (q + 64 / w)) * w + 64 / w * w from
              by omega,
            Nat.add_mod_right])
          (fun k hk1 hk2 => by
            rw [hchunk.2.2.2 k (Or.inr (by omega))
              (by
                have h1 : (k + 1) * w ≤ e * w :=
                  Nat.mul_le_mul_right _ (by omega)
                omega)]
            exact hnov k (by omega) hk2)
        refine ⟨hih.1, hih.2.1, ?_, ?_⟩
        · intro k hk1 hk2
          by_cases hkq : k < q + 64 / w
          · rw [hih.2.2.2 k (Or.inl hkq)
              (by
                have h1 : (k + 1) * w ≤ e * w :=
                  Nat.mul_le_mul_right _ (by omega)
                omega)]
            obtain ⟨i, rfl⟩ : ∃ i, k = q + i := ⟨k - q, by omega⟩
            exact hchunk.2.2.1 i (by omega)
          · rw [hih.2.2.1 k (by omega) hk2,
              hchunk.2.2.2 k (Or.inr (by omega))
                (by
                  have h1 : (k + 1) * w ≤ e * w :=
                    Nat.mul_le_mul_right _ (by omega)
                  omega)]
        · intro k hk hkb
          rw [hih.2.2.2 k
            (by
              rcases hk with h | h
              · exact Or.inl (by omega)
              · exact Or.inr h) hkb]
          exact hchunk.2.2.2 k
            (by
              rcases hk with h | h
              · exact Or.inl h
              · exact Or.inr (by omega))
            (by rw [hlen]; exact hkb)

/-- The full chunk loop of `packed_view::decrement` (the increment loop on
the two's-complement addend), for an arbitrary number of chunks: with no
field underflowing, every remaining field loses `n` and every other field
is untouched. -/
theorem pvIncLoop_fields_sub {w n A e : Nat} {orig : List Nat}
    (hw : 0 < w) (hw64 : w ≤ 64)
    (hbig : 64 * orig.length + 128 ≤ M)
    (he : e * w ≤ 64 * orig.length)
    (hn : n < 2 ^ w) (hn0 : 0 < n)
    (hA : ∀ s, 0 < s → s ≤ 64 / w →
      lowbits A (s * w) =
        2 ^ (s * w) - ∑ i ∈ Finset.range s, n * 2 ^ (w * i)) :
    ∀ (fuel : Nat) (bits : List Nat) (q rem : Nat),
      bits.length = orig.length →
      (∀ x ∈ bits, x < M) →
      q ≤ e →
      (e - q) * w ≤ fuel →
      rem = (e - q) * w % (64 / w * w) →
      (∀ k, q ≤ k → k < e →
        n ≤ bvGet bits (k * w) ((k + 1) * w)) →
      (pvIncLoop (64 / w * w) rem A (e * w) fuel bits (q * w)
          ((e - q) * w)).length = orig.length ∧
      (∀ x ∈ pvIncLoop (64 / w * w) rem A (e * w) fuel bits (q * w)
          ((e - q) * w), x < M) ∧
      (∀ k, q ≤ k → k < e →
        bvGet (pvIncLoop (64 / w * w) rem A (e * w) fuel bits (q * w)
            ((e - q) * w)) (k * w) ((k + 1) * w) =
          bvGet bits (k * w) ((k + 1) * w) - n) ∧
      (∀ k, (k < q ∨ e ≤ k) → (k + 1) * w ≤ 64 * orig.length →
        bvGet (pvIncLoop (64 / w * w) rem A (e * w) fuel bits (q * w)
            ((e - q) * w)) (k * w) ((k + 1) * w) =
          bvGet bits (k * w) ((k + 1) * w)) := by
  intro fuel
  induction fuel with
  | zero =>
      intro bits q rem hlen hwords hqe hfuel _ _
      refine ⟨hlen, hwords, ?_, ?_⟩
      · intro k hk1 hk2
        have h1 : 1 * w ≤ (e - q) * w := Nat.mul_le_mul_right _ (by omega)
        omega
      · intro k _ _
        rfl
  | succ f ih =>
      intro bits q rem hlen hwords hqe hfuel hrem hnun
      by_cases hqlt : q < e
      case neg =>
        have hew : e * w ≤ q * w := Nat.mul_le_mul_right _ (by omega)
        rw [pvIncLoop_stop _ _ _ _ (show ¬ q * w < e * w from by omega)]
        exact ⟨hlen, hwords, fun k hk1 hk2 => by omega, fun k _ _ => rfl⟩
      case pos =>
      have hsubm : (e - q) * w = e * w - q * w := Nat.sub_mul e q w
      have hqle : q * w ≤ e * w := Nat.mul_le_mul_right _ (by omega)
      have hguard : q * w < e * w := by
        have h1 : (q + 1) * w ≤ e * w := Nat.mul_le_mul_right _ (by omega)
        have h2 : (q + 1) * w = q * w + w := Nat.succ_mul q w
        omega
      have hbpw64 : 64 / w * w ≤ 64 := Nat.div_mul_le_self 64 w
      have hfpw_pos : 0 < 64 / w := Nat.div_pos hw64 hw
      have hbpw_pos : 1 * w ≤ 64 / w * w := Nat.mul_le_mul_right _ hfpw_pos
      have hbits_big : 64 * bits.length + 128 ≤ M := by
        rw [hlen]; exact hbig
      by_cases hfull : (e - q) * w < 64 / w * w
      case pos =>
        have hremv : rem = (e - q) * w := by
          rw [hrem]; exact Nat.mod_eq_of_lt hfull
        have hs : e - q ≤ 64 / w := by
          by_contra hc
          push_neg at hc
          have h1 : (64 / w + 1) * w ≤ (e - q) * w :=
            Nat.mul_le_mul_right _ (by omega)
          have h2 : (64 / w + 1) * w = 64 / w * w + w := Nat.succ_mul _ w
          omega
        have hstep : pvIncLoop (64 / w * w) rem A (e * w) (f + 1) bits
            (q * w) ((e - q) * w) =
            bvSet bits (q * w) ((q + (e - q)) * w)
              (lowbits ((bvGet bits (q * w) ((q + (e - q)) * w) +
                lowbits A ((e - q) * w)) % M) ((e - q) * w)) := by
          simp only [pvIncLoop]
          rw [if_pos hguard, if_pos hfull, hremv,
            show q * w + (e - q) * w = (q + (e - q)) * w from
              (Nat.add_mul q (e - q) w).symm]
          exact pvIncLoop_stop _ _ _ _
            (show ¬ (q + (e - q)) * w < e * w from by
              rw [show q + (e - q) = e from by omega]; omega)
        rw [hstep]
        have hchunk := chunk_dec_fields q (e - q) hw hw64
          (show (e - q) * w ≤ 64 from by omega)
          (show 0 < e - q from by omega) hwords
          (show (q + (e - q)) * w ≤ 64 * bits.length from by
            rw [show q + (e - q) = e from by omega, hlen]; exact he)
          hbits_big hn hn0 (hA (e - q) (by omega) hs)
          (fun i hi => hnun (q + i) (by omega) (by omega))
        refine ⟨by rw [hchunk.1, hlen], hchunk.2.1, ?_, ?_⟩
        · intro k hk1 hk2
          obtain ⟨i, rfl⟩ : ∃ i, k = q + i := ⟨k - q, by omega⟩
          exact hchunk.2.2.1 i (by omega)
        · intro k hk hkb
          exact hchunk.2.2.2 k
            (by
              rcases hk with h | h
              · exact Or.inl h
              · exact Or.inr (by omega))
            (by rw [hlen]; exact hkb)
      case neg =>
        have hfull' : 64 / w * w ≤ (e - q) * w := by omega
        have hfpw_le : 64 / w ≤ e - q := by
          by_contra hc
          push_neg at hc
          have h1 : (e - q + 1) * w ≤ 64 / w * w :=
            Nat.mul_le_mul_right _ (by omega)
          have h2 : (e - q + 1) * w = (e - q) * w + w := Nat.succ_mul _ w
          omega
        have hqfe : q + 64 / w ≤ e := by omega
        have hsm : (e - (q + 64 / w)) * w = (e - q) * w - 64 / w * w := by
          rw [show e - (q + 64 / w) = e - q - 64 / w from by omega,
            Nat.sub_mul]
        have hstep : pvIncLoop (64 / w * w) rem A (e * w) (f + 1) bits
            (q * w) ((e - q) * w) =
            pvIncLoop (64 / w * w) rem A (e * w) f
              (bvSet bits (q * w) ((q + 64 / w) * w)
                (lowbits ((bvGet bits (q * w) ((q + 64 / w) * w) +
                  lowbits A (64 / w * w)) % M) (64 / w * w)))
              ((q + 64 / w) * w) ((e - (q + 64 / w)) * w) := by
          simp only [pvIncLoop]
          rw [if_pos hguard, if_neg hfull,
            show q * w + 64 / w * w = (q + 64 / w) * w from
              (Nat.add_mul q (64 / w) w).symm,
            show (e - q) * w - 64 / w * w = (e - (q + 64 / w)) * w from
              hsm.symm]
        rw [hstep]
        have hchunk := chunk_dec_fields q (64 / w) hw hw64 hbpw64 hfpw_pos
          hwords
          (show (q + 64 / w) * w ≤ 64 * bits.length from by
            have h1 : (q + 64 / w) * w ≤ e * w := Nat.mul_le_mul_right _ hqfe
            omega)
          hbits_big hn hn0 (hA (64 / w) hfpw_pos (Nat.le_refl _))
          (fun i hi => hnun (q + i) (by omega) (by omega))
        have hih := ih (bvSet bits (q * w) ((q + 64 / w) * w)
            (lowbits ((bvGet bits (q * w) ((q + 64 / w) * w) +
              lowbits A (64 / w * w)) % M) (64 / w * w)))
          (q + 64 / w) rem
          (by rw [hchunk.1, hlen])
          hchunk.2.1
          hqfe
          (by omega)
          (by rw [hrem,
            show (e - q) * w = (e - (q + 64 / w)) * w + 64 / w * w from
              by omega,
            Nat.add_mod_right])
          (fun k hk1 hk2 => by
            rw [hchunk.2.2.2 k (Or.inr (by omega))
              (by
                have h1 : (k + 1) * w ≤ e * w :=
                  Nat.mul_le_mul_right _ (by omega)
                omega)]
            exact hnun k (by omega) hk2)
        refine ⟨hih.1, hih.2.1, ?_, ?_⟩
        · intro k hk1 hk2
          by_cases hkq : k < q + 64 / w
          · rw [hih.2.2.2 k (Or.inl hkq)
              (by
                have h1 : (k + 1) * w ≤ e * w :=
                  Nat.mul_le_mul_right _ (by omega)
                omega)]
            obtain ⟨i, rfl⟩ : ∃ i, k = q + i := ⟨k - q, by omega⟩
            exact hchunk.2.2.1 i (by omega)
          · rw [hih.2.2.1 k (by omega) hk2,
              hchunk.2.2.2 k (Or.inr (by omega))
                (by
                  have h1 : (k + 1) * w ≤ e * w :=
                    Nat.mul_le_mul_right _ (by omega)
                  omega)]
        · intro k hk hkb
          rw [hih.2.2.2 k
            (by
              rcases hk with h | h
              · exact Or.inl (by omega)
              · exact Or.inr h) hkb]
          exact hchunk.2.2.2 k
            (by
              rcases hk with h | h
              · exact Or.inl h
              · exact Or.inr (by omega))
            (by rw [hlen]; exact hkb)

/-- Per-field specification of `packed_view::increment` on an *arbitrary*
range, under the no-overflow precondition: every field of `[b, e)`
increases by exactly `n`, every field outside is unchanged.  The range may
span any number of words; the loop processes it one chunk at a time. -/
theorem pvIncrement_fields {pv : PV} {b e n : Nat}
    (hw : 0 < pv.width) (hw64 : pv.width ≤ 64)
    (hmask : pv.fieldMask = computeFieldMask pv.width)
    (hbits : ∀ x ∈ pv.bits, x < M)
    (hrange : e * pv.width ≤ 64 * pv.bits.length)
    (hbig : 64 * pv.bits.length + 128 ≤ M)
    (hbe : b ≤ e)
    (hnov : ∀ k, b ≤ k → k < e → pvGetItem pv k + n < 2 ^ pv.width) :
    (∀ k, b ≤ k → k < e → pvGetItem (pvIncrement pv b e n) k = pvGetItem pv k + n) ∧
    (∀ k, (k < b ∨ e ≤ k) → (k + 1) * pv.width ≤ 64 * pv.bits.length →
      pvGetItem (pvIncrement pv b e n) k = pvGetItem pv k) := by
  have hwidth : (pvIncrement pv b e n).width = pv.width := rfl
  by_cases hbe' : b < e
  case neg =>
    have hbits_eq := @pvIncrement_bits_empty pv b e n (by omega)
    constructor
    · intro k hk1 hk2
      omega
    · intro k _ _
      unfold pvGetItem pvGetRange
      rw [hwidth, hbits_eq]
  case pos =>
  have hn : n < 2 ^ pv.width := by
    have := hnov b (by omega) (by omega)
    omega
  have hAgen : ∀ s, 0 < s → s ≤ 64 / pv.width →
      lowbits (pv.fieldMask * n % M) (s * pv.width) =
        ∑ i ∈ Finset.range s, n * 2 ^ (pv.width * i) := by
    intro s hs0 hs
    have hsw : s * pv.width ≤ 64 := by
      calc s * pv.width ≤ 64 / pv.width * pv.width :=
            Nat.mul_le_mul_right _ hs
        _ ≤ 64 := Nat.div_mul_le_self 64 pv.width
    have hmaskn : pv.fieldMask * n =
        ∑ i ∈ Finset.range (64 / pv.width), n * 2 ^ (pv.width * i) := by
      rw [hmask, computeFieldMask_eq hw, Finset.sum_mul]
      apply Finset.sum_congr rfl
      intro i _
      ring
    have hfpw64 : pv.width * (64 / pv.width) ≤ 64 := by
      rw [Nat.mul_comm]
      exact Nat.div_mul_le_self 64 pv.width
    have hmaskn_lt : pv.fieldMask * n < M := by
      rw [hmaskn]
      calc (∑ i ∈ Finset.range (64 / pv.width), n * 2 ^ (pv.width * i))
          < 2 ^ (pv.width * (64 / pv.width)) := geomsum_lt hn _
        _ ≤ 2 ^ 64 := Nat.pow_le_pow_right (by norm_num) hfpw64
        _ = M := rfl
    rw [Nat.mod_eq_of_lt hmaskn_lt, lowbits_eq_mod hsw, hmaskn,
      show s * pv.width = pv.width * s from Nat.mul_comm _ _,
      geomsum_mod hn _ hs]
  have hbits_eq : (pvIncrement pv b e n).bits =
      pvIncLoop (64 / pv.width * pv.width)
        ((e - b) * pv.width % (64 / pv.width * pv.width))
        (pv.fieldMask * n % M) (e * pv.width) ((e - b) * pv.width)
        pv.bits (b * pv.width) ((e - b) * pv.width) := rfl
  have hloop := pvIncLoop_fields_add hw hw64 hbig hrange hn hAgen
    ((e - b) * pv.width) pv.bits b
    ((e - b) * pv.width % (64 / pv.width * pv.width))
    rfl hbits hbe (Nat.le_refl _) rfl
    (fun k hk1 hk2 => hnov k hk1 hk2)
  constructor
  · intro k hk1 hk2
    have h1 : pvGetItem (pvIncrement pv b e n) k =
        bvGet (pvIncrement pv b e n).bits (k * pv.width)
          ((k + 1) * pv.width) := by
      unfold pvGetItem pvGetRange
      rw [hwidth]
    rw [h1, hbits_eq, hloop.2.2.1 k hk1 hk2]
    rfl
  · intro k hk hkb
    have h1 : pvGetItem (pvIncrement pv b e n) k =
        bvGet (pvIncrement pv b e n).bits (k * pv.width)
          ((k + 1) * pv.width) := by
      unfold pvGetItem pvGetRange
      rw [hwidth]
    rw [h1, hbits_eq, hloop.2.2.2 k hk hkb]
    rfl

/-- Per-field specification of `packed_view::decrement` on an *arbitrary*
range, under the *no-underflow* precondition: every field of `[b, e)`
decreases by exactly `n`, every field outside is unchanged.  Without that
precondition the borrow of a wrapping field propagates into the next field
(see the counterexample). -/
theorem pvDecrement_fields {pv : PV} {b e n : Nat}
    (hw : 0 < pv.width) (hw64 : pv.width ≤ 64)
    (hmask : pv.fieldMask = computeFieldMask pv.width)
    (hbits : ∀ x ∈ pv.bits, x < M)
    (hrange : e * pv.width ≤ 64 * pv.bits.length)
    (hbig : 64 * pv.bits.length + 128 ≤ M)
    (hbe : b ≤ e)
    (hn : n < 2 ^ pv.width)
    (hnun : ∀ k, b ≤ k → k < e → n ≤ pvGetItem pv k) :
    (∀ k, b ≤ k → k < e → pvGetItem (pvDecrement pv b e n) k = pvGetItem pv k - n) ∧
    (∀ k, (k < b ∨ e ≤ k) → (k + 1) * pv.width ≤ 64 * pv.bits.length →
      pvGetItem (pvDecrement pv b e n) k = pvGetItem pv k) := by
  have hpow64 : (2 : Nat) ^ pv.width ≤ 2 ^ 64 :=
    Nat.pow_le_pow_right (by norm_num) hw64
  have hnM : n < M := by
    unfold M
    omega
  have hnmod : n % M = n := Nat.mod_eq_of_lt hnM
  unfold pvDecrement
  rw [hnmod]
  by_cases hn0 : n = 0
  · subst hn0
    rw [show (M - 0) % M = 0 from by
      rw [Nat.sub_zero, Nat.mod_self]]
    have h := pvIncrement_fields (n := 0) hw hw64 hmask hbits hrange hbig hbe
      (by
        intro k hk1 hk2
        rw [Nat.add_zero]
        have h1 : pvGetItem pv k = bvGet pv.bits (k * pv.width)
            ((k + 1) * pv.width) := rfl
        rw [h1]
        have hsucc : (k + 1) * pv.width = k * pv.width + pv.width :=
          Nat.succ_mul k pv.width
        have h2 := bvGet_lt (c := pv.bits) (b := k * pv.width)
          (e := (k + 1) * pv.width) (by omega)
          (by
            unfold M at hbig ⊢
            have : (k + 1) * pv.width ≤ e * pv.width :=
              Nat.mul_le_mul_right _ (by omega)
            omega)
          hbits
        calc bvGet pv.bits (k * pv.width) ((k + 1) * pv.width)
            < 2 ^ ((k + 1) * pv.width - k * pv.width) := h2
          _ ≤ 2 ^ pv.width := Nat.pow_le_pow_right (by norm_num) (by omega))
    constructor
    · intro k hk1 hk2
      rw [(h.1 k hk1 hk2), Nat.add_zero, Nat.sub_zero]
    · exact h.2
  · -- n ≥ 1: the general chunk loop on the two's-complement addend
    have hwidth : ∀ m : Nat, (pvIncrement pv b e m).width = pv.width :=
      fun m => rfl
    by_cases hbe' : b < e
    case neg =>
      have hbits_eq := @pvIncrement_bits_empty pv b e ((M - n) % M) (by omega)
      constructor
      · intro k hk1 hk2
        omega
      · intro k _ _
        unfold pvGetItem pvGetRange
        rw [hwidth, hbits_eq]
    case pos =>
    have hAgen : ∀ s, 0 < s → s ≤ 64 / pv.width →
        lowbits (pv.fieldMask * ((M - n) % M) % M) (s * pv.width) =
          2 ^ (s * pv.width) -
            ∑ i ∈ Finset.range s, n * 2 ^ (pv.width * i) := by
      intro s hs0 hs
      have hsw : s * pv.width ≤ 64 := by
        calc s * pv.width ≤ 64 / pv.width * pv.width :=
              Nat.mul_le_mul_right _ hs
          _ ≤ 64 := Nat.div_mul_le_self 64 pv.width
      have hmaskn : pv.fieldMask * n =
          ∑ i ∈ Finset.range (64 / pv.width), n * 2 ^ (pv.width * i) := by
        rw [hmask, computeFieldMask_eq hw, Finset.sum_mul]
        apply Finset.sum_congr rfl
        intro i _
        ring
      have hfpw64 : pv.width * (64 / pv.width) ≤ 64 := by
        rw [Nat.mul_comm]
        exact Nat.div_mul_le_self 64 pv.width
      have hmaskn_lt : pv.fieldMask * n < M := by
        rw [hmaskn]
        calc (∑ i ∈ Finset.range (64 / pv.width), n * 2 ^ (pv.width * i))
            < 2 ^ (pv.width * (64 / pv.width)) := geomsum_lt hn _
          _ ≤ 2 ^ 64 := Nat.pow_le_pow_right (by norm_num) hfpw64
          _ = M := rfl
      have hmasknS : (pv.fieldMask * n) % 2 ^ (s * pv.width) =
          ∑ i ∈ Finset.range s, n * 2 ^ (pv.width * i) := by
        rw [hmaskn, show s * pv.width = pv.width * s from Nat.mul_comm _ _,
          geomsum_mod hn _ hs]
      have hRSpos : 0 < ∑ i ∈ Finset.range s, n * 2 ^ (pv.width * i) := by
        obtain ⟨t, ht⟩ : ∃ t, s = t + 1 := ⟨s - 1, by omega⟩
        rw [ht, geomsum_succ]
        omega
      have hRSlt : (∑ i ∈ Finset.range s, n * 2 ^ (pv.width * i)) <
          2 ^ (s * pv.width) := by
        rw [show s * pv.width = pv.width * s from Nat.mul_comm _ _]
        exact geomsum_lt hn s
      rw [show (M - n) % M = M - n from Nat.mod_eq_of_lt (by omega)]
      rw [Nat.mul_sub]
      rw [lowbits_eq_mod hsw]
      rw [Nat.mod_mod_of_dvd _ (show (2 : Nat) ^ (s * pv.width) ∣ M from
        pow_dvd_pow 2 hsw)]
      rw [mod_sub_of_dvd (Nat.pos_pow_of_pos _ (by norm_num))
        (Nat.mul_le_mul_left pv.fieldMask (show n ≤ M from by omega))
        (Dvd.dvd.mul_left (show (2 : Nat) ^ (s * pv.width) ∣ M from
          pow_dvd_pow 2 hsw) pv.fieldMask)]
      rw [hmasknS]
      exact Nat.mod_eq_of_lt (by omega)
    have hbits_eq : (pvIncrement pv b e ((M - n) % M)).bits =
        pvIncLoop (64 / pv.width * pv.width)
          ((e - b) * pv.width % (64 / pv.width * pv.width))
          (pv.fieldMask * ((M - n) % M) % M) (e * pv.width)
          ((e - b) * pv.width)
          pv.bits (b * pv.width) ((e - b) * pv.width) := rfl
    have hloop := pvIncLoop_fields_sub hw hw64 hbig hrange hn (by omega)
      hAgen
      ((e - b) * pv.width) pv.bits b
      ((e - b) * pv.width % (64 / pv.width * pv.width))
      rfl hbits (by omega) (Nat.le_refl _) rfl
      (fun k hk1 hk2 => hnun k hk1 hk2)
    constructor
    · intro k hk1 hk2
      have h1 : pvGetItem (pvIncrement pv b e ((M - n) % M)) k =
          bvGet (pvIncrement pv b e ((M - n) % M)).bits (k * pv.width)
            ((k + 1) * pv.width) := by
        unfold pvGetItem pvGetRange
        rw [hwidth]
      rw [h1, hbits_eq, hloop.2.2.1 k hk1 hk2]
      rfl
    · intro k hk hkb
      have h1 : pvGetItem (pvIncrement pv b e ((M - n) % M)) k =
          bvGet (pvIncrement pv b e ((M - n) % M)).bits (k * pv.width)
            ((k + 1) * pv.width) := by
        unfold pvGetItem pvGetRange
        rw [hwidth]
      rw [h1, hbits_eq, hloop.2.2.2 k hk hkb]
      rfl

/-- C7 counterexample: on a width-4 view with fields (0, 5),
`decrement(0, 2, 1)` wraps field 0 to 15 but also borrows from field 1,
leaving it at 3 instead of the claimed (5 - 1) mod 2^4 = 4: the wrap-around
is not confined to the underflowing field. -/
theorem packed_view_decrement_borrow_cex :
    pvGetItem decPv 0 = 0 ∧ pvGetItem decPv 1 = 5 ∧
    pvGetItem (pvDecrement decPv 0 2 1) 0 = 15 ∧
    pvGetItem (pvDecrement decPv 0 2 1) 1 = 3 ∧
    (pvGetItem decPv 1 - 1) % 2 ^ decPv.width = 4 := by
  decide

/-- C7 (amended): on *any* range `[b, e)` of fields of a well-formed packed
view — the range may span any number of words — `increment(b, e, n)` under
the no-overflow precondition adds exactly `n` to every field of `[b, e)`
and preserves every other field, and `decrement(b, e, n)` subtracts exactly
`n` from every field of `[b, e)` and preserves every other field under the
*no-underflow* precondition.  The original claim's unconditional per-field
wrap-around for `decrement` is false: a wrapping field borrows from the
field above it (`packed_view_decrement_borrow_cex`). -/
theorem packed_view_inc_dec_spec (pv : PV) (b e n : Nat)
    (hw : 0 < pv.width) (hw64 : pv.width ≤ 64)
    (hmask : pv.fieldMask = computeFieldMask pv.width)
    (hbits : ∀ x ∈ pv.bits, x < M)
    (hrange : e * pv.width ≤ 64 * pv.bits.length)
    (hbig : 64 * pv.bits.length + 128 ≤ M)
    (hbe : b ≤ e) :
    ((∀ k, b ≤ k → k < e → pvGetItem pv k + n < 2 ^ pv.width) →
      (∀ k, b ≤ k → k < e →
        pvGetItem (pvIncrement pv b e n) k = pvGetItem pv k + n) ∧
      (∀ k, (k < b ∨ e ≤ k) → (k + 1) * pv.width ≤ 64 * pv.bits.length →
        pvGetItem (pvIncrement pv b e n) k = pvGetItem pv k)) ∧
    (n < 2 ^ pv.width → (∀ k, b ≤ k → k < e → n ≤ pvGetItem pv k) →
      (∀ k, b ≤ k → k < e →
        pvGetItem (pvDecrement pv b e n) k = pvGetItem pv k - n) ∧
      (∀ k, (k < b ∨ e ≤ k) → (k + 1) * pv.width ≤ 64 * pv.bits.length →
        pvGetItem (pvDecrement pv b e n) k = pvGetItem pv k)) :=
  ⟨fun hnov =>
    pvIncrement_fields hw hw64 hmask hbits hrange hbig hbe hnov,
   fun hn hnun =>
    pvDecrement_fields hw hw64 hmask hbits hrange hbig hbe hn hnun⟩

/-- Witness for the amended C7: width 9, eight fields all 5 spanning two
words (a full chunk of 7 fields plus a partial chunk of 1), `n = 2`. -/
theorem packed_view_inc_dec_spec_witness :
    pvGetItem (pvIncrement c7Pv2 0 8 2) 0 = pvGetItem c7Pv2 0 + 2 ∧
    pvGetItem (pvIncrement c7Pv2 0 8 2) 7 = pvGetItem c7Pv2 7 + 2 ∧
    pvGetItem (pvDecrement c7Pv2 0 8 2) 0 = pvGetItem c7Pv2 0 - 2 ∧
    pvGetItem (pvDecrement c7Pv2 0 8 2) 7 = pvGetItem c7Pv2 7 - 2 := by
  have h := packed_view_inc_dec_spec c7Pv2 0 8 2 (by decide) (by decide)
    (by decide) (by decide) (by decide) (by decide) (by decide)
  have hnov : ∀ k, 0 ≤ k → k < 8 → pvGetItem c7Pv2 k + 2 < 2 ^ c7Pv2.width := by
    intro k h1 h2
    interval_cases k <;> decide
  have hnun : ∀ k, 0 ≤ k → k < 8 → 2 ≤ pvGetItem c7Pv2 k := by
    intro k h1 h2
    interval_cases k <;> decide
  exact ⟨(h.1 hnov).1 0 (by omega) (by omega),
    (h.1 hnov).1 7 (by omega) (by omega),
    (h.2 (by decide) hnun).1 0 (by omega) (by omega),
    (h.2 (by decide) hnun).1 7 (by omega) (by omega)⟩

/-- The set loop does nothing once the cursor reaches the end. -/
theorem pvSetLoop_stop {bpw rem value endw : Nat} (f : Nat) (bits : List Nat)
    (p len : Nat) (h : ¬ p < endw) :
    pvSetLoop bpw rem value endw f bits p len = bits := by
  cases f with
  | zero => rfl
  | succ k => simp only [pvSetLoop, if_neg h]

/-- For a range of at most one word of fields, `packed_view::set(b, e, v)`
performs exactly one chunk write of the broadcast value. -/
theorem pvSetRange_bits {pv : PV} {b e v : Nat} (hw : 0 < pv.width)
    (hchunk : e - b ≤ 64 / pv.width) (hbe : b < e) :
    (pvSetRange pv b e v).bits =
      bvSet pv.bits (b * pv.width) (e * pv.width)
        (lowbits ((pv.fieldMask * v) % M) ((e - b) * pv.width)) := by
  have hSbpw : (e - b) * pv.width ≤ 64 / pv.width * pv.width :=
    Nat.mul_le_mul_right _ hchunk
  have heq : b * pv.width + (e - b) * pv.width = e * pv.width := by
    have h1 := Nat.sub_mul e b pv.width
    have h2 : b * pv.width ≤ e * pv.width := Nat.mul_le_mul_right _ (by omega)
    omega
  unfold pvSetRange
  dsimp only
  obtain ⟨f, hf⟩ : ∃ f, (e - b) * pv.width = f + 1 :=
    ⟨(e - b) * pv.width - 1, by
      have : 0 < (e - b) * pv.width := Nat.mul_pos (by omega) hw
      omega⟩
  rw [hf] at hSbpw heq ⊢
  simp only [pvSetLoop]
  rw [if_pos (show b * pv.width < e * pv.width from by omega)]
  have hstep : (if f + 1 < 64 / pv.width * pv.width
      then (f + 1) % (64 / pv.width * pv.width)
      else 64 / pv.width * pv.width) = f + 1 := by
    by_cases hc : f + 1 < 64 / pv.width * pv.width
    · rw [if_pos hc]
      exact Nat.mod_eq_of_lt hc
    · rw [if_neg hc]
      omega
  rw [hstep]
  rw [pvSetLoop_stop _ _ _ _ (show ¬ b * pv.width + (f + 1) < e * pv.width from
    by omega)]
  rw [heq]

/-- An empty range leaves the bits untouched. -/
theorem pvSetRange_bits_empty {pv : PV} {b e v : Nat} (hbe : e ≤ b) :
    (pvSetRange pv b e v).bits = pv.bits := by
  unfold pvSetRange
  dsimp only
  rw [show (e - b) * pv.width = 0 from by
    have : e - b = 0 := by omega
    rw [this, Nat.zero_mul]]
  rfl

/-- Per-field specification of the broadcast `packed_view::set(b, e, v)` on a
range of at most one word of fields, for a pattern that fits a single field
(the asserted precondition of the source): every field of `[b, e)` becomes
`v`, every field outside is unchanged. -/
theorem pvSetRange_field_spec {pv : PV} {b e v : Nat}
    (hw : 0 < pv.width) (hw64 : pv.width ≤ 64)
    (hmask : pv.fieldMask = computeFieldMask pv.width)
    (hbits : ∀ x ∈ pv.bits, x < M)
    (hrange : e * pv.width ≤ 64 * pv.bits.length)
    (hbig : 64 * pv.bits.length + 128 ≤ M)
    (hchunk : e - b ≤ 64 / pv.width) (hbe : b ≤ e)
    (hv : v < 2 ^ pv.width) :
    (∀ k, b ≤ k → k < e → pvGetItem (pvSetRange pv b e v) k = v) ∧
    (∀ k, (k < b ∨ e ≤ k) → (k + 1) * pv.width ≤ 64 * pv.bits.length →
      pvGetItem (pvSetRange pv b e v) k = pvGetItem pv k) := by
  have hwidth : (pvSetRange pv b e v).width = pv.width := rfl
  by_cases hbe' : b < e
  case neg =>
    have hbits_eq := @pvSetRange_bits_empty pv b e v (by omega)
    constructor
    · intro k hk1 hk2
      omega
    · intro k _ _
      unfold pvGetItem pvGetRange
      rw [hwidth, hbits_eq]
  case pos =>
  have hS64 : (e - b) * pv.width ≤ 64 := by
    calc (e - b) * pv.width ≤ 64 / pv.width * pv.width :=
          Nat.mul_le_mul_right _ hchunk
      _ ≤ 64 := Nat.div_mul_le_self 64 pv.width
  have hsub : (e - b) * pv.width = e * pv.width - b * pv.width :=
    Nat.sub_mul e b pv.width
  have hble : b * pv.width ≤ e * pv.width := Nat.mul_le_mul_right _ (by omega)
  have hbits_eq := pvSetRange_bits (v := v) hw hchunk hbe'
  have hmaskn : pv.fieldMask * v =
      ∑ i ∈ Finset.range (64 / pv.width), v * 2 ^ (pv.width * i) := by
    rw [hmask, computeFieldMask_eq hw, Finset.sum_mul]
    apply Finset.sum_congr rfl
    intro i _
    ring
  have hfpw64 : pv.width * (64 / pv.width) ≤ 64 := by
    rw [Nat.mul_comm]
    exact Nat.div_mul_le_self 64 pv.width
  have hmaskn_lt : pv.fieldMask * v < M := by
    rw [hmaskn]
    calc (∑ i ∈ Finset.range (64 / pv.width), v * 2 ^ (pv.width * i))
        < 2 ^ (pv.width * (64 / pv.width)) := geomsum_lt hv _
      _ ≤ 2 ^ 64 := Nat.pow_le_pow_right (by norm_num) hfpw64
      _ = M := rfl
  have hVdig : ∀ i, i < e - b →
      lowbits ((pv.fieldMask * v) % M) ((e - b) * pv.width) / 2 ^ (pv.width * i) %
        2 ^ pv.width = v := by
    intro i hi
    rw [Nat.mod_eq_of_lt hmaskn_lt, lowbits_eq_mod hS64, hmaskn,
      show (e - b) * pv.width = pv.width * (e - b) from Nat.mul_comm _ _,
      geomsum_mod hv _ hchunk, geomsum_digit hv i hi]
  constructor
  · intro k hk1 hk2
    obtain ⟨i, rfl⟩ : ∃ i, k = b + i := ⟨k - b, by omega⟩
    have h1 : pvGetItem (pvSetRange pv b e v) (b + i) =
        bvGet (pvSetRange pv b e v).bits ((b + i) * pv.width)
          ((b + i + 1) * pv.width) := by
      unfold pvGetItem pvGetRange
      rw [hwidth]
    have e1 : (b + i) * pv.width - b * pv.width = pv.width * i := by
      rw [← Nat.sub_mul, Nat.add_sub_cancel_left]
      exact Nat.mul_comm i pv.width
    have e2 : (b + i + 1) * pv.width - (b + i) * pv.width = pv.width := by
      rw [← Nat.sub_mul, Nat.add_sub_cancel_left, Nat.one_mul]
    rw [h1, hbits_eq,
      bvGet_bvSet_inside (by omega) hrange hbig hbits
        (Nat.mul_le_mul_right _ (by omega)) (Nat.mul_le_mul_right _ (by omega))
        (Nat.mul_le_mul_right _ (by omega)),
      e1, e2, hVdig i (by omega)]
  · intro k hk hkb
    have h1 : pvGetItem (pvSetRange pv b e v) k =
        bvGet (pvSetRange pv b e v).bits (k * pv.width) ((k + 1) * pv.width) := by
      unfold pvGetItem pvGetRange
      rw [hwidth]
    have hsucc : (k + 1) * pv.width = k * pv.width + pv.width :=
      Nat.succ_mul k pv.width
    rw [h1, hbits_eq,
      bvGet_bvSet_outside (by omega) hrange hbig hbits (by omega) hkb
        (by
          rcases hk with hk | hk
          · exact Or.inl (Nat.mul_le_mul_right _ (by omega))
          · exact Or.inr (Nat.mul_le_mul_right _ hk))]
    rfl

/-- C8: the broadcast half of the claim holds — `set_range(b, e, v)` with a
single-field `v` writes `v` into every field (general theorem
`pvSetRange_field_spec`; here checked on the width-4 view `c7Pv`) — but the
pre-packed payload half is false in the code: `packed_view::set` always
multiplies the pattern by `field_mask`, so on a width-1 view of 8 fields the
payload 5 = 0b101 is not written as given: field 1 reads 1 although bit 1 of
the payload is 0, and field 2 reads 0 although bit 2 of the payload is 1. -/
theorem packed_view_set_range_bug :
    (∀ k, k < 2 → pvGetItem (pvSetRange c7Pv 0 2 9) k = 9) ∧
    pvGetItem (pvSetRange payloadPv 0 8 5) 1 = 1 ∧
    5 / 2 ^ (1 * 1) % 2 ^ 1 = 0 ∧
    pvGetItem (pvSetRange payloadPv 0 8 5) 2 = 0 ∧
    5 / 2 ^ (2 * 1) % 2 ^ 1 = 1 := by
  decide

/-- C5: there is no `CapacityExceeded` failure path in the engine.
`alloc_leaf` (`bitvector.cpp:596`) on a state whose leaf arena is already
exhausted (`free_leaf = leaves.size()`) still returns normally: it hands out
the first out-of-range arena index and bumps the counter past the end —
in the C++ this is an out-of-bounds access into the preallocated arena
(undefined behavior), not a raised runtime error.  `alloc_node`
(`bitvector.cpp:589`) behaves the same on an exhausted node arena, and the
error type of the engine has no capacity constructor at all: the only
surfaced failures are the `std::out_of_range` bounds checks of the public
API and the fuel guard of the embedding. -/
theorem capacity_exceeded_missing :
    (∀ v : BtImpl, v.freeLeaf = v.leaves.length →
      (allocLeaf v).1 = v.leaves.length ∧
      (allocLeaf v).2.freeLeaf = v.leaves.length + 1) ∧
    (∀ v : BtImpl, v.freeNode = v.sizes.size / v.degree →
      (allocNode v).1 = v.sizes.size / v.degree ∧
      (allocNode v).2.freeNode = v.sizes.size / v.degree + 1) ∧
    (∀ e : BtErr, e = BtErr.indexOutOfRange ∨ e = BtErr.fuelExhausted) := by
  refine ⟨?_, ?_, ?_⟩
  · intro v h
    exact ⟨h, by rw [show (allocLeaf v).2.freeLeaf = v.freeLeaf + 1 from rfl, h]⟩
  · intro v h
    exact ⟨h, by rw [show (allocNode v).2.freeNode = v.freeNode + 1 from rfl, h]⟩
  · intro e
    cases e
    · exact Or.inl rfl
    · exact Or.inr rfl

/-- Witness for C5: the concrete 256-capacity vector with its 7-leaf arena
exhausted; `alloc_leaf` yields index 7 = `leaves.size()` without error. -/
theorem capacity_exceeded_missing_witness :
    exhaustedBt.freeLeaf = exhaustedBt.leaves.length ∧
    (allocLeaf exhaustedBt).1 = exhaustedBt.leaves.length ∧
    (allocLeaf exhaustedBt).2.freeLeaf = exhaustedBt.leaves.length + 1 :=
  ⟨by decide,
   (capacity_exceeded_missing.1 exhaustedBt (by decide)).1,
   (capacity_exceeded_missing.1 exhaustedBt (by decide)).2⟩

/-- C9: `find_adjacent_children` does not choose the window with the most
free slots.  On a root with three leaf children of sizes (64, 64, 59)
(leaves buffer b = 2, degree 7) and `child = 1`, both [0, 2) and [1, 3) are
admissible contiguous b-wide windows containing the child; [1, 3) has 5 free
slots while [0, 2) has none, yet the code returns begin = 0, end = 2 with
occupied count 128.  The sliding update at `bitvector.cpp:800` adds
`count(end - 1)` — a child already inside the window — instead of
`count(end)`, the child the advanced window gains, so a better window to the
right is never seen. -/
theorem find_adjacent_children_not_optimal :
    findAdjacentChildren facBt facRoot 1 = (0, 2, 128) ∧
    (refChild facBt facRoot 1).height = 0 ∧
    facBt.leavesBuffer = 2 ∧
    facBt.degree = 7 ∧
    (0 ≤ 1 ∧ 1 < 2 ∧ 2 - 0 = facBt.leavesBuffer ∧ 2 ≤ facBt.degree + 1) ∧
    (1 ≤ 1 ∧ 1 < 3 ∧ 3 - 1 = facBt.leavesBuffer ∧ 3 ≤ facBt.degree + 1) ∧
    windowFreeSlots facBt facRoot true 64 0 2 = 0 ∧
    windowFreeSlots facBt facRoot true 64 1 3 = 5 ∧
    windowOccupied facBt facRoot true 64 0 2 = 128 := by
  decide

set_option maxRecDepth 100000 in
set_option maxHeartbeats 2000000 in
/-- C1: the insert/access contract breaks at the 65th insert of the fresh
capacity-256 vector.  64 × `push_back(true)` succeeds — size 64 (< 256
capacity) and `access(j) = true` for every `j < 64`.  The 65th insert
`insert(64, true)` also returns normally, with size 65, but `access(1)` now
reads `false`, although the claim requires `access(j)` to keep its previous
value `true` for every `j < 64`: the insert hits the full leaf, and
`redistribute_bits` stores whole leaf words through the broadcast-only
`packed_view::set` into the width-1 bit buffer, destroying the stored
prefix. -/
theorem insert_access_contract_broken :
    cexBt.capacity = 256 ∧
    cexState64.toOption.map (fun v =>
      (v.size,
       (List.range 64).all fun j => (btAccess v j).toOption = some true)) =
      some (64, true) ∧
    cexState65.toOption.map (fun v =>
      (v.size, (btAccess v 0).toOption, (btAccess v 1).toOption)) =
      some (65, some true, some false) := by
  decide

set_option maxRecDepth 100000 in
set_option maxHeartbeats 2000000 in
/-- C3: the leaf/counter coherence invariant breaks on the same trace.
After 65 successful `push_back(true)` the root's rank counter is 65 (the
number of inserted ones), but the leaves of the arena hold only 2 set bits
in total — `rank = Σ leaf popcounts` is violated, because the
redistribution destroyed the leaf contents while the cumulative counters
were rebuilt from the (stale) size bookkeeping. -/
theorem counter_invariants_broken :
    cexState65.toOption.map (fun v => (v.rank, (v.leaves.map popcount).sum)) =
      some (65, 2) ∧
    (65 : Nat) ≠ 2 := by
  constructor
  · decide
  · decide

/-- A packed field list is bounded by the width of its digits. -/
theorem pack_lt {w : Nat} : ∀ {xs : List Nat}, (∀ x ∈ xs, x < 2 ^ w) →
    pack w xs < 2 ^ (w * xs.length) := by
  intro xs
  induction xs with
  | nil => intro _; simp [pack]
  | cons x t ih =>
      intro h
      have hx := h x (by simp)
      have ht := ih (fun y hy => h y (by simp [hy]))
      have hpow : (2 : Nat) ^ (w * (x :: t).length) = 2 ^ w * 2 ^ (w * t.length) := by
        rw [List.length_cons, Nat.mul_succ, pow_add]
        ring
      rw [pack, hpow]
      calc x + 2 ^ w * pack w t
          < 2 ^ w + 2 ^ w * pack w t := by omega
        _ = 2 ^ w * (pack w t + 1) := by ring
        _ ≤ 2 ^ w * 2 ^ (w * t.length) := Nat.mul_le_mul_left _ (by omega)

/-- Multiplying the all-ones field mask broadcasts a value to every field. -/
theorem pack_replicate_mul {w t : Nat} :
    ∀ m, pack w (List.replicate m 1) * t = pack w (List.replicate m t) := by
  intro m
  induction m with
  | zero => simp [pack]
  | succ k ih =>
      rw [List.replicate_succ, List.replicate_succ, pack, pack, ← ih]
      ring

/-- Bit `j` of a digit-composed number. -/
theorem testBit_step {w a A : Nat} (ha : a < 2 ^ w) (j : Nat) :
    (a + 2 ^ w * A).testBit j =
      if j < w then a.testBit j else A.testBit (j - w) := by
  by_cases hj : j < w
  · rw [if_pos hj, Nat.testBit_to_div_mod, Nat.testBit_to_div_mod]
    have hdvd : (2 : Nat) ^ w * A / 2 ^ j = 2 ^ (w - j) * A * 2 ^ j / 2 ^ j := by
      rw [show (2 : Nat) ^ (w - j) * A * 2 ^ j = 2 ^ w * A from by
        rw [Nat.mul_comm (2 ^ (w - j) * A) (2 ^ j), ← Nat.mul_assoc, ← pow_add,
          show j + (w - j) = w from by omega]]
    have hsplit : (a + 2 ^ w * A) / 2 ^ j = a / 2 ^ j + 2 ^ (w - j) * A := by
      rw [show (2 : Nat) ^ w * A = 2 ^ (w - j) * A * 2 ^ j from by
        rw [Nat.mul_comm (2 ^ (w - j) * A) (2 ^ j), ← Nat.mul_assoc, ← pow_add,
          show j + (w - j) = w from by omega],
        Nat.add_mul_div_right _ _ (Nat.pos_pow_of_pos j (by norm_num))]
    rw [hsplit]
    have heven : (a / 2 ^ j + 2 ^ (w - j) * A) % 2 = a / 2 ^ j % 2 := by
      have : (2 : Nat) ∣ 2 ^ (w - j) * A :=
        Dvd.dvd.mul_right (dvd_pow_self 2 (by omega)) A
      omega
    rw [heven]
  · rw [if_neg hj, Nat.testBit_to_div_mod, Nat.testBit_to_div_mod]
    have hsplit : (a + 2 ^ w * A) / 2 ^ j = A / 2 ^ (j - w) := by
      rw [show (2 : Nat) ^ j = 2 ^ w * 2 ^ (j - w) from by
        rw [← pow_add, show w + (j - w) = j from by omega],
        ← Nat.div_div_eq_div_mul,
        show (a + 2 ^ w * A) / 2 ^ w = A from by
          rw [Nat.add_mul_div_left _ _ (Nat.pos_pow_of_pos w (by norm_num)),
            Nat.div_eq_of_lt ha, Nat.zero_add]]
    rw [hsplit]

/-- Bitwise AND distributes over aligned digit composition. -/
theorem and_step {w a b A B : Nat} (ha : a < 2 ^ w) (hb : b < 2 ^ w) :
    (a + 2 ^ w * A) &&& (b + 2 ^ w * B) = (a &&& b) + 2 ^ w * (A &&& B) := by
  apply Nat.eq_of_testBit_eq
  intro j
  rw [Nat.testBit_and, testBit_step ha, testBit_step hb,
    testBit_step (Nat.and_lt_two_pow a hb)]
  by_cases hj : j < w
  · rw [if_pos hj, if_pos hj, if_pos hj, Nat.testBit_and]
  · rw [if_neg hj, if_neg hj, if_neg hj, Nat.testBit_and]

/-- Bitwise AND of two packed lists is the packed list of field ANDs. -/
theorem pack_and {w : Nat} : ∀ (as bs : List Nat), as.length = bs.length →
    (∀ a ∈ as, a < 2 ^ w) → (∀ b ∈ bs, b < 2 ^ w) →
    pack w as &&& pack w bs = pack w (List.zipWith (fun a b => a &&& b) as bs) := by
  intro as
  induction as with
  | nil => intro bs _ _ _; simp [pack]
  | cons a t ih =>
      intro bs hlen ha hb
      cases bs with
      | nil => simp at hlen
      | cons b tb =>
          rw [List.zipWith_cons_cons, pack, pack, pack,
            and_step (ha a (by simp)) (hb b (by simp)),
            ih tb (by simpa using hlen) (fun y hy => ha y (by simp [hy]))
              (fun y hy => hb y (by simp [hy]))]

/-- Zipping with a long-enough constant list is mapping. -/
theorem zipWith_replicate_left {f : Nat → Nat → Nat} {c : Nat} :
    ∀ (xs : List Nat), List.zipWith f (List.replicate xs.length c) xs =
      xs.map (f c) := by
  intro xs
  induction xs with
  | nil => simp
  | cons x t ih => rw [List.length_cons, List.replicate_succ,
      List.zipWith_cons_cons, List.map_cons, ih]

/-- ANDing with the flag bit extracts it. -/
theorem flag_and {w d : Nat} (hw : 0 < w) (hd : d < 2 ^ w) :
    2 ^ (w - 1) &&& d = if 2 ^ (w - 1) ≤ d then 2 ^ (w - 1) else 0 := by
  have h2w : (2 : Nat) ^ w = 2 ^ (w - 1) * 2 := by
    rw [← pow_succ, show w - 1 + 1 = w from by omega]
  by_cases hge : 2 ^ (w - 1) ≤ d
  · rw [if_pos hge]
    apply Nat.eq_of_testBit_eq
    intro j
    rw [Nat.testBit_and, Nat.testBit_two_pow]
    by_cases hj : w - 1 = j
    · subst hj
      have hdiv : d / 2 ^ (w - 1) = 1 := by
        have h1 : 1 ≤ d / 2 ^ (w - 1) :=
          (Nat.one_le_div_iff (Nat.pos_pow_of_pos _ (by norm_num))).mpr hge
        have h2 : d / 2 ^ (w - 1) < 2 := Nat.div_lt_of_lt_mul (by omega)
        omega
      rw [show d.testBit (w - 1) = true from by
        rw [Nat.testBit_to_div_mod, hdiv]
        decide]
      simp
    · have h1 : decide (w - 1 = j) = false := by
        simp only [decide_eq_false_iff_not]; omega
      rw [h1, Bool.false_and]
  · rw [if_neg hge]
    apply Nat.eq_of_testBit_eq
    intro j
    rw [Nat.testBit_and, Nat.testBit_two_pow, Nat.zero_testBit]
    by_cases hj : w - 1 = j
    · subst hj
      rw [show d.testBit (w - 1) = false from
        Nat.testBit_lt_two_pow (by omega), Bool.and_false]
    · have h1 : decide (w - 1 = j) = false := by
        simp only [decide_eq_false_iff_not]; omega
      rw [h1, Bool.false_and]

/-- High garbage beyond the packed fields does not affect an AND with a
value confined to the fields. -/
theorem and_drop_high {k a x H : Nat} (ha : a < 2 ^ k) (hx : x < 2 ^ k) :
    a &&& (x + 2 ^ k * H) = a &&& x := by
  apply Nat.eq_of_testBit_eq
  intro j
  rw [Nat.testBit_and, Nat.testBit_and, testBit_step hx]
  by_cases hj : j < k
  · rw [if_pos hj]
  · rw [if_neg hj,
      show a.testBit j = false from Nat.testBit_lt_two_pow
        (lt_of_lt_of_le ha (Nat.pow_le_pow_right (by norm_num) (by omega))),
      Bool.false_and, Bool.false_and]

/-- `popcountAux` is fuel-insensitive once the fuel covers the argument. -/
theorem popcountAux_congr : ∀ (n f1 f2 : Nat), n ≤ f1 → n ≤ f2 →
    popcountAux f1 n = popcountAux f2 n := by
  intro n
  induction n using Nat.strong_induction_on with
  | _ n ih =>
      intro f1 f2 h1 h2
      cases hn : n with
      | zero =>
          cases f1 <;> cases f2 <;> simp [popcountAux]
      | succ m =>
          subst hn
          obtain ⟨g1, rfl⟩ : ∃ g, f1 = g + 1 := ⟨f1 - 1, by omega⟩
          obtain ⟨g2, rfl⟩ : ∃ g, f2 = g + 1 := ⟨f2 - 1, by omega⟩
          simp only [popcountAux]
          rw [ih ((m + 1) / 2) (by omega) g1 g2 (by omega) (by omega)]

/-- The defining recursion of `popcount`. -/
theorem popcount_rec {n : Nat} (hn : 0 < n) :
    popcount n = n % 2 + popcount (n / 2) := by
  unfold popcount
  obtain ⟨m, rfl⟩ : ∃ m, n = m + 1 := ⟨n - 1, by omega⟩
  simp only [popcountAux]
  rw [if_neg (by omega)]
  rw [popcountAux_congr ((m + 1) / 2) m ((m + 1) / 2) (by omega) (by omega)]

/-- `popcount` is additive across a digit boundary. -/
theorem popcount_split : ∀ (w x R : Nat), x < 2 ^ w →
    popcount (x + 2 ^ w * R) = popcount x + popcount R := by
  intro w
  induction w with
  | zero =>
      intro x R hx
      interval_cases x
      simp [popcount, popcountAux]
  | succ v ih =>
      intro x R hx
      by_cases hy : x + 2 ^ (v + 1) * R = 0
      · have hx0 : x = 0 := by omega
        have hR0 : R = 0 := by
          rcases Nat.eq_zero_or_pos R with h | h
          · exact h
          · exfalso
            have : 0 < 2 ^ (v + 1) * R :=
              Nat.mul_pos (Nat.pos_pow_of_pos _ (by norm_num)) h
            omega
        rw [hx0, hR0]
        norm_num [popcount, popcountAux]
      · rw [popcount_rec (by omega)]
        have hmod : (x + 2 ^ (v + 1) * R) % 2 = x % 2 := by
          have : (2 : Nat) ∣ 2 ^ (v + 1) * R :=
            Dvd.dvd.mul_right (dvd_pow_self 2 (by omega)) R
          omega
        have hdiv : (x + 2 ^ (v + 1) * R) / 2 = x / 2 + 2 ^ v * R := by
          rw [show (2 : Nat) ^ (v + 1) * R = 2 ^ v * R * 2 from by
            rw [pow_succ]; ring, Nat.add_mul_div_right _ _ (by norm_num)]
        rw [hmod, hdiv, ih (x / 2) R (by
          have : x < 2 ^ v * 2 := by rw [← pow_succ]; exact hx
          omega)]
        have hxrec : popcount x = x % 2 + popcount (x / 2) := by
          rcases Nat.eq_zero_or_pos x with h | h
          · subst h
            simp [popcount, popcountAux]
          · exact popcount_rec h
        rw [hxrec]
        ring

/-- `popcount` of a power of two. -/
theorem popcount_two_pow (k : Nat) : popcount (2 ^ k) = 1 := by
  induction k with
  | zero => rfl
  | succ v ih =>
      rw [popcount_rec (Nat.pos_pow_of_pos _ (by norm_num))]
      have h1 : (2 : Nat) ^ (v + 1) % 2 = 0 := by
        have : (2 : Nat) ∣ 2 ^ (v + 1) := dvd_pow_self 2 (by omega)
        omega
      have h2 : (2 : Nat) ^ (v + 1) / 2 = 2 ^ v := by
        rw [pow_succ]
        omega
      rw [h1, h2, ih]

/-- `popcount` of a packed list of flag digits counts the set flags. -/
theorem popcount_pack_flags {w : Nat} (hw : 0 < w) :
    ∀ (fs : List Nat), (∀ f ∈ fs, f = 0 ∨ f = 2 ^ (w - 1)) →
    popcount (pack w fs) = fs.countP (fun f => decide (f ≠ 0)) := by
  intro fs
  induction fs with
  | nil => intro _; simp [pack, popcount, popcountAux]
  | cons f t ih =>
      intro h
      have hf := h f (by simp)
      have hflt : f < 2 ^ w := by
        have : (2 : Nat) ^ (w - 1) < 2 ^ w :=
          Nat.pow_lt_pow_right (by norm_num) (by omega)
        rcases hf with rfl | rfl
        · exact Nat.pos_pow_of_pos _ (by norm_num)
        · exact this
      rw [pack, popcount_split w f (pack w t) hflt,
        ih (fun y hy => h y (by simp [hy])), List.countP_cons]
      rcases hf with rfl | rfl
      · simp [popcount, popcountAux]
      · have hpos := Nat.pos_pow_of_pos (w - 1) (show 0 < 2 from by norm_num)
        have hne : (decide ((2 : Nat) ^ (w - 1) ≠ 0)) = true := by
          simp only [ne_eq, decide_eq_true_eq]
          omega
        rw [hne, if_pos rfl, popcount_two_pow]
        omega

/-- The digit/borrow identity of the broadcast subtraction: the packed
difference digits plus the packed fields plus the incoming borrow equal the
broadcast threshold plus the outgoing borrow at the top, and the digits are
proper fields. -/
theorem swar_spec {w t : Nat} (ht : t < 2 ^ w) :
    ∀ (xs : List Nat) (brw : Nat), brw ≤ 1 → (∀ x ∈ xs, x < 2 ^ w) →
    pack w (swarSub w t xs brw).1 + pack w xs + brw =
      pack w (List.replicate xs.length t) +
        (swarSub w t xs brw).2 * 2 ^ (w * xs.length) ∧
    (swarSub w t xs brw).2 ≤ 1 ∧
    (∀ d ∈ (swarSub w t xs brw).1, d < 2 ^ w) ∧
    (swarSub w t xs brw).1.length = xs.length := by
  intro xs
  induction xs with
  | nil =>
      intro brw hb _
      refine ⟨by simp [swarSub, pack], by simpa [swarSub] using hb,
        by simp [swarSub], by simp [swarSub]⟩
  | cons x xt ih =>
      intro brw hb hx
      have hxw := hx x (by simp)
      have hpow : (2 : Nat) ^ (w * (xt.length + 1)) =
          2 ^ w * 2 ^ (w * xt.length) := by
        rw [Nat.mul_succ, pow_add]
        ring
      by_cases hc : x + brw ≤ t
      · have hrec := ih 0 (by omega) (fun y hy => hx y (by simp [hy]))
        have hred : swarSub w t (x :: xt) brw =
            ((t - (x + brw)) :: (swarSub w t xt 0).1, (swarSub w t xt 0).2) := by
          simp only [swarSub]
          rw [if_pos hc]
        rw [hred]
        refine ⟨?_, hrec.2.1, ?_, ?_⟩
        · simp only [pack, List.length_cons, List.replicate_succ]
          have hmul := congrArg (fun z => 2 ^ w * z) hrec.1
          simp only [Nat.mul_add] at hmul
          have hassoc : 2 ^ w * ((swarSub w t xt 0).2 * 2 ^ (w * xt.length)) =
              (swarSub w t xt 0).2 * (2 ^ w * 2 ^ (w * xt.length)) := by ring
          rw [hpow]
          omega
        · intro d hd
          rcases List.mem_cons.mp hd with rfl | hd
          · omega
          · exact hrec.2.2.1 d hd
        · simp only [List.length_cons, hrec.2.2.2]
      · have hrec := ih 1 (by omega) (fun y hy => hx y (by simp [hy]))
        have hred : swarSub w t (x :: xt) brw =
            ((2 ^ w + t - (x + brw)) :: (swarSub w t xt 1).1,
              (swarSub w t xt 1).2) := by
          simp only [swarSub]
          rw [if_neg hc]
        rw [hred]
        refine ⟨?_, hrec.2.1, ?_, ?_⟩
        · simp only [pack, List.length_cons, List.replicate_succ]
          have hmul := congrArg (fun z => 2 ^ w * z) hrec.1
          simp only [Nat.mul_add] at hmul
          have hassoc : 2 ^ w * ((swarSub w t xt 1).2 * 2 ^ (w * xt.length)) =
              (swarSub w t xt 1).2 * (2 ^ w * 2 ^ (w * xt.length)) := by ring
          rw [hpow]
          omega
        · intro d hd
          rcases List.mem_cons.mp hd with rfl | hd
          · omega
          · exact hrec.2.2.1 d hd
        · simp only [List.length_cons, hrec.2.2.2]

/-- With an incoming borrow and every field at least the threshold, every
difference digit carries the flag bit (and the borrow propagates). -/
theorem swar_flags_ge {w t : Nat} (hw : 0 < w) (ht : t < 2 ^ (w - 1)) :
    ∀ (xs : List Nat), (∀ x ∈ xs, t ≤ x) → (∀ x ∈ xs, x < 2 ^ (w - 1)) →
    (swarSub w t xs 1).1.countP (fun d => decide (2 ^ (w - 1) ≤ d)) =
      xs.length := by
  have h2w : (2 : Nat) ^ w = 2 ^ (w - 1) * 2 := by
    rw [← pow_succ, show w - 1 + 1 = w from by omega]
  intro xs
  induction xs with
  | nil => intro _ _; simp [swarSub]
  | cons x xt ih =>
      intro hge hbd
      have hxt := ih (fun y hy => hge y (by simp [hy]))
        (fun y hy => hbd y (by simp [hy]))
      have hxg := hge x (by simp)
      have hxb := hbd x (by simp)
      have hc : ¬ x + 1 ≤ t := by omega
      have hred : swarSub w t (x :: xt) 1 =
          ((2 ^ w + t - (x + 1)) :: (swarSub w t xt 1).1,
            (swarSub w t xt 1).2) := by
        simp only [swarSub]
        rw [if_neg hc]
      rw [hred, List.countP_cons]
      have hflag : (decide (2 ^ (w - 1) ≤ 2 ^ w + t - (x + 1))) = true := by
        simp only [decide_eq_true_eq]
        omega
      rw [hxt, hflag, if_pos rfl, List.length_cons]

/-- On a sorted bounded field list, the number of flagged difference digits
is the number of fields from the first one exceeding the threshold. -/
theorem swar_flags_sorted {w t : Nat} (hw : 0 < w) (ht : t < 2 ^ (w - 1)) :
    ∀ (xs : List Nat), List.Sorted (· ≤ ·) xs → (∀ x ∈ xs, x < 2 ^ (w - 1)) →
    (swarSub w t xs 0).1.countP (fun d => decide (2 ^ (w - 1) ≤ d)) =
      xs.length - xs.findIdx (fun y => decide (t < y)) := by
  have h2w : (2 : Nat) ^ w = 2 ^ (w - 1) * 2 := by
    rw [← pow_succ, show w - 1 + 1 = w from by omega]
  intro xs
  induction xs with
  | nil => intro _ _; simp [swarSub]
  | cons x xt ih =>
      intro hs hbd
      have hsc := List.sorted_cons.mp hs
      have hxb := hbd x (by simp)
      by_cases hc : x + 0 ≤ t
      · have hred : swarSub w t (x :: xt) 0 =
            ((t - (x + 0)) :: (swarSub w t xt 0).1, (swarSub w t xt 0).2) := by
          simp only [swarSub]
          rw [if_pos hc]
        rw [hred, List.countP_cons]
        have hflag : (decide (2 ^ (w - 1) ≤ t - (x + 0))) = false := by
          simp only [decide_eq_false_iff_not]
          omega
        rw [hflag, if_neg (by simp),
          ih hsc.2 (fun y hy => hbd y (by simp [hy]))]
        have hfi : List.findIdx (fun y => decide (t < y)) (x :: xt) =
            List.findIdx (fun y => decide (t < y)) xt + 1 := by
          simp only [List.findIdx_cons]
          rw [show (decide (t < x)) = false from by
            simp only [decide_eq_false_iff_not]; omega]
          rfl
        rw [hfi, List.length_cons]
        have hle := @List.findIdx_le_length _ (fun y => decide (t < y)) xt
        omega
      · have hred : swarSub w t (x :: xt) 0 =
            ((2 ^ w + t - (x + 0)) :: (swarSub w t xt 1).1,
              (swarSub w t xt 1).2) := by
          simp only [swarSub]
          rw [if_neg hc]
        rw [hred, List.countP_cons]
        have hflag : (decide (2 ^ (w - 1) ≤ 2 ^ w + t - (x + 0))) = true := by
          simp only [decide_eq_true_eq]
          omega
        have hge := swar_flags_ge hw ht xt
          (fun y hy => by
            have := hsc.1 y hy
            omega)
          (fun y hy => hbd y (by simp [hy]))
        rw [hflag, if_pos rfl, hge]
        have hfi : List.findIdx (fun y => decide (t < y)) (x :: xt) = 0 := by
          simp only [List.findIdx_cons]
          rw [show (decide (t < x)) = true from by
            simp only [decide_eq_true_eq]; omega]
          rfl
        rw [hfi, List.length_cons]
        omega

/-- C2: the SIMD `find` of the specification (the body of
`packed_view::find`, declared at `packed_view.h:195`, is absent from `src/`,
so the computation is modelled from §4.2 of the spec) returns the least
index whose field strictly exceeds the threshold — and the number of fields
when there is none — on any word of monotone non-decreasing fields below
`2 ^ (width - 1)` packed as by `packed_view`, with a threshold below
`2 ^ (width - 1)`: one broadcast subtraction, one flag-bit mask, one
popcount. -/
theorem find_simd_returns_least_above (w t : Nat) (xs : List Nat)
    (hw : 0 < w) (hfit : w * xs.length ≤ 64)
    (hsort : List.Sorted (· ≤ ·) xs)
    (hbd : ∀ x ∈ xs, x < 2 ^ (w - 1)) (ht : t < 2 ^ (w - 1)) :
    specFindSimd w xs.length (pack w xs) t =
      xs.findIdx (fun y => decide (t < y)) ∧
    (∀ j, j < xs.findIdx (fun y => decide (t < y)) → xs.getD j 0 ≤ t) ∧
    (xs.findIdx (fun y => decide (t < y)) < xs.length →
      t < xs.getD (xs.findIdx (fun y => decide (t < y))) 0) ∧
    xs.findIdx (fun y => decide (t < y)) ≤ xs.length := by
  have hhalf : (2 : Nat) ^ (w - 1) ≤ 2 ^ w :=
    Nat.pow_le_pow_right (by norm_num) (by omega)
  have hbd' : ∀ x ∈ xs, x < 2 ^ w := fun x hx => lt_of_lt_of_le (hbd x hx) hhalf
  have htw : t < 2 ^ w := lt_of_lt_of_le ht hhalf
  have hflt : (2 : Nat) ^ (w - 1) < 2 ^ w :=
    Nat.pow_lt_pow_right (by norm_num) (by omega)
  have hpow64 : (2 : Nat) ^ (w * xs.length) ≤ 2 ^ 64 :=
    Nat.pow_le_pow_right (by norm_num) hfit
  have hMeq : M = 2 ^ 64 := rfl
  have hswar := swar_spec htw xs 0 (by omega) hbd'
  have hidx_le := @List.findIdx_le_length _ (fun y => decide (t < y)) xs
  refine ⟨?_, ?_, ?_, hidx_le⟩
  · -- the computation
    have hpackds_lt : pack w (swarSub w t xs 0).1 < 2 ^ (w * xs.length) := by
      have h := pack_lt (w := w) hswar.2.2.1
      rw [hswar.2.2.2] at h
      exact h
    have hpackxs_lt : pack w xs < 2 ^ (w * xs.length) := pack_lt hbd'
    have hrepl_lt : pack w (List.replicate xs.length t) < 2 ^ (w * xs.length) := by
      have h := @pack_lt w (List.replicate xs.length t)
        (fun c hc => by rw [List.eq_of_mem_replicate hc]; exact htw)
      rw [List.length_replicate] at h
      exact h
    have hflag_lt : pack w (List.replicate xs.length (2 ^ (w - 1))) <
        2 ^ (w * xs.length) := by
      have h := @pack_lt w (List.replicate xs.length (2 ^ (w - 1)))
        (fun c hc => by rw [List.eq_of_mem_replicate hc]; exact hflt)
      rw [List.length_replicate] at h
      exact h
    have hfm : pack w (List.replicate xs.length 1) * t % M =
        pack w (List.replicate xs.length t) := by
      rw [pack_replicate_mul]
      exact Nat.mod_eq_of_lt (by omega)
    have hX : pack w xs % M = pack w xs := Nat.mod_eq_of_lt (by omega)
    have hflagmask : pack w (List.replicate xs.length 1) * 2 ^ (w - 1) % M =
        pack w (List.replicate xs.length (2 ^ (w - 1))) := by
      rw [pack_replicate_mul]
      exact Nat.mod_eq_of_lt (by omega)
    have hS : (pack w (List.replicate xs.length 1) * t % M +
        (M - pack w xs % M)) % M =
        pack w (swarSub w t xs 0).1 +
          (swarSub w t xs 0).2 * (M - 2 ^ (w * xs.length)) := by
      rw [hfm, hX]
      have hid := hswar.1
      rcases Nat.le_one_iff_eq_zero_or_eq_one.mp hswar.2.1 with hb0 | hb1
      · rw [hb0] at hid ⊢
        rw [show pack w (List.replicate xs.length t) + (M - pack w xs) =
          pack w (swarSub w t xs 0).1 + M from by omega]
        rw [Nat.add_mod_right, Nat.mod_eq_of_lt (by omega)]
        omega
      · rw [hb1] at hid ⊢
        rw [show pack w (List.replicate xs.length t) + (M - pack w xs) =
          pack w (swarSub w t xs 0).1 + (M - 2 ^ (w * xs.length)) from by omega]
        rw [Nat.mod_eq_of_lt (by omega)]
        omega
    have hAnd : pack w (List.replicate xs.length (2 ^ (w - 1))) &&&
        (pack w (swarSub w t xs 0).1 +
          (swarSub w t xs 0).2 * (M - 2 ^ (w * xs.length))) =
        pack w (List.replicate xs.length (2 ^ (w - 1))) &&&
          pack w (swarSub w t xs 0).1 := by
      rcases Nat.le_one_iff_eq_zero_or_eq_one.mp hswar.2.1 with hb0 | hb1
      · rw [hb0, Nat.zero_mul, Nat.add_zero]
      · have hsplit : M - 2 ^ (w * xs.length) =
            2 ^ (w * xs.length) * (2 ^ (64 - w * xs.length) - 1) := by
          have h64 : (2 : Nat) ^ 64 =
              2 ^ (w * xs.length) * 2 ^ (64 - w * xs.length) := by
            rw [← pow_add, show w * xs.length + (64 - w * xs.length) = 64 from
              by omega]
          rw [hMeq, h64, Nat.mul_sub, Nat.mul_one]
        rw [hb1, Nat.one_mul, hsplit]
        exact and_drop_high hflag_lt hpackds_lt
    have hAndPack : pack w (List.replicate xs.length (2 ^ (w - 1))) &&&
        pack w (swarSub w t xs 0).1 =
        pack w ((swarSub w t xs 0).1.map
          (fun d => if 2 ^ (w - 1) ≤ d then 2 ^ (w - 1) else 0)) := by
      rw [pack_and (List.replicate xs.length (2 ^ (w - 1))) (swarSub w t xs 0).1
        (by rw [List.length_replicate, hswar.2.2.2])
        (fun c hc => by rw [List.eq_of_mem_replicate hc]; exact hflt)
        hswar.2.2.1]
      rw [show List.replicate xs.length (2 ^ (w - 1)) =
        List.replicate (swarSub w t xs 0).1.length (2 ^ (w - 1)) from by
          rw [hswar.2.2.2]]
      rw [zipWith_replicate_left]
      apply congrArg
      apply List.map_congr_left
      intro d hd
      exact flag_and hw (hswar.2.2.1 d hd)
    have hpc : popcount (pack w ((swarSub w t xs 0).1.map
        (fun d => if 2 ^ (w - 1) ≤ d then 2 ^ (w - 1) else 0))) =
        (swarSub w t xs 0).1.countP (fun d => decide (2 ^ (w - 1) ≤ d)) := by
      rw [popcount_pack_flags hw _ (by
        intro f hf
        rcases List.mem_map.mp hf with ⟨d, _, rfl⟩
        by_cases hged : 2 ^ (w - 1) ≤ d
        · rw [if_pos hged]
          exact Or.inr rfl
        · rw [if_neg hged]
          exact Or.inl rfl)]
      rw [List.countP_map]
      apply List.countP_congr
      intro d hd
      have hpos : 0 < (2 : Nat) ^ (w - 1) := Nat.pos_pow_of_pos _ (by norm_num)
      simp only [Function.comp_apply, ne_eq, decide_eq_true_eq]
      by_cases hged : 2 ^ (w - 1) ≤ d
      · rw [if_pos hged]
        constructor
        · intro _
          exact hged
        · intro _
          omega
      · rw [if_neg hged]
        simp [hged]
    have hcount := swar_flags_sorted hw ht xs hsort hbd
    unfold specFindSimd
    dsimp only
    rw [hflagmask, hS, hAnd, hAndPack, hpc, hcount]
    omega
  · intro j hj
    have hj' : j < xs.length := lt_of_lt_of_le hj hidx_le
    have hfalse := List.not_of_lt_findIdx hj
    simp only [decide_eq_false_iff_not, not_lt] at hfalse
    rw [List.getD_eq_get xs 0 hj', List.get_eq_getElem]
    exact hfalse
  · intro hlt
    have htrue := @List.findIdx_get _ (fun y => decide (t < y)) xs hlt
    simp only [decide_eq_true_eq] at htrue
    rw [List.getD_eq_get xs 0 hlt]
    exact htrue

/-- Witness for C2: width-9 cumulative size fields (64, 128, 187, 187, 187,
187, 187) of a degree-7 node and threshold 150 — the answer is field 2, the
first one above 150. -/
theorem find_simd_returns_least_above_witness :
    specFindSimd 9 7 (pack 9 [64, 128, 187, 187, 187, 187, 187]) 150 =
      List.findIdx (fun y => decide (150 < y)) [64, 128, 187, 187, 187, 187, 187] ∧
    List.findIdx (fun y => decide (150 < y)) [64, 128, 187, 187, 187, 187, 187] = 2 ∧
    (∀ j, j < List.findIdx (fun y => decide (150 < y))
        [64, 128, 187, 187, 187, 187, 187] →
      List.getD [64, 128, 187, 187, 187, 187, 187] j 0 ≤ 150) := by
  have h := find_simd_returns_least_above 9 150 [64, 128, 187, 187, 187, 187, 187]
    (by norm_num) (by norm_num) (by decide) (by decide) (by decide)
  exact ⟨h.1, by decide, h.2.1⟩

end BV

